import Mathlib

/-!
# Verification of the vibe-legal-redliner position-mapping and redline engine

A shallow embedding, in Lean 4, of the core of the redlining engine:
the common-context trimmer and fuzzy matcher, the document mapper
(flattening a tree of paragraphs/tables/runs into an offset-addressable
span list), the tracked-change mutation routines (insert/delete,
accept/reject), the batch orchestration, the comment store, and the
word-diff pipeline wrapper.  Text is modelled as `List Char`; machine
dictionaries as association lists; XML node identity as natural-number
node ids.  Each definition mirrors one Python function of the source
tree (file and function named in its doc comment).
-/

namespace VibeRedline

/-- Text is modelled as a list of characters (Python `str`). -/
abbrev Str := List Char

/-- Left brace character, kept symbolic. -/
def lbrace : Char := Char.ofNat 123

/-- Right brace character, kept symbolic. -/
def rbrace : Char := Char.ofNat 125

/-- Python `str.isspace` on one character, restricted to the ASCII
whitespace characters that can occur in word-processing text. -/
def pyIsSpace (c : Char) : Bool :=
  c = ' ' || c = '\t' || c = '\n' || c = '\r' || c = Char.ofNat 11 || c = Char.ofNat 12

/-- Python `s.isspace()` on a whole string: nonempty and all-whitespace. -/
def pyStrIsSpace (s : Str) : Bool :=
  !s.isEmpty && s.all pyIsSpace

/-- Decimal rendering of a natural number (Python `str(int)`), digit list. -/
def natToStr (n : Nat) : Str :=
  (Nat.toDigits 10 n)

/-- Occurrence of `needle` at position `i` of `hay` (Python slicing test). -/
def occursAt (hay needle : Str) (i : Nat) : Prop :=
  needle <+: hay.drop i ∧ i ≤ hay.length

instance (hay needle : Str) (i : Nat) : Decidable (occursAt hay needle i) := by
  unfold occursAt
  infer_instance

/-- Python `hay.find(needle)`: index of the leftmost occurrence, or `none`.
Scans positions left to right. -/
def pyFind : Str → Str → Option Nat
  | hay, needle =>
    if needle.isPrefixOf hay then some 0
    else
      match hay with
      | [] => none
      | _ :: rest => (pyFind rest needle).map (· + 1)

/-- Python `a.startswith(b)`. -/
def pyStartsWith (a b : Str) : Bool := b.isPrefixOf a

/-! ## Common-context trimmer (`engine.py`, `_trim_common_context`, lines 25-140) -/

/-- Start positions of the non-overlapping matches of the regex `\*\*`
in a string, scanning left to right (`re.finditer(r"\*\*", ...)`). -/
def boldIndicesAux : Str → Nat → List Nat
  | '*' :: '*' :: rest, i => i :: boldIndicesAux rest (i + 2)
  | _ :: rest, i => boldIndicesAux rest (i + 1)
  | [], _ => []

/-- Start positions of `**` matches from offset 0. -/
def boldIndices (s : Str) : List Nat := boldIndicesAux s 0

/-- Positions of `_` characters (`re.finditer(r"_", ...)`). -/
def underscoreIndicesAux : Str → Nat → List Nat
  | '_' :: rest, i => i :: underscoreIndicesAux rest (i + 1)
  | _ :: rest, i => underscoreIndicesAux rest (i + 1)
  | [], _ => []

/-- Positions of `_` characters from offset 0. -/
def underscoreIndices (s : Str) : List Nat := underscoreIndicesAux s 0

/-- `get_unbalanced_index` (inner helper of `_trim_common_context`):
if the number of `**` matches is odd, the start of the last one; else if the
number of `_` characters is odd, the position of the last one; else `none`. -/
def get_unbalanced_index (s : Str) : Option Nat :=
  if (boldIndices s).length % 2 ≠ 0 then (boldIndices s).getLast?
  else if (underscoreIndices s).length % 2 ≠ 0 then (underscoreIndices s).getLast?
  else none

/-- Raw common-prefix length by character comparison (first loop of
`_trim_common_context`). -/
def commonPrefixLen : Str → Str → Nat
  | a :: as, b :: bs => if a = b then commonPrefixLen as bs + 1 else 0
  | _, _ => 0

/-- The word-boundary backtrack for the prefix: while `p > 0` and neither
`target[p-1]` nor `target[p]` is whitespace, decrement `p`.  Entered only
when `p < target.length` (matching the guard in the source). -/
def prefixWordBacktrack (target : Str) : Nat → Nat
  | 0 => 0
  | p + 1 =>
    if pyIsSpace (target.getD p ' ') || pyIsSpace (target.getD (p + 1) ' ') then p + 1
    else prefixWordBacktrack target p

/-- Inner loop of the heading-marker backoff: while `p > 0` and
`target[p-1] ≠ '\n'`, decrement. -/
def backToLineStart (target : Str) : Nat → Nat
  | 0 => 0
  | p + 1 => if target.getD p ' ' = '\n' then p + 1 else backToLineStart target p

/-- Heading-marker backoff (`# Safety: Backtrack if we consumed a Markdown
Header marker`): scan `temp_len` down from the prefix; on `'#'` back the
prefix off to the preceding line start, on `'\n'` stop. -/
def headerBacktrack (target : Str) (p : Nat) : Nat → Nat
  | 0 => p
  | t + 1 =>
    let c := target.getD t ' '
    if c = '#' then backToLineStart target t
    else if c = '\n' then p
    else headerBacktrack target p t

/-- Delimiter-balance backoff for the prefix, fuel-indexed so that it is
structural (kernel-computable): while the retained prefix has an unbalanced
`**`/`_`, move the prefix to just before the offending token.  Each step
strictly decreases the prefix, so `fuel = p` always suffices. -/
def balanceBacktrackPrefixGo (target : Str) : Nat → Nat → Nat
  | fuel, p =>
    match get_unbalanced_index (target.take p) with
    | none => p
    | some idx =>
      match fuel with
      | 0 => p
      | fuel + 1 => balanceBacktrackPrefixGo target fuel idx

/-- Delimiter-balance backoff for the prefix (loop of `_trim_common_context`). -/
def balanceBacktrackPrefix (target : Str) (p : Nat) : Nat :=
  balanceBacktrackPrefixGo target p p

/-- Suffix compare loop, fuel-indexed (structural, kernel-computable):
longest common suffix of `target`/`newv` up to `limit` characters.
`fuel = limit` always suffices since `s` increases towards `limit`. -/
def suffixCompareLenGo (target newv : Str) (limit : Nat) : Nat → Nat → Nat
  | 0, s => s
  | fuel + 1, s =>
    if s < limit ∧
        target.getD (target.length - (s + 1)) ' ' = newv.getD (newv.length - (s + 1)) ' ' then
      suffixCompareLenGo target newv limit fuel (s + 1)
    else s

/-- Suffix compare loop of `_trim_common_context`: the index stays below
`limit ≤ min(len(target), len(new))`, so the negative Python indices
`target[-(s+1)]`/`new_val[-(s+1)]` are always in range. -/
def suffixCompareLen (target newv : Str) (limit : Nat) : Nat :=
  suffixCompareLenGo target newv limit limit 0

/-- Word-boundary backtrack for the suffix: while `s > 0` and neither
`target[-(s+1)]` nor `target[-s]` is whitespace, decrement. -/
def suffixWordBacktrack (target : Str) : Nat → Nat
  | 0 => 0
  | s + 1 =>
    if pyIsSpace (target.getD (target.length - (s + 2)) ' ') ||
        pyIsSpace (target.getD (target.length - (s + 1)) ' ') then s + 1
    else suffixWordBacktrack target s

/-- Delimiter-balance backoff for the suffix: while the retained suffix has
an unbalanced `**`/`_`, shrink it by one character. -/
def balanceBacktrackSuffix (target : Str) : Nat → Nat
  | 0 => 0
  | s + 1 =>
    if get_unbalanced_index (target.drop (target.length - (s + 1))) = none then s + 1
    else balanceBacktrackSuffix target s

/-- Prefix stage of `_trim_common_context`: raw common prefix, word-boundary
backoff (entered only when the prefix is proper on both sides), then the
heading-marker backoff. -/
def trimPrefixPreBalance (target newv : Str) : Nat :=
  let p0 := commonPrefixLen target newv
  let p1 := if p0 < target.length ∧ p0 < newv.length then prefixWordBacktrack target p0 else p0
  headerBacktrack target p1 p1

/-- Final retained prefix length of `_trim_common_context`: the prefix stage
followed by the delimiter-balance backoff. -/
def trimPrefixLen (target newv : Str) : Nat :=
  balanceBacktrackPrefix target (trimPrefixPreBalance target newv)

/-- Suffix stage of `_trim_common_context` before the balance backoff:
common-suffix compare bounded by the remaining lengths, then word-boundary
backoff. -/
def trimSuffixPreBalance (target newv : Str) : Nat :=
  let prefixLen := trimPrefixLen target newv
  let limitSuffix := min (target.length - prefixLen) (newv.length - prefixLen)
  let s0 := suffixCompareLen target newv limitSuffix
  if 0 < s0 ∧ s0 < target.length then suffixWordBacktrack target s0 else s0

/-- Final retained suffix length of `_trim_common_context`: balance backoff,
then the all-whitespace-suffix rule (a purely-whitespace suffix counts as
zero). -/
def trimSuffixLen (target newv : Str) : Nat :=
  if 0 < balanceBacktrackSuffix target (trimSuffixPreBalance target newv) ∧
      pyStrIsSpace (target.drop
        (target.length - balanceBacktrackSuffix target (trimSuffixPreBalance target newv))) then 0
  else balanceBacktrackSuffix target (trimSuffixPreBalance target newv)

/-- `_trim_common_context(target, new_val)` (`engine.py` lines 25-140):
returns `(prefix_len, suffix_len)`, the lengths of the retained common
context, after word-boundary, heading and delimiter-balance backoffs and
the all-whitespace-suffix rule. -/
def _trim_common_context (target newv : Str) : Nat × Nat :=
  if target.isEmpty || newv.isEmpty then (0, 0)
  else (trimPrefixLen target newv, trimSuffixLen target newv)

/-! ## Fuzzy matcher (`mapper.py`, lines 452-523) -/

/-- Left curly double quote (U+201C). -/
def ldquo : Char := Char.ofNat 0x201C
/-- Right curly double quote (U+201D). -/
def rdquo : Char := Char.ofNat 0x201D
/-- Left curly single quote (U+2018). -/
def lsquo : Char := Char.ofNat 0x2018
/-- Right curly single quote (U+2019). -/
def rsquo : Char := Char.ofNat 0x2019

/-- `DocumentMapper._replace_smart_quotes`: normalize curly quotes to ASCII.
Each Python `replace` is a 1-character-to-1-character substitution, so the
chain of four replaces is one character map. -/
def _replace_smart_quotes (s : Str) : Str :=
  s.map fun c =>
    if c = ldquo then '"'
    else if c = rdquo then '"'
    else if c = lsquo then '\''
    else if c = rsquo then '\''
    else c

/-- One token of the generated tolerant regex of `_make_fuzzy_regex`. -/
inductive FuzzyTok where
  | lit (s : Str)
  | underscores            -- `_+`
  | spaces                 -- `\s+`
  | squote                 -- `['‘’]`
  | dquote                 -- `["“”]`
deriving Repr, DecidableEq

/-- Characters captured by the token pattern `(_+)|(\s+)|(['\"])`. -/
def isFuzzySpecial (c : Char) : Bool :=
  c = '_' || pyIsSpace c || c = '\'' || c = '"'

/-- Dropping a prefix never lengthens a list (termination helper). -/
theorem dropWhile_length_le (p : Char → Bool) (l : Str) :
    (l.dropWhile p).length ≤ l.length := by
  induction l with
  | nil => simp [List.dropWhile]
  | cons a l ih =>
    by_cases h : p a
    · simp [List.dropWhile, h]; omega
    · simp [List.dropWhile, h]

/-- `DocumentMapper._make_fuzzy_regex` tokenization: the `finditer` scan over
the quote-normalized target splits it into literal chunks and the tolerant
tokens; this scan reproduces the leftmost non-overlapping matches of
`(_+)|(\s+)|(['\"])` with maximal (greedy) runs. -/
def tokenizeFuzzyGo : Nat → Str → List FuzzyTok
  | 0, _ => []
  | fuel + 1, s =>
    match s with
    | [] => []
    | c :: rest =>
      if c = '_' then .underscores :: tokenizeFuzzyGo fuel (rest.dropWhile (· = '_'))
      else if pyIsSpace c then .spaces :: tokenizeFuzzyGo fuel (rest.dropWhile pyIsSpace)
      else if c = '\'' then .squote :: tokenizeFuzzyGo fuel rest
      else if c = '"' then .dquote :: tokenizeFuzzyGo fuel rest
      else
        .lit ((c :: rest).takeWhile (fun d => !isFuzzySpecial d)) ::
          tokenizeFuzzyGo fuel (rest.dropWhile (fun d => !isFuzzySpecial d))

/-- Fuel wrapper for the tokenizer: each step consumes at least one
character, so `fuel = s.length` always suffices. -/
def tokenizeFuzzy (s : Str) : List FuzzyTok :=
  tokenizeFuzzyGo s.length s

/-- `_make_fuzzy_regex(target_text)`: quote-normalize, then tokenize. -/
def _make_fuzzy_regex (target : Str) : List FuzzyTok :=
  tokenizeFuzzy (_replace_smart_quotes target)

/-- Greedy length choice with backtracking: try `k, k-1, …, 1`. -/
def tryGreedy (f : Nat → Option Nat) : Nat → Option Nat
  | 0 => none
  | i + 1 =>
    match f (i + 1) with
    | some m => some m
    | none => tryGreedy f i

/-- Backtracking matcher for a token list against a prefix of `s`
(Python `re` semantics: `_+`/`\s+` are greedy with backtracking).
Returns the number of characters consumed. -/
def matchToks : List FuzzyTok → Str → Option Nat
  | [], _ => some 0
  | .lit l :: rest, s =>
    if l.isPrefixOf s then (matchToks rest (s.drop l.length)).map (· + l.length) else none
  | .underscores :: rest, s =>
    tryGreedy (fun i => (matchToks rest (s.drop i)).map (· + i))
      ((s.takeWhile (· = '_')).length)
  | .spaces :: rest, s =>
    tryGreedy (fun i => (matchToks rest (s.drop i)).map (· + i))
      ((s.takeWhile pyIsSpace).length)
  | .squote :: rest, s =>
    match s with
    | c :: s' =>
      if c = '\'' || c = lsquo || c = rsquo then (matchToks rest s').map (· + 1) else none
    | [] => none
  | .dquote :: rest, s =>
    match s with
    | c :: s' =>
      if c = '"' || c = ldquo || c = rdquo then (matchToks rest s').map (· + 1) else none
    | [] => none

/-- `re.search`: leftmost position where the token list matches; returns
`(start, matched length)`. -/
def regexSearchAux (toks : List FuzzyTok) : Str → Nat → Option (Nat × Nat)
  | s, i =>
    match matchToks toks s with
    | some m => some (i, m)
    | none =>
      match s with
      | [] => none
      | _ :: r => regexSearchAux toks r (i + 1)

/-- `re.search(pattern, s)` over the token-list pattern. -/
def regexSearch (toks : List FuzzyTok) (s : Str) : Option (Nat × Nat) :=
  regexSearchAux toks s 0

/-- Which of the three matcher strategies produced the result. -/
inductive MatchStrategy where
  | exact | quoteNorm | fuzzy | notFound
deriving Repr, DecidableEq

/-- `DocumentMapper.find_match_index` (pure string core), instrumented with
the strategy that fired: (1) exact substring, (2) substring after smart-quote
normalization of both sides, (3) generated tolerant regex; `(-1, 0)` if all
fail.  Strategies are tried in this order and short-circuit. -/
def find_match_index_core (full target : Str) : (Int × Nat) × MatchStrategy :=
  match pyFind full target with
  | some i => (((i : Int), target.length), .exact)
  | none =>
    match pyFind (_replace_smart_quotes full) (_replace_smart_quotes target) with
    | some i => (((i : Int), target.length), .quoteNorm)
    | none =>
      match regexSearch (_make_fuzzy_regex target) full with
      | some (i, m) => (((i : Int), m), .fuzzy)
      | none => ((-1, 0), .notFound)

/-- `DocumentMapper.find_match_index` on strings: result only. -/
def find_match_index_str (full target : Str) : Int × Nat :=
  (find_match_index_core full target).1

/-! ## Edit classification (`engine.py`, `_apply_single_edit_heuristic`, lines 655-706) -/

/-- `EditOperationType` (`models.py`). -/
inductive EditOperationType where
  | INSERTION | DELETION | MODIFICATION
deriving Repr, DecidableEq

/-- Outcome of the classification slice of `_apply_single_edit_heuristic`:
either a no-op (counted as applied, no mutation) or an operation on the
trimmed residual texts at an effective start offset. -/
inductive ClassifyResult where
  | noop
  | op (kind : EditOperationType) (finalTarget finalNew : Str) (effectiveStart : Nat)
deriving Repr, DecidableEq

/-- Classification of a matched edit (`engine.py` lines 655-689), given the
actual document text at the match and the effective replacement text:
equal texts are a no-op; a replacement that extends the matched text is a
pure append (Insertion after the match); otherwise the common context is
trimmed and the residual pair decides the operation. -/
def classifyEdit (actual newv : Str) (startIdx matchLen : Nat) : ClassifyResult :=
  if actual = newv then .noop
  else if pyStartsWith newv actual then
    .op .INSERTION [] (newv.drop actual.length) (startIdx + matchLen)
  else
    let p := (_trim_common_context actual newv).1
    let s := (_trim_common_context actual newv).2
    let finalTarget := (actual.take (actual.length - s)).drop p
    let finalNew := (newv.take (newv.length - s)).drop p
    if finalTarget.isEmpty && !finalNew.isEmpty then .op .INSERTION finalTarget finalNew (startIdx + p)
    else if !finalTarget.isEmpty && finalNew.isEmpty then .op .DELETION finalTarget finalNew (startIdx + p)
    else if !finalTarget.isEmpty && !finalNew.isEmpty then .op .MODIFICATION finalTarget finalNew (startIdx + p)
    else .noop

/-- The operation kind of a classification result (`none` = no-op). -/
def kindOf : ClassifyResult → Option EditOperationType
  | .noop => none
  | .op k _ _ _ => some k

/-- The residual pair after common prefix/suffix trimming of the matched
document text against the replacement text. -/
def trimmedResiduals (actual newv : Str) : Str × Str :=
  ((actual.take (actual.length - (_trim_common_context actual newv).2)).drop
      (_trim_common_context actual newv).1,
    (newv.take (newv.length - (_trim_common_context actual newv).2)).drop
      (_trim_common_context actual newv).1)

/-- The operation kind that the spec's classification table assigns to the
residual pair: both empty → no-op; old empty → Insertion; new empty →
Deletion; both non-empty → Modification.  (Spec-side definition, for
comparison with `classifyEdit`.) -/
def residualOpKind (actual newv : Str) : Option EditOperationType :=
  if (trimmedResiduals actual newv).1.isEmpty && (trimmedResiduals actual newv).2.isEmpty then none
  else if (trimmedResiduals actual newv).1.isEmpty then some .INSERTION
  else if (trimmedResiduals actual newv).2.isEmpty then some .DELETION
  else some .MODIFICATION

/-! ## Batch orchestration (`engine.py`, `RedlineEngine.apply_edits`, lines 559-584) -/

/-- Which mapper a heuristic edit resolved against (`_active_mapper_ref`). -/
inductive MapperTag where
  | raw | clean
deriving Repr, DecidableEq

/-- `DocumentEdit` (`models.py`): the public target/new/comment fields plus
the engine-private match index, resolved operation and active-mapper
reference. -/
structure DocumentEdit where
  target_text : Str
  new_text : Str
  comment : Option Str := none
  matchStartIndex : Option Nat := none
  internalOp : Option EditOperationType := none
  activeMapperRef : Option MapperTag := none
deriving Repr, DecidableEq

/-- The three engine primitives that `apply_edits` orchestrates, abstracted
over the engine state `σ`. -/
structure EngineOps (σ : Type) where
  applyIndexed : DocumentEdit → σ → Bool × σ
  applyHeuristic : DocumentEdit → σ → Bool × σ
  rebuild : σ → σ

/-- One observable engine action during a batch. -/
inductive BatchEvent where
  | applyIndexed (e : DocumentEdit)
  | rebuild
  | applyHeuristic (e : DocumentEdit)
deriving Repr, DecidableEq

/-- Sort key of phase 1: `x._match_start_index or 0`. -/
def idxKey (e : DocumentEdit) : Nat := e.matchStartIndex.getD 0

/-- Phase-1 sort: descending match offset.  A stable sort, like Python's
`list.sort`; stable sorts of the same key agree elementwise. -/
def sortIndexedDesc (l : List DocumentEdit) : List DocumentEdit :=
  l.insertionSort (fun a b => idxKey b ≤ idxKey a)

/-- Phase-2 sort: descending target-text length (stable). -/
def sortByLenDesc (l : List DocumentEdit) : List DocumentEdit :=
  l.insertionSort (fun a b => b.target_text.length ≤ a.target_text.length)

/-- Phase 1 of `apply_edits`: apply each indexed edit in order, with no
rebuild between applications; returns counters, final state and the trace. -/
def applyIndexedPhase (ops : EngineOps σ) :
    List DocumentEdit → (Nat × Nat) → σ → ((Nat × Nat) × σ × List BatchEvent)
  | [], cnt, st => (cnt, st, [])
  | e :: es, cnt, st =>
    let r := ops.applyIndexed e st
    let cnt' := if r.1 then (cnt.1 + 1, cnt.2) else (cnt.1, cnt.2 + 1)
    let rest := applyIndexedPhase ops es cnt' r.2
    (rest.1, rest.2.1, .applyIndexed e :: rest.2.2)

/-- Phase 2 of `apply_edits`: apply each heuristic edit; after each
successful application the mapper is fully rebuilt. -/
def applyHeuristicPhase (ops : EngineOps σ) :
    List DocumentEdit → (Nat × Nat) → σ → ((Nat × Nat) × σ × List BatchEvent)
  | [], cnt, st => (cnt, st, [])
  | e :: es, cnt, st =>
    let r := ops.applyHeuristic e st
    if r.1 then
      let rest := applyHeuristicPhase ops es (cnt.1 + 1, cnt.2) (ops.rebuild r.2)
      (rest.1, rest.2.1, .applyHeuristic e :: .rebuild :: rest.2.2)
    else
      let rest := applyHeuristicPhase ops es (cnt.1, cnt.2 + 1) r.2
      (rest.1, rest.2.1, .applyHeuristic e :: rest.2.2)

/-- `RedlineEngine.apply_edits`: split into indexed and unindexed edits,
apply the indexed ones in descending offset order with no rebuild between
them, then (if any unindexed remain) rebuild once and apply the unindexed
ones longest-target-first, rebuilding after each application. -/
def apply_edits (ops : EngineOps σ) (edits : List DocumentEdit) (s : σ) :
    (Nat × Nat) × σ × List BatchEvent :=
  let indexed := edits.filter (fun e => e.matchStartIndex.isSome)
  let unindexed := edits.filter (fun e => !e.matchStartIndex.isSome)
  let r1 := applyIndexedPhase ops (sortIndexedDesc indexed) (0, 0) s
  if unindexed.isEmpty then r1
  else
    let r2 := applyHeuristicPhase ops (sortByLenDesc unindexed) r1.1 (ops.rebuild r1.2.1)
    (r2.1, r2.2.1, r1.2.2 ++ .rebuild :: r2.2.2)

/-- Well-shaped phase-2 trace: each edit contributes its application event,
followed by a full mapper rebuild exactly when it was applied. -/
inductive HeuristicTrace : List DocumentEdit → List BatchEvent → Prop where
  | nil : HeuristicTrace [] []
  | applied (e : DocumentEdit) (es : List DocumentEdit) (tr : List BatchEvent) :
      HeuristicTrace es tr →
      HeuristicTrace (e :: es) (.applyHeuristic e :: .rebuild :: tr)
  | skipped (e : DocumentEdit) (es : List DocumentEdit) (tr : List BatchEvent) :
      HeuristicTrace es tr →
      HeuristicTrace (e :: es) (.applyHeuristic e :: tr)

/-! ## Tracked-change id allocation (`engine.py`, lines 156-186) -/

/-- `RedlineEngine._scan_existing_ids`: the maximum over the parsed `w:id`
attributes of all `w:ins`/`w:del` elements, starting from 0; attributes that
fail `int()` parsing are skipped (modelled as `none`). -/
def _scan_existing_ids (existing : List (Option Int)) : Int :=
  existing.foldl
    (fun maxId v =>
      match v with
      | some n => if n > maxId then n else maxId
      | none => maxId)
    0

/-- `RedlineEngine._get_next_id`: pre-increment the engine counter and
return the new value (rendered `str(...)` in the source). -/
def _get_next_id (currentId : Int) : Int × Int :=
  (currentId + 1, currentId + 1)

/-- The ids handed out by `n` successive `_get_next_id` calls starting from
counter value `currentId` (each marker creation in
`_create_track_change_tag` performs exactly one such call). -/
def allocatedIdsFrom (currentId : Int) : Nat → List Int
  | 0 => []
  | n + 1 =>
    (_get_next_id currentId).2 :: allocatedIdsFrom (_get_next_id currentId).1 n

/-- All ids allocated by one engine instance over its lifetime: the counter
is initialized from `_scan_existing_ids` at construction and never reset. -/
def allocatedIds (existing : List (Option Int)) (n : Nat) : List Int :=
  allocatedIdsFrom (_scan_existing_ids existing) n

/-! ## Comment store threading (`comments.py`, `CommentsManager`) -/

/-- One comment body in the comments part: its `w:id` and the `w14:paraId`
of its paragraph (absent on malformed pre-existing comments). -/
structure CommentRec where
  id : Str
  paraId : Option Str
deriving Repr, DecidableEq

/-- One `w15:commentEx` element of the extended (threading) part:
`w15:paraId` plus an optional `w15:paraIdParent`. -/
structure CommentEx where
  paraId : Str
  parentParaId : Option Str
deriving Repr, DecidableEq

/-- The threading-relevant state of `CommentsManager`: comments part and
extended part contents, the numeric id counter, and a seed from which the
model draws fresh `w14:paraId` values (the source draws random 8-hex
strings; the ids part and extensible part play no role in thread-root
resolution and are not modelled). -/
structure CommentsState where
  comments : List CommentRec
  extended : List CommentEx
  nextId : Nat
  paraSeed : Nat
deriving Repr, DecidableEq

/-- `CommentsManager._find_para_id_for_comment`: scan the comments for the
given id, returning the first present paraId; comments matching the id but
lacking a paraId are passed over. -/
def _find_para_id_for_comment (st : CommentsState) (commentId : Str) : Option Str :=
  (st.comments.filterMap (fun c => if c.id = commentId then c.paraId else none)).head?

/-- The single linkage step of the extended table: the first entry for `p`
that carries a parent (entries for `p` without a parent are passed over,
exactly as the loop in `_find_thread_root_para_id` does). -/
def extParent (ext : List CommentEx) (p : Str) : Option Str :=
  (ext.filterMap (fun ex => if ex.paraId = p then ex.parentParaId else none)).head?

/-- `CommentsManager._find_thread_root_para_id`: the comment's own paraId,
replaced by the parent recorded for it in the extended table when one
exists.  One lookup step — the code relies on the table being flattened. -/
def _find_thread_root_para_id (st : CommentsState) (commentId : Str) : Option Str :=
  match _find_para_id_for_comment st commentId with
  | none => none
  | some direct =>
    match extParent st.extended direct with
    | some parent => some parent
    | none => some direct

/-- `_generate_para_id`, modelled injectively from the seed. -/
def _generate_para_id (seed : Nat) : Str :=
  'P' :: natToStr seed

/-- `CommentsManager.add_comment(author, text, parent_id)`, restricted to
its threading effect: allocate the next numeric comment id, append the
comment body with a fresh paraId, and append an extended entry whose
`paraIdParent` is the thread root of `parent_id` (when a parent is given).
The legacy `w15:p` attribute is not written because the extended part is in
use (as in the source); author, text and dates decorate the XML but do not
affect threading. -/
def add_comment (st : CommentsState) (parentId : Option Str) : CommentsState × Str :=
  let commentId := natToStr st.nextId
  let paraId := _generate_para_id st.paraSeed
  let parentParaId :=
    match parentId with
    | some pid => _find_thread_root_para_id st pid
    | none => none
  ({ comments := st.comments ++ [⟨commentId, some paraId⟩],
     extended := st.extended ++ [⟨paraId, parentParaId⟩],
     nextId := st.nextId + 1,
     paraSeed := st.paraSeed + 1 }, commentId)

/-- The root parent linkage recorded by a REPLY to `pid`
(`RedlineEngine._reply_to_comment` delegates to
`add_comment(..., parent_id=pid)`): the `paraIdParent` of the appended
extended entry. -/
def recordedReplyParent (st : CommentsState) (pid : Str) : Option Str :=
  ((add_comment st (some pid)).1.extended.getLast?).bind (·.parentParaId)

/-- A flat extended table: every recorded parent pointer targets a paraId
that itself has no parent (Modern Word's flattened threading convention,
and the shape `add_comment` itself produces). -/
def flatExt (ext : List CommentEx) : Bool :=
  ext.all fun ex =>
    match ex.parentParaId with
    | some q => decide (extParent ext q = none)
    | none => true

/-- Descendant relation between paraIds along the extended table's parent
pointers. -/
def IsDescendantPara (ext : List CommentEx) (p a : Str) : Prop :=
  Relation.TransGen (fun u v => extParent ext u = some v) p a

/-! ## Word-diff pipeline wrapper (`pipeline.py`, `_apply_edit_with_word_diff`, lines 679-803) -/

/-- What the wrapper inspects about one resolved target run: its plain text
(`run.text`) and the identity of its parent paragraph. -/
structure RunInfo where
  text : Str
  paraId : Nat
deriving Repr, DecidableEq

/-- The collaborators of `_apply_edit_with_word_diff`, passed as an
environment: the three matchers (raw mapper, lazily-built clean-view
mapper, plain-text index — the last reports raw-mapper coordinates), the
span-context lookup, run resolution, the external `diff-match-patch` word
diff (`_diff_words`), and the two text normalizers
(`_strip_formatting_markers`, `_strip_redundant_clause_number`) whose
internals are orthogonal to the safety check. -/
structure WordDiffEnv where
  rawFind : Str → Int × Nat
  cleanFind : Str → Int × Nat
  ptiFind : Str → Int × Nat
  ctxInsId : MapperTag → Nat → Nat → Option Str
  resolveRuns : MapperTag → Nat → Nat → List RunInfo
  diffWords : Str → Str → List (Int × Str)
  stripFormattingMarkers : Str → Str
  stripClauseNumber : Str → Nat → Str

/-- The action `_apply_edit_with_word_diff` decides on: delegate the whole
edit to `engine.apply_edits`; delegate with the already-computed match
(`_delegate_with_match`: a proxy edit carrying the cleaned replacement, the
active mapper and the matched offset); skip the edit (`(0, 1)`); or perform
the word-diff DOM surgery with the computed diff segments. -/
inductive WordDiffOutcome where
  | delegate (e : DocumentEdit)
  | delegateWithMatch (target newText : Str) (mapper : MapperTag) (start : Nat)
  | skip
  | wordDiffApply (mapper : MapperTag) (start mlen : Nat) (diffs : List (Int × Str))
deriving Repr, DecidableEq

/-- `_normalize_edit_whitespace` (pipeline.py lines 543-558): tabs become
spaces in both texts. -/
def _normalize_edit_whitespace (e : DocumentEdit) : DocumentEdit :=
  { e with
    target_text := e.target_text.map (fun c => if c = '\t' then ' ' else c),
    new_text := e.new_text.map (fun c => if c = '\t' then ' ' else c) }

/-- Steps 2-12 of `_apply_edit_with_word_diff`, after a successful match at
`(start, mlen)` against `mapper`: the nested-insertion, pure-deletion,
unresolved-runs, multi-paragraph, multi-line, no-change and
reconstruction-safety guards, in source order. -/
def wordDiffAfterMatch (env : WordDiffEnv) (edit : DocumentEdit)
    (mapper : MapperTag) (start mlen : Nat) : WordDiffOutcome :=
  if (env.ctxInsId mapper start (start + mlen)).isSome then .delegate edit
  else if edit.new_text.isEmpty then .delegate edit
  else
    let runs := env.resolveRuns mapper start mlen
    if runs.isEmpty then .skip
    else if 1 < (runs.map (·.paraId)).dedup.length then .delegate edit
    else
      let runsPlain := (runs.map (·.text)).flatten
      let cleanNew := env.stripClauseNumber (env.stripFormattingMarkers edit.new_text)
        ((runs.headD ⟨[], 0⟩).paraId)
      if cleanNew.contains '\n' then .delegateWithMatch edit.target_text cleanNew mapper start
      else if runsPlain = cleanNew then .skip
      else
        let diffs := env.diffWords runsPlain cleanNew
        let reconstructed := (diffs.filterMap (fun d => if d.1 ≥ 0 then some d.2 else none)).flatten
        if reconstructed ≠ cleanNew then .delegateWithMatch edit.target_text cleanNew mapper start
        else .wordDiffApply mapper start mlen diffs

/-- `_apply_edit_with_word_diff` (pipeline.py lines 679-803): whitespace
normalization, empty-target delegation, then the raw → clean → plain-text
match fallback chain, then the post-match guards. -/
def _apply_edit_with_word_diff (env : WordDiffEnv) (edit0 : DocumentEdit) : WordDiffOutcome :=
  let edit := _normalize_edit_whitespace edit0
  if edit.target_text.isEmpty then .delegate edit
  else
    let raw := env.rawFind edit.target_text
    if raw.1 ≠ -1 then wordDiffAfterMatch env edit .raw raw.1.toNat raw.2
    else
      let cl := env.cleanFind edit.target_text
      if cl.1 ≠ -1 then wordDiffAfterMatch env edit .clean cl.1.toNat cl.2
      else
        let pt := env.ptiFind edit.target_text
        if pt.1 ≠ -1 then wordDiffAfterMatch env edit .raw pt.1.toNat pt.2
        else .skip

/-! ## Document tree model (the `python-docx` XML level consumed by
`utils/docx.py` and mutated by `engine.py`).  XML object identity is
modelled by natural-number node ids (`nid`); text-bearing content is
restricted to the atoms the mapper reads (complex field characters, which
`iter_paragraph_content` only uses to hide dynamic page numbers, are not
modelled, so every run is visible). -/

/-- A content child of a `w:r` run element. -/
inductive Atom where
  | t (s : Str)
  | delText (s : Str)
  | tab
  | br
  | cr
  | commentReference (cid : Str)
deriving Repr, DecidableEq

/-- Run properties (`w:rPr`) the mapper and engine inspect: the explicit
bold/italic flags.  `none` on a run models an absent `w:rPr` element. -/
structure RPr where
  bold : Bool
  italic : Bool
deriving Repr, DecidableEq

/-- One `w:r` run element. -/
structure RunData where
  rpr : Option RPr
  content : List Atom
deriving Repr, DecidableEq

/-- A child of a `w:p` paragraph element.  `w:ins`/`w:del` wrappers carry
their `w:id`, author and children; comment range markers carry their id. -/
inductive PChild where
  | r (nid : Nat) (rd : RunData)
  | ins (nid : Nat) (wid : Str) (author : Option Str) (kids : List PChild)
  | del (nid : Nat) (wid : Str) (author : Option Str) (kids : List PChild)
  | crStart (nid : Nat) (cid : Str)
  | crEnd (nid : Nat) (cid : Str)
deriving Repr

/-- A paragraph: node id, the markdown heading marker contributed by
`get_paragraph_prefix` (the paragraph carries the helper's result — its
style/outline heuristics are outside the mapped claims), and children. -/
structure Para where
  nid : Nat
  mdPrefix : Str
  children : List PChild
deriving Repr

/-- A block-level item: a paragraph or a table (rows of cells of blocks),
as yielded by `iter_block_items`.  Merged table cells (python-docx yields
the same cell object twice; `_map_table` deduplicates by identity) are not
modelled: every model cell is distinct. -/
inductive Block where
  | p (pr : Para)
  | tbl (rows : List (List (List Block)))
deriving Repr

/-- A document part (header, body or footer): its block list. -/
abbrev DocPart := List Block

/-- A document as `iter_document_parts` yields it: parts in reading order. -/
abbrev Doc := List DocPart

/-- `get_run_text` (`utils/docx.py` lines 247-264): `w:t` and `w:delText`
text, tabs as spaces, breaks as newlines. -/
def get_run_text (rd : RunData) : Str :=
  (rd.content.map fun a =>
    match a with
    | .t s => s
    | .delText s => s
    | .tab => [' ']
    | .br => ['\n']
    | .cr => ['\n']
    | .commentReference _ => []).flatten

/-- `get_run_style_markers` (`utils/docx.py` lines 105-124): markdown
markers for explicit bold/italic, bold outer and italic inner. -/
def get_run_style_markers (rd : RunData) : Str × Str :=
  let b := match rd.rpr with | some r => r.bold | none => false
  let i := match rd.rpr with | some r => r.italic | none => false
  ((if b then ['*', '*'] else []) ++ (if i then ['_'] else []),
    (if i then ['_'] else []) ++ (if b then ['*', '*'] else []))

/-- Event types of `DocxEvent` (`utils/docx.py`): comment-range start/end,
inline comment reference, and tracked-change boundaries. -/
inductive EvType where
  | startEv | endEv | refEv | insStart | insEnd | delStart | delEnd
deriving Repr, DecidableEq

/-- `DocxEvent`: type, id and author (the `date` attribute is also read by
`iter_paragraph_content` but never consumed by the mapper, so it is not
modelled). -/
structure DocxEvent where
  type : EvType
  id : Str
  author : Option Str := none
deriving Repr, DecidableEq

/-- One item yielded by `iter_paragraph_content`: a run (with the node it
is backed by) or an event. -/
inductive PItem where
  | run (rd : RunData) (nid : Nat)
  | ev (e : DocxEvent)
deriving Repr, DecidableEq

/-- `process_run_element` for runs without complex field characters: yield
`ref` events for embedded `w:commentReference` children, then the run. -/
def processRun (nid : Nat) (rd : RunData) : List PItem :=
  (rd.content.filterMap fun a =>
    match a with
    | .commentReference cid => some (.ev ⟨.refEv, cid, none⟩)
    | _ => none) ++ [.run rd nid]

/-- `iter_paragraph_content` (`utils/docx.py` lines 144-235): walk the
paragraph children; `w:ins` wraps its runs and comment-range markers in
`ins_start`/`ins_end` events (anything else inside it — e.g. a nested
`w:del` — is skipped); `w:del` yields its runs directly between
`del_start`/`del_end` events. -/
def iter_paragraph_content (children : List PChild) : List PItem :=
  (children.map fun c =>
    match c with
    | .r nid rd => processRun nid rd
    | .ins _ wid auth kids =>
      .ev ⟨.insStart, wid, auth⟩ ::
        ((kids.map fun k =>
          match k with
          | .r knid krd => processRun knid krd
          | .crStart _ cid => [.ev ⟨.startEv, cid, none⟩]
          | .crEnd _ cid => [.ev ⟨.endEv, cid, none⟩]
          | _ => []).flatten ++ [.ev ⟨.insEnd, wid, none⟩])
    | .del _ wid auth kids =>
      .ev ⟨.delStart, wid, auth⟩ ::
        ((kids.filterMap fun k =>
          match k with
          | .r knid krd => some (PItem.run krd knid)
          | _ => none) ++ [.ev ⟨.delEnd, wid, none⟩])
    | .crStart _ cid => [.ev ⟨.startEv, cid, none⟩]
    | .crEnd _ cid => [.ev ⟨.endEv, cid, none⟩]).flatten

/-! ## The document mapper (`mapper.py`, `DocumentMapper`) -/

/-- `TextSpan` (`mapper.py` lines 28-36).  `endPos` models the source's
`end` field (a Lean keyword); `run` holds the backing node id, `none` for
virtual spans; the `paragraph` back-reference is not modelled because no
embedded operation reads it. -/
structure TextSpan where
  start : Nat
  endPos : Nat
  text : Str
  run : Option Nat
  ins_id : Option Str := none
  del_id : Option Str := none
deriving Repr, DecidableEq

/-- The mapper's output: span list and concatenated logical text. -/
structure MapState where
  spans : List TextSpan
  full_text : Str
deriving Repr, DecidableEq

/-- `DocumentMapper._add_virtual_text` (lines 441-450). -/
def _add_virtual_text (st : MapState) (text : Str) (offset : Nat) : MapState :=
  { spans := st.spans ++
      [{ start := offset, endPos := offset + text.length, text := text, run := none }],
    full_text := st.full_text ++ text }

/-- Per-comment data from `extract_comments_data`, as the metadata blocks
consume it. -/
structure CommentData where
  author : Str
  text : Str
  date : Str
  resolved : Bool
deriving Repr, DecidableEq

/-- The mapper's `comments_map` (comment id → data). -/
abbrev CommentsMap := List (Str × CommentData)

/-- Dictionary lookup in the comments map. -/
def lookupCM (cm : CommentsMap) (cid : Str) : Option CommentData :=
  (cm.find? fun p => decide (p.1 = cid)).map (·.2)

/-- CriticMarkup wrapper tokens (brace characters kept symbolic). -/
def delWrapOpen : Str := [lbrace, '-', '-']
/-- Closing deletion wrapper. -/
def delWrapClose : Str := ['-', '-', rbrace]
/-- Opening insertion wrapper. -/
def insWrapOpen : Str := [lbrace, '+', '+']
/-- Closing insertion wrapper. -/
def insWrapClose : Str := ['+', '+', rbrace]
/-- Opening comment-highlight wrapper. -/
def comWrapOpen : Str := [lbrace, '=', '=']
/-- Closing comment-highlight wrapper. -/
def comWrapClose : Str := ['=', '=', rbrace]
/-- Opening metadata-block token. -/
def metaOpen : Str := [lbrace, '>', '>']
/-- Closing metadata-block token. -/
def metaClose : Str := ['<', '<', rbrace]

/-- `DocumentMapper._get_wrappers` (lines 394-401). -/
def _get_wrappers (insId delId : Option Str) (activeIds : List Str) : Str × Str :=
  if delId.isSome then (delWrapOpen, delWrapClose)
  else if insId.isSome then (insWrapOpen, insWrapClose)
  else if !activeIds.isEmpty then (comWrapOpen, comWrapClose)
  else ([], [])

/-- Lexicographic code-point comparison (Python string `<`). -/
def strLt : Str → Str → Bool
  | [], [] => false
  | [], _ :: _ => true
  | _ :: _, [] => false
  | a :: as, b :: bs =>
    if a.val < b.val then true else if b.val < a.val then false else strLt as bs

/-- Python `sorted` on a list of strings. -/
def sortedStrs (l : List Str) : List Str :=
  l.insertionSort (fun a b => strLt b a = false)

/-- One deferred metadata snapshot: active insertion event, active deletion
event, active comment-id set. -/
abbrev MetaSnapshot := Option DocxEvent × Option DocxEvent × List Str

/-- Signature `Chg:id` used for metadata deduplication. -/
def chgSig (uid : Str) : Str := "Chg:".toList ++ uid

/-- Signature `Com:id` used for metadata deduplication. -/
def comSig (cid : Str) : Str := "Com:".toList ++ cid

/-- Add one tracked-change metadata line (`[Chg:id] author`) if unseen. -/
def addChgLine (acc : List Str × List Str × List Str) (evO : Option DocxEvent) :
    List Str × List Str × List Str :=
  match evO with
  | none => acc
  | some e =>
    let sig := chgSig e.id
    if sig ∈ acc.2.2 then acc
    else
      (acc.1 ++ [('[' :: sig) ++ (']' :: ' ' :: e.author.getD ("Unknown".toList))],
        acc.2.1, acc.2.2 ++ [sig])

/-- Add one comment metadata line (`[Com:id] author @ date: text`) if the
comment exists and is unseen. -/
def addComLine (cm : CommentsMap) (acc : List Str × List Str × List Str) (cid : Str) :
    List Str × List Str × List Str :=
  match lookupCM cm cid with
  | none => acc
  | some data =>
    let sig := comSig cid
    if sig ∈ acc.2.2 then acc
    else
      let header := ('[' :: sig) ++ (']' :: ' ' :: data.author)
      let header := if data.date.isEmpty then header
        else header ++ (' ' :: '@' :: ' ' :: data.date.takeWhile (· ≠ 'T'))
      let header := if data.resolved then header ++ "(RESOLVED)".toList else header
      (acc.1, acc.2.1 ++ [header ++ (':' :: ' ' :: data.text)], acc.2.2 ++ [sig])

/-- `DocumentMapper._build_merged_meta_block` (lines 403-439): change lines
first, then comment lines (comment ids sorted), deduplicated by signature,
joined by newlines. -/
def _build_merged_meta_block (cm : CommentsMap) (states : List MetaSnapshot) : Str :=
  let acc := states.foldl
    (fun acc snap =>
      let acc := addChgLine acc snap.1
      let acc := addChgLine acc snap.2.1
      (sortedStrs snap.2.2).foldl (addComLine cm) acc)
    ([], [], [])
  List.intercalate ['\n'] (acc.1 ++ acc.2.1)

/-- One buffered run part awaiting flush: virtual flag, text, backing run
node, and the active insertion/deletion ids at buffering time. -/
structure PendEntry where
  isVirtual : Bool
  text : Str
  run : Option Nat
  insId : Option Str
  delId : Option Str
deriving Repr, DecidableEq

/-- A run's parts before buffering (lines 144-168): style markers as
virtual parts around the text; a styled run containing newlines is split
so each line is wrapped separately. -/
def runPartsOf (nid : Nat) (rd : RunData) : List (Bool × Str × Option Nat) :=
  let pfx := (get_run_style_markers rd).1
  let sfx := (get_run_style_markers rd).2
  let text := get_run_text rd
  let wrapPart := fun (part : Str) =>
    if part.isEmpty then ([] : List (Bool × Str × Option Nat))
    else
      (if pfx.isEmpty then [] else [(true, pfx, (none : Option Nat))]) ++
        [(false, part, some nid)] ++
        (if sfx.isEmpty then [] else [(true, sfx, (none : Option Nat))])
  if text.contains '\n' && !(pfx.isEmpty && sfx.isEmpty) then
    match text.splitOn '\n' with
    | [] => []
    | p0 :: rest =>
      wrapPart p0 ++ rest.flatMap (fun p => (false, ['\n'], some nid) :: wrapPart p)
  else
    (if pfx.isEmpty then [] else [(true, pfx, (none : Option Nat))]) ++
      (if text.isEmpty then [] else [(false, text, some nid)]) ++
      (if sfx.isEmpty then [] else [(true, sfx, (none : Option Nat))])

/-- The flush block repeated through `_map_paragraph_content`: start
wrapper token, buffered parts (virtual text or real spans), end wrapper
token.  Emits nothing when the buffer is empty, exactly like the
`if pending_runs:` guard. -/
def flushPending (cur : Nat) (st : MapState) (wrappers : Str × Str)
    (pend : List PendEntry) : Nat × MapState :=
  if pend.isEmpty then (cur, st)
  else
    let r0 := if wrappers.1.isEmpty then (cur, st)
      else (cur + wrappers.1.length, _add_virtual_text st wrappers.1 cur)
    let r1 := pend.foldl
      (fun (acc : Nat × MapState) pe =>
        if pe.isVirtual then
          (acc.1 + pe.text.length, _add_virtual_text acc.2 pe.text acc.1)
        else
          (acc.1 + pe.text.length,
            { spans := acc.2.spans ++
                [{ start := acc.1, endPos := acc.1 + pe.text.length, text := pe.text,
                   run := pe.run, ins_id := pe.insId, del_id := pe.delId }],
              full_text := acc.2.full_text ++ pe.text }))
      r0
    if wrappers.2.isEmpty then r1
    else (r1.1 + wrappers.2.length, _add_virtual_text r1.2 wrappers.2 r1.1)

/-- The metadata lookahead (lines 249-273): scan forward over events to the
next run; defer iff a tracked-change state is still active there. -/
def lookaheadRedline : List PItem → Bool → Bool → Bool
  | [], _, _ => false
  | .run _ _ :: _, ti, td => ti || td
  | .ev e :: rest, ti, td =>
    match e.type with
    | .insStart => lookaheadRedline rest true td
    | .insEnd => lookaheadRedline rest false td
    | .delStart => lookaheadRedline rest ti true
    | .delEnd => lookaheadRedline rest ti false
    | _ => lookaheadRedline rest ti td

/-- The loop state of `_map_paragraph_content`. -/
structure PCtx where
  cur : Nat
  st : MapState
  activeIds : List Str
  activeIns : Option DocxEvent
  activeDel : Option DocxEvent
  deferred : List MetaSnapshot
  wrappers : Str × Str
  pend : List PendEntry
deriving Repr

/-- Python set-add on the active comment-id set (order is irrelevant:
consumers test emptiness or sort). -/
def setAdd (l : List Str) (x : Str) : List Str :=
  if x ∈ l then l else l ++ [x]

/-- One iteration of the `_map_paragraph_content` loop; `rest` is the item
tail, consulted by the metadata lookahead. -/
def mpcStep (cm : CommentsMap) (cv : Bool) (ctx : PCtx) :
    PItem → List PItem → PCtx
  | .run rd nid, rest =>
    let parts := runPartsOf nid rd
    let fullSeg := (parts.map (·.2.1)).flatten
    let currInsId := ctx.activeIns.map (·.id)
    let currDelId := ctx.activeDel.map (·.id)
    -- run coalescing (skipped for empty segments and clean-view deletions)
    let ctx :=
      if !fullSeg.isEmpty && !(cv && currDelId.isSome) then
        let newWrappers := if cv then (([] : Str), ([] : Str))
          else _get_wrappers currInsId currDelId ctx.activeIds
        if !ctx.pend.isEmpty && decide (newWrappers = ctx.wrappers) then
          { ctx with pend := ctx.pend ++ parts.map (fun pr =>
              ⟨pr.1, pr.2.1, pr.2.2, currInsId, currDelId⟩) }
        else
          let r := flushPending ctx.cur ctx.st ctx.wrappers ctx.pend
          { ctx with
              cur := r.1, st := r.2, wrappers := newWrappers,
              pend := parts.map (fun pr => ⟨pr.1, pr.2.1, pr.2.2, currInsId, currDelId⟩) }
      else ctx
    -- metadata handling with lookahead deferral
    if cv then ctx
    else
      let deferred := ctx.deferred ++ [(ctx.activeIns, ctx.activeDel, ctx.activeIds)]
      let isRedline := currInsId.isSome || currDelId.isSome
      let shouldDefer := isRedline && lookaheadRedline rest currInsId.isSome currDelId.isSome
      if shouldDefer then { ctx with deferred := deferred }
      else
        let r := flushPending ctx.cur ctx.st ctx.wrappers ctx.pend
        let pendW := if ctx.pend.isEmpty then (ctx.pend, ctx.wrappers)
          else (([] : List PendEntry), (([] : Str), ([] : Str)))
        let mb := _build_merged_meta_block cm deferred
        let r2 := if mb.isEmpty then r
          else (r.1 + (metaOpen ++ mb ++ metaClose).length,
            _add_virtual_text r.2 (metaOpen ++ mb ++ metaClose) r.1)
        { ctx with
            cur := r2.1, st := r2.2, pend := pendW.1, wrappers := pendW.2,
            deferred := [] }
  | .ev e, _ =>
    let r := flushPending ctx.cur ctx.st ctx.wrappers ctx.pend
    let pendW := if ctx.pend.isEmpty then (ctx.pend, ctx.wrappers)
      else (([] : List PendEntry), (([] : Str), ([] : Str)))
    let ctx := { ctx with cur := r.1, st := r.2, pend := pendW.1, wrappers := pendW.2 }
    match e.type with
    | .startEv => { ctx with activeIds := setAdd ctx.activeIds e.id }
    | .endEv => { ctx with activeIds := ctx.activeIds.erase e.id }
    | .insStart => { ctx with activeIns := some e }
    | .insEnd => { ctx with activeIns := none }
    | .delStart => { ctx with activeDel := some e }
    | .delEnd => { ctx with activeDel := none }
    | .refEv => ctx

/-- The `_map_paragraph_content` item loop. -/
def mpcGo (cm : CommentsMap) (cv : Bool) : List PItem → PCtx → PCtx
  | [], ctx => ctx
  | item :: rest, ctx => mpcGo cm cv rest (mpcStep cm cv ctx item rest)

/-- `DocumentMapper._map_paragraph_content` (lines 121-392): run the item
loop, then the final pending flush and the final deferred-metadata flush. -/
def _map_paragraph_content (cm : CommentsMap) (cv : Bool) (children : List PChild)
    (startOffset : Nat) (st : MapState) : Nat × MapState :=
  let ctx := mpcGo cm cv (iter_paragraph_content children)
    ⟨startOffset, st, [], none, none, [], ([], []), []⟩
  let r := flushPending ctx.cur ctx.st ctx.wrappers ctx.pend
  if ctx.deferred.isEmpty then r
  else
    let mb := _build_merged_meta_block cm ctx.deferred
    if mb.isEmpty then r
    else (r.1 + (metaOpen ++ mb ++ metaClose).length,
      _add_virtual_text r.2 (metaOpen ++ mb ++ metaClose) r.1)

mutual
/-- `DocumentMapper._map_blocks` (lines 67-90): paragraphs contribute their
heading marker, content and a `"\n\n"` separator; tables contribute their
cells and a separator unless one is already last. -/
def _map_blocks (cm : CommentsMap) (cv : Bool) :
    List Block → Nat → MapState → Nat × MapState
  | [], cur, st => (cur, st)
  | b :: bs, cur, st =>
    let r := mapBlock cm cv b cur st
    _map_blocks cm cv bs r.1 r.2

/-- One block of `_map_blocks`. -/
def mapBlock (cm : CommentsMap) (cv : Bool) : Block → Nat → MapState → Nat × MapState
  | .p pr, cur, st =>
    let r0 := if pr.mdPrefix.isEmpty then (cur, st)
      else (cur + pr.mdPrefix.length, _add_virtual_text st pr.mdPrefix cur)
    let r1 := _map_paragraph_content cm cv pr.children r0.1 r0.2
    (r1.1 + 2, _add_virtual_text r1.2 ['\n', '\n'] r1.1)
  | .tbl rows, cur, st =>
    let r := mapRows cm cv rows true cur st
    match r.2.spans.getLast? with
    | none => r
    | some s =>
      if s.text = ['\n', '\n'] then r
      else (r.1 + 2, _add_virtual_text r.2 ['\n', '\n'] r.1)

/-- `DocumentMapper._map_table` rows (newline separator between rows). -/
def mapRows (cm : CommentsMap) (cv : Bool) :
    List (List (List Block)) → Bool → Nat → MapState → Nat × MapState
  | [], _, cur, st => (cur, st)
  | row :: rest, isFirst, cur, st =>
    let r0 := if isFirst then (cur, st) else (cur + 1, _add_virtual_text st ['\n'] cur)
    let r1 := mapCells cm cv row true r0.1 r0.2
    mapRows cm cv rest false r1.1 r1.2

/-- `DocumentMapper._map_table` cells (` | ` separator between cells). -/
def mapCells (cm : CommentsMap) (cv : Bool) :
    List (List Block) → Bool → Nat → MapState → Nat × MapState
  | [], _, cur, st => (cur, st)
  | cell :: rest, isFirst, cur, st =>
    let r0 := if isFirst then (cur, st)
      else (cur + 3, _add_virtual_text st [' ', '|', ' '] cur)
    let r1 := _map_blocks cm cv cell r0.1 r0.2
    mapCells cm cv rest false r1.1 r1.2
end

/-- The trailing-separator cleanup loop of `_build_map`, fuel-indexed
(each pop removes one span, so `fuel = spans.length` always suffices). -/
def popTrailingSepsGo : Nat → MapState → MapState
  | 0, st => st
  | fuel + 1, st =>
    match st.spans.getLast? with
    | some s =>
      if s.text = ['\n', '\n'] then
        popTrailingSepsGo fuel
          { spans := st.spans.dropLast,
            full_text := st.full_text.take (st.full_text.length - 2) }
      else st
    | none => st

/-- Trailing-separator cleanup (`while self.spans and spans[-1].text == "\n\n"`). -/
def popTrailingSeps (st : MapState) : MapState :=
  popTrailingSepsGo st.spans.length st

/-- `DocumentMapper._build_map` (lines 49-65): map each part, add a part
separator unless one is already last, then trim trailing separators. -/
def _build_map (cm : CommentsMap) (cv : Bool) (doc : Doc) : MapState :=
  let r := doc.foldl
    (fun (acc : Nat × MapState) part =>
      let r1 := _map_blocks cm cv part acc.1 acc.2
      match r1.2.spans.getLast? with
      | none => r1
      | some s =>
        if s.text = ['\n', '\n'] then r1
        else (r1.1 + 2, _add_virtual_text r1.2 ['\n', '\n'] r1.1))
    (0, ⟨[], []⟩)
  popTrailingSeps r.2

/-- Spans in document order, contiguous from offset `o`, with
`end = start + len(text)`. -/
def SpanChain : Nat → List TextSpan → Prop
  | _, [] => True
  | o, s :: rest => s.start = o ∧ s.endPos = s.start + s.text.length ∧ SpanChain s.endPos rest

/-- Concatenation of the spans' texts. -/
def concatSpans (l : List TextSpan) : Str :=
  (l.map (·.text)).flatten

/-- The mapper invariant carried through a build: spans chain from 0,
their concatenation is the logical text, and the running offset is the
text length. -/
def MInvP (p : Nat × MapState) : Prop :=
  SpanChain 0 p.2.spans ∧ concatSpans p.2.spans = p.2.full_text ∧
    p.1 = p.2.full_text.length

/-! ## Engine-level DOM mutation (`engine.py`, `RedlineEngine`, plus the
mapper's DOM surgery `_split_run_at_index`/`_resolve_runs_at_range`).
The engine state `Eng` bundles the document body (a paragraph list — the
claims' mutation flows act on body paragraphs), the fresh-node counter that
models `lxml` element creation, the tracked-change id counter, the author,
the extracted comments map, both mappers and the comments store. -/

/-- Python `int()` on a `w:id` attribute, restricted to the decimal digit
strings the engine itself writes (anything else is `none`, like the
source's `except (ValueError, TypeError)`). -/
def parseWid (s : Str) : Option Int :=
  if s.isEmpty then none
  else if s.all (·.isDigit) then
    some ((s.foldl (fun a c => a * 10 + (c.toNat - 48)) 0 : Nat) : Int)
  else none

/-- Python `str()` of an integer id. -/
def intToStr (i : Int) : Str :=
  if i < 0 then '-' :: natToStr i.natAbs else natToStr i.toNat

mutual

/-- The `w:id` attributes of all `w:ins`/`w:del` elements below a child, in
document order (the source reads all `w:ins` matches and then all `w:del`
matches; only the order-insensitive maximum of the parses is consumed). -/
def childChangeIds : PChild → List (Option Int)
  | .ins _ wid _ kids => parseWid wid :: kidsChangeIds kids
  | .del _ wid _ kids => parseWid wid :: kidsChangeIds kids
  | _ => []

def kidsChangeIds : List PChild → List (Option Int)
  | [] => []
  | c :: rest => childChangeIds c ++ kidsChangeIds rest

end

/-- All tracked-change ids of a document body (`_scan_existing_ids` input). -/
def scanChangeIds (paras : List Para) : List (Option Int) :=
  (paras.map (fun p => kidsChangeIds p.children)).flatten

mutual

/-- All node ids used below a child (model bookkeeping for fresh-node
allocation; the source allocates fresh `lxml` elements instead). -/
def childNids : PChild → List Nat
  | .r n _ => [n]
  | .ins n _ _ kids => n :: kidsNids kids
  | .del n _ _ kids => n :: kidsNids kids
  | .crStart n _ => [n]
  | .crEnd n _ => [n]

def kidsNids : List PChild → List Nat
  | [] => []
  | c :: rest => childNids c ++ kidsNids rest

end

/-- A node id strictly above every node id of the document. -/
def freshNidAfter (paras : List Para) : Nat :=
  ((paras.map (fun p => p.nid :: kidsNids p.children)).flatten.foldl max 0) + 1

/-- `python-docx` `Run.text` getter (`CT_R.text`): `w:t` text, tabs as
`'\t'`, breaks as `'\n'`; `w:delText` is not part of it. -/
def pydocxRunText (rd : RunData) : Str :=
  (rd.content.map fun a =>
    match a with
    | .t s => s
    | .tab => ['\t']
    | .br => ['\n']
    | .cr => ['\n']
    | _ => []).flatten

/-- `python-docx` `Run.text` setter: the run content is cleared and rebuilt
as maximal `w:t` chunks with `w:tab`/`w:br` elements for tabs and newlines
(an empty string leaves no content). -/
def textSetterAtoms : Str → List Atom
  | [] => []
  | c :: rest =>
    if c = '\t' then .tab :: textSetterAtoms rest
    else if c = '\n' then .br :: textSetterAtoms rest
    else
      match textSetterAtoms rest with
      | .t s :: as => .t (c :: s) :: as
      | as => .t [c] :: as

mutual

/-- The first run with the given node id below a child, searching into
`w:ins`/`w:del` wrappers (models following an `lxml` element reference;
node ids are unique in every document the flows build). -/
def findRunInChild (nid : Nat) : PChild → Option RunData
  | .r n rd => if n = nid then some rd else none
  | .ins _ _ _ kids => findRunInKids nid kids
  | .del _ _ _ kids => findRunInKids nid kids
  | _ => none

def findRunInKids (nid : Nat) : List PChild → Option RunData
  | [] => none
  | c :: rest =>
    match findRunInChild nid c with
    | some rd => some rd
    | none => findRunInKids nid rest

end

/-- The run with the given node id anywhere in the body (`none` = the
element is detached from the document). -/
def findRun : List Para → Nat → Option RunData
  | [], _ => none
  | p :: rest, nid =>
    match findRunInKids nid p.children with
    | some rd => some rd
    | none => findRun rest nid

mutual

/-- Replace the run `nid` by the pair `left`/`right` (the mutated original
followed by its `addnext` sibling), wherever it sits: the wrapper step. -/
def splitInChild (nid freshNid : Nat) (l r : RunData) : PChild → PChild
  | .ins m w a kids => .ins m w a (splitInKids nid freshNid l r kids)
  | .del m w a kids => .del m w a (splitInKids nid freshNid l r kids)
  | c => c

def splitInKids (nid freshNid : Nat) (l r : RunData) : List PChild → List PChild
  | [] => []
  | .r n rd :: rest =>
    if n = nid then .r n l :: .r freshNid r :: rest
    else .r n rd :: splitInKids nid freshNid l r rest
  | c :: rest => splitInChild nid freshNid l r c :: splitInKids nid freshNid l r rest

end

/-- Python `list.insert(i, x)` (clamping an out-of-range index, as Python
does). -/
def pyInsert (l : List α) (i : Nat) (x : α) : List α :=
  l.take i ++ [x] ++ l.drop i

/-- The engine state: document body, fresh-node counter, tracked-change id
counter (`self.current_id`), author, the comments map both mappers were
built from (extracted once at construction), the raw mapper, the lazy
clean-view mapper and the comments store. -/
structure Eng where
  paras : List Para
  nextNid : Nat
  current_id : Int
  author : Str
  cm : CommentsMap
  mapper : MapState
  cleanMapper : Option MapState
  comments : CommentsState
deriving Repr

/-- A body paragraph list as the single document part the mapper walks. -/
def engDocOf (paras : List Para) : Doc := [paras.map Block.p]

/-- `RedlineEngine.__init__` on a document whose comment part extracts to
`cm` and whose comments store starts as `cs`: scan the existing
tracked-change ids into the counter and build the raw mapper. -/
def engInit (author : Str) (cm : CommentsMap) (cs : CommentsState)
    (paras : List Para) : Eng :=
  { paras := paras, nextNid := freshNidAfter paras,
    current_id := _scan_existing_ids (scanChangeIds paras),
    author := author, cm := cm,
    mapper := _build_map cm false (engDocOf paras),
    cleanMapper := none, comments := cs }

/-- The mapper an `_active_mapper_ref` tag denotes (the clean one is always
populated before it is consulted; the fallback rebuild is unreachable). -/
def mapperOf (e : Eng) (tag : MapperTag) : MapState :=
  match tag with
  | .raw => e.mapper
  | .clean => e.cleanMapper.getD (_build_map e.cm true (engDocOf e.paras))

/-- Rebuild the mapper a tag denotes (`self._build_map()` on that mapper). -/
def rebuildTag (e : Eng) (tag : MapperTag) : Eng :=
  match tag with
  | .raw => { e with mapper := _build_map e.cm false (engDocOf e.paras) }
  | .clean => { e with cleanMapper := some (_build_map e.cm true (engDocOf e.paras)) }

/-- `DocumentMapper.get_context_at_range` (lines 629-637): the first real
span overlapping the range. -/
def get_context_at_range (st : MapState) (startIdx endIdx : Nat) : Option TextSpan :=
  (st.spans.filter (fun s =>
    s.run.isSome && decide (startIdx < s.endPos) && decide (s.start < endIdx))).head?

/-- `DocumentMapper._split_run_at_index` (lines 609-627): write the left
text back through the `Run.text` setter, deep-copy the mutated element with
its `w:t` children removed, append a single `w:t` holding the right text,
and attach the copy as the next sibling.  Returns the engine plus the two
run node ids (left = the original element, right = the fresh copy); a
detached run would raise in the source and is returned unchanged here. -/
def _split_run_at_index (e : Eng) (runNid splitIndex : Nat) : Eng × Nat × Nat :=
  match findRun e.paras runNid with
  | none => (e, runNid, runNid)
  | some rd =>
    let text := pydocxRunText rd
    let leftText := text.take splitIndex
    let rightText := text.drop splitIndex
    let leftRd : RunData := { rpr := rd.rpr, content := textSetterAtoms leftText }
    let rightRd : RunData :=
      { rpr := rd.rpr,
        content := (textSetterAtoms leftText).filter
            (fun a => match a with | .t _ => false | _ => true) ++ [.t rightText] }
    ({ e with
        paras := e.paras.map (fun p =>
          { p with children := splitInKids runNid e.nextNid leftRd rightRd p.children }),
        nextNid := e.nextNid + 1 }, runNid, e.nextNid)

/-- `DocumentMapper._resolve_runs_at_range` (lines 536-579): gather the
affected spans, split the first and last backing runs at the range
boundaries when the range cuts into them, rebuild the mapper if the DOM
was touched, and return the working run list (as node ids). -/
def _resolve_runs_at_range (e : Eng) (tag : MapperTag) (startIdx endIdx : Nat) :
    Eng × List Nat :=
  let spans := (mapperOf e tag).spans
  let affected := spans.filter (fun s =>
    decide (startIdx < s.endPos) && decide (s.start < endIdx))
  if affected.isEmpty then (e, [])
  else
    let working0 := affected.filterMap (·.run)
    if working0.isEmpty then (e, [])
    else
      let firstReal := (affected.filter (fun s => s.run.isSome)).head?
      let stage1 : Eng × List Nat × Bool × Nat :=
        match firstReal with
        | none => (e, working0, false, 0)
        | some fs =>
          if fs.start < startIdx then
            let r := _split_run_at_index e (working0.headD 0) (startIdx - fs.start)
            (r.1, r.2.2 :: working0.tail, true, startIdx - fs.start)
          else (e, working0, false, 0)
      let e1 := stage1.1
      let working1 := stage1.2.1
      let adj := stage1.2.2.2
      let lastReal := (affected.filter (fun s => s.run.isSome)).getLast?
      let stage2 : Eng × List Nat × Bool :=
        match lastReal with
        | none => (e1, working1, stage1.2.2.1)
        | some ls =>
          let isSame := match firstReal with
            | some fs => decide (fs = ls)
            | none => false
          let runToSplit := working1.getLastD 0
          let overlapEnd := min ls.endPos endIdx
          let localEnd0 := overlapEnd - ls.start
          let localEnd := if isSame && decide (0 < adj) then localEnd0 - adj else localEnd0
          let tlen := (pydocxRunText ((findRun e1.paras runToSplit).getD ⟨none, []⟩)).length
          if 0 < localEnd ∧ localEnd < tlen then
            let r := _split_run_at_index e1 runToSplit localEnd
            (r.1, working1.dropLast ++ [r.2.1], true)
          else (e1, working1, stage1.2.2.1)
      let e2 := stage2.1
      let e3 := if stage2.2.2 then rebuildTag e2 tag else e2
      (e3, stage2.2.1)

/-- `DocumentMapper.find_target_runs_by_index` (lines 531-534). -/
def find_target_runs_by_index (e : Eng) (tag : MapperTag) (startIndex length : Nat) :
    Eng × List Nat :=
  _resolve_runs_at_range e tag startIndex (startIndex + length)

/-- The containing / index-0 / preceding-gap stages of
`get_insertion_anchor`, reached when the preceding-span stage does not
return. -/
def anchorStage2 (e : Eng) (index : Nat) (spans : List TextSpan) : Eng × Option Nat :=
  let fallback : Eng × Option Nat :=
    if index = 0 && !spans.isEmpty then
      (e, ((spans.filter (fun s => s.run.isSome)).head?).bind (·.run))
    else
      (e, (((spans.filter (fun s => decide (s.endPos < index))).reverse.filter
        (fun s => s.run.isSome)).head?).bind (·.run))
  match (spans.filter (fun s =>
      decide (s.start < index) && decide (index < s.endPos))).head? with
  | some sp =>
    match sp.run with
    | none => fallback
    | some rnid =>
      let r := _split_run_at_index e rnid (index - sp.start)
      (r.1, some r.2.1)
  | none => fallback

/-- `DocumentMapper.get_insertion_anchor` (lines 581-607): a span ending at
the index anchors on its run; otherwise a span containing the index is
split there (without a rebuild) and the left half anchors; otherwise the
first run at index 0, or the closest real span before a gap. -/
def get_insertion_anchor (e : Eng) (index : Nat) : Eng × Option Nat :=
  let spans := e.mapper.spans
  match (spans.filter (fun s => decide (s.endPos = index))).getLast? with
  | some lastP =>
    if lastP.run.isSome then (e, lastP.run) else anchorStage2 e index spans
  | none => anchorStage2 e index spans

mutual

/-- Replace the run `nid` by a `w:del` wrapper (node `delNid`, id `wid`)
holding `newRun`, wherever the run sits (`parent.replace`): the wrapper
step. -/
def replaceRunInChild (nid delNid : Nat) (wid : Str) (author : Str) (newRun : PChild) :
    PChild → PChild
  | .ins m w a kids => .ins m w a (replaceRunByDel nid delNid wid author newRun kids)
  | .del m w a kids => .del m w a (replaceRunByDel nid delNid wid author newRun kids)
  | c => c

def replaceRunByDel (nid delNid : Nat) (wid : Str) (author : Str) (newRun : PChild) :
    List PChild → List PChild
  | [] => []
  | .r n rd :: rest =>
    if n = nid then .del delNid wid (some author) [newRun] :: rest
    else .r n rd :: replaceRunByDel nid delNid wid author newRun rest
  | c :: rest =>
    replaceRunInChild nid delNid wid author newRun c ::
      replaceRunByDel nid delNid wid author newRun rest

end

/-- `RedlineEngine.track_delete_run` (lines 477-491): allocate the next
change id (before the parent check, as the source does), build a run whose
content is the `python-docx` text of the target inside a `w:delText`, copy
the `w:rPr`, and replace the target run by the `w:del` wrapper.  Returns
the wrapper's node id, `none` when the run is detached. -/
def track_delete_run (e : Eng) (runNid : Nat) : Eng × Option Nat :=
  let e1 : Eng := { e with current_id := e.current_id + 1 }
  let wid := intToStr e1.current_id
  match findRun e1.paras runNid with
  | none => (e1, none)
  | some rd =>
    let newRun : PChild := .r e1.nextNid ⟨rd.rpr, [.delText (pydocxRunText rd)]⟩
    let delNid := e1.nextNid + 1
    ({ e1 with
        nextNid := e1.nextNid + 2,
        paras := e1.paras.map (fun p =>
          { p with children :=
              replaceRunByDel runNid delNid wid e1.author newRun p.children }) },
      some delNid)

mutual

/-- Whether any `w:ins`/`w:del` below a child carries the given id (the
`bool(ins_nodes or del_nodes)` success flag of accept/reject). -/
def kidHasChange (wid : Str) : PChild → Bool
  | .ins _ w _ kids => decide (w = wid) || kidsHaveChange wid kids
  | .del _ w _ kids => decide (w = wid) || kidsHaveChange wid kids
  | _ => false

def kidsHaveChange (wid : Str) : List PChild → Bool
  | [] => false
  | c :: rest => kidHasChange wid c || kidsHaveChange wid rest

end

/-- The `w:delText -> w:t` retagging reject performs on a restored run. -/
def delTextToT (rd : RunData) : RunData :=
  { rd with content := rd.content.map (fun a =>
      match a with
      | .delText s => .t s
      | a => a) }

mutual

/-- The accept transform on one child: a matching `w:ins` is unwrapped
(children spliced in place), a matching `w:del` removed. -/
def acceptChild (wid : Str) : PChild → List PChild
  | .ins n w a kids =>
    if w = wid then acceptKids wid kids else [.ins n w a (acceptKids wid kids)]
  | .del n w a kids =>
    if w = wid then [] else [.del n w a (acceptKids wid kids)]
  | c => [c]

def acceptKids (wid : Str) : List PChild → List PChild
  | [] => []
  | c :: rest => acceptChild wid c ++ acceptKids wid rest

end

/-- `RedlineEngine._accept_change` (lines 909-926). -/
def _accept_change (e : Eng) (wid : Str) : Eng × Bool :=
  (({ e with paras := e.paras.map (fun p =>
      { p with children := acceptKids wid p.children }) }),
    e.paras.any (fun p => kidsHaveChange wid p.children))

mutual

/-- The reject transform on one child: a matching `w:ins` is removed, a
matching `w:del` unwrapped with each restored run's `w:delText` retagged
to `w:t`. -/
def rejectChild (wid : Str) : PChild → List PChild
  | .ins n w a kids =>
    if w = wid then [] else [.ins n w a (rejectKids wid kids)]
  | .del n w a kids =>
    if w = wid then
      -- the source retags the direct children, then the (rare) nested
      -- matching nodes in later loop turns; recursing first and retagging
      -- after is the same tree because the retag only touches runs and is
      -- idempotent
      (rejectKids wid kids).map (fun k =>
        match k with
        | .r kn krd => .r kn (delTextToT krd)
        | k => k)
    else [.del n w a (rejectKids wid kids)]
  | c => [c]

def rejectKids (wid : Str) : List PChild → List PChild
  | [] => []
  | c :: rest => rejectChild wid c ++ rejectKids wid rest

end

/-- `RedlineEngine._reject_change` (lines 928-947). -/
def _reject_change (e : Eng) (wid : Str) : Eng × Bool :=
  (({ e with paras := e.paras.map (fun p =>
      { p with children := rejectKids wid p.children }) }),
    e.paras.any (fun p => kidsHaveChange wid p.children))

/-! ## Markdown parsing and tracked insertion (`engine.py` lines 193-475) -/

/-- Python `str.strip()`. -/
def pyStrip (s : Str) : Str :=
  ((s.dropWhile pyIsSpace).reverse.dropWhile pyIsSpace).reverse

/-- `RedlineEngine._parse_markdown_style` (lines 194-209): leading hashes
followed by a space give `(stripped rest, Heading level)`; hashes without
the space are still consumed by the loop, so the function returns the text
with the hashes dropped and no style.  The `"Heading {level}"` style name
is modelled by the level. -/
def _parse_markdown_style (text : Str) : Str × Option Nat :=
  if text.head? = some '#' then
    let level := (text.takeWhile (· = '#')).length
    let rest := text.dropWhile (· = '#')
    if rest.head? = some ' ' then (pyStrip rest, some level)
    else (rest, none)
  else (text, none)

/-- An inline style dictionary (`{}` / `{"bold": True}` / ...); a key is
only ever set to `True`, so absence is `false`. -/
structure MdStyle where
  bold : Bool := false
  italic : Bool := false
deriving Repr, DecidableEq

/-- The length of the shortest prefix of `s` after which `close` matches,
with no newline inside the prefix (the lazy `.*?` of the inline regex). -/
def minimalCloseGo (close : Str) : Str → Nat → Option Nat
  | s, k =>
    if close.isPrefixOf s then some k
    else
      match s with
      | [] => none
      | c :: rest => if c = '\n' then none else minimalCloseGo close rest (k + 1)

/-- One attempt of the alternation `(\*\*.*?\*\*)|(_.*?_)` at the current
position: `(isBold, match length, inner text)`. -/
def tryInlineAt (s : Str) : Option (Bool × Nat × Str) :=
  match (if ['*', '*'].isPrefixOf s then minimalCloseGo ['*', '*'] (s.drop 2) 0
    else none) with
  | some k => some (true, 4 + k, (s.drop 2).take k)
  | none =>
    match (if ['_'].isPrefixOf s then minimalCloseGo ['_'] (s.drop 1) 0 else none) with
    | some k => some (false, 2 + k, (s.drop 1).take k)
    | none => none

/-- Leftmost search of the inline token regex:
`(position, isBold, match length, inner text)`. -/
def findInlineTok : Str → Option (Nat × Bool × Nat × Str)
  | [] => (tryInlineAt []).map (fun r => (0, r))
  | c :: rest =>
    match tryInlineAt (c :: rest) with
    | some r => some (0, r)
    | none => (findInlineTok rest).map (fun r => (r.1 + 1, r.2))

/-- `RedlineEngine._parse_inline_markdown` (lines 211-270), fuel-indexed for
structural recursion: the inner and post segments of a match are strictly
shorter than the text, so `fuel = text.length` always suffices and the
fuel-exhausted arm is never reached from the wrapper. -/
def _parse_inline_markdown_go : Nat → Str → MdStyle → List (Str × MdStyle)
  | _, [], _ => []
  | 0, text, style => [(text, style)]
  | fuel + 1, text, style =>
    match findInlineTok text with
    | none => [(text, style)]
    | some (p, isBold, len, inner) =>
      let pre := text.take p
      let post := text.drop (p + len)
      (if pre.isEmpty then [] else [(pre, style)]) ++
        _parse_inline_markdown_go fuel inner
          (if isBold then { style with bold := true } else { style with italic := true }) ++
        _parse_inline_markdown_go fuel post style

/-- `_parse_inline_markdown` with its default empty base style handled by
the caller. -/
def _parse_inline_markdown (text : Str) (style : MdStyle) : List (Str × MdStyle) :=
  _parse_inline_markdown_go text.length text style

/-- `RedlineEngine._apply_run_props` (lines 415-434) on the modelled `w:rPr`:
an empty property dict leaves the run alone; otherwise the `w:rPr` is
created if absent and the flagged properties appended. -/
def _apply_run_props (rpr : Option RPr) (props : MdStyle) : Option RPr :=
  if !props.bold && !props.italic then rpr
  else
    let base := rpr.getD ⟨false, false⟩
    some ⟨base.bold || props.bold, base.italic || props.italic⟩

/-- The runs of one tracked insertion: one `w:r` per parsed segment, the
anchor's `w:rPr` copied in and the markdown overrides applied, a single
`w:t` with the segment text; node ids from `startNid` up. -/
def mkSegRuns (startNid : Nat) (anchorRpr : Option RPr)
    (segs : List (Str × MdStyle)) : List PChild :=
  segs.enum.map (fun pr =>
    PChild.r (startNid + pr.1) ⟨_apply_run_props anchorRpr pr.2.2, [.t pr.2.1]⟩)

/-- An `anchor_run` argument as the engine passes it: the element's node id
(for live-DOM position lookups; `none` once those lookups must fail), its
captured `w:rPr`, and the python-docx `_parent` paragraph used as a
fallback when the element itself is detached. -/
structure Anchor where
  nid : Option Nat
  rpr : Option RPr
  parentPara : Option Nat
deriving Repr, DecidableEq

/-- `RedlineEngine._track_insert_inline` (lines 454-475): allocate a change
id, parse the inline markdown and build the `w:ins` (returned to the caller
unattached, exactly like the source). -/
def _track_insert_inline (e : Eng) (text : Str) (anchorRpr : Option RPr) :
    Eng × PChild :=
  let e1 : Eng := { e with current_id := e.current_id + 1 }
  let wid := intToStr e1.current_id
  let segs := _parse_inline_markdown text ⟨false, false⟩
  let runs := mkSegRuns e1.nextNid anchorRpr segs
  let insN := e1.nextNid + segs.length
  ({ e1 with nextNid := insN + 1 }, .ins insN wid (some e1.author) runs)

/-- `re.split(r"[\r\n]+", text)`, fuel-indexed (each step consumes one
character of the remainder, so `fuel = text.length` suffices and the
fuel-exhausted arm is never reached from the wrapper). -/
def splitLinesGo : Nat → Str → Str → List Str
  | 0, acc, _ => [acc.reverse]
  | _, acc, [] => [acc.reverse]
  | fuel + 1, acc, c :: rest =>
    if c = '\n' || c = '\r' then
      acc.reverse :: splitLinesGo fuel [] (rest.dropWhile (fun d => d = '\n' || d = '\r'))
    else splitLinesGo fuel (c :: acc) rest

/-- `re.split(r"[\r\n]+", text)`: one or more newline characters are one
separator; leading/trailing separators contribute empty segments; the
result is never empty. -/
def splitLinesRe (s : Str) : List Str := splitLinesGo s.length [] s

/-- The node id of a paragraph child. -/
def childNidOf : PChild → Nat
  | .r n _ => n
  | .ins n _ _ _ => n
  | .del n _ _ _ => n
  | .crStart n _ => n
  | .crEnd n _ => n

/-- A parent an `lxml` `getparent()` call can yield in a body flow: the
paragraph itself, or a `w:ins`/`w:del` wrapper at a child index of it. -/
inductive ParentRef where
  | pRef (paraNid : Nat)
  | wRef (paraNid : Nat) (wrapIdx : Nat)
deriving Repr, DecidableEq

/-- The child list a parent reference denotes. -/
def childrenAt (paras : List Para) : ParentRef → List PChild
  | .pRef pn =>
    (((paras.filter (fun p => p.nid = pn)).head?).map (·.children)).getD []
  | .wRef pn wi =>
    let kids0 : List PChild :=
      (((paras.filter (fun p => p.nid = pn)).head?).map (·.children)).getD []
    match kids0.get? wi with
    | some (.ins _ _ _ kids) => kids
    | some (.del _ _ _ kids) => kids
    | _ => []

/-- Rewrite the child list a parent reference denotes. -/
def withChildrenAt (paras : List Para) (ref : ParentRef)
    (f : List PChild → List PChild) : List Para :=
  match ref with
  | .pRef pn =>
    paras.map (fun p => if p.nid = pn then { p with children := f p.children } else p)
  | .wRef pn wi =>
    paras.map (fun p =>
      if p.nid = pn then
        { p with children := p.children.enum.map (fun pr =>
            if pr.1 = wi then
              match pr.2 with
              | .ins n w a kids => .ins n w a (f kids)
              | .del n w a kids => .del n w a (f kids)
              | c => c
            else pr.2) }
      else p)

/-- Index of the child with the given node id in a child list. -/
def idxOfChildNid (kids : List PChild) (nid : Nat) : Option Nat :=
  kids.findIdx? (fun c => childNidOf c = nid)

/-- Locate a child element by node id inside one paragraph: its parent
reference and its index there (flows nest elements at most one wrapper
deep, which is as deep as the mapped mutations ever place them). -/
def childLocInPara (p : Para) (nid : Nat) : Option (ParentRef × Nat) :=
  match idxOfChildNid p.children nid with
  | some i => some (.pRef p.nid, i)
  | none =>
    (p.children.enum.filterMap (fun pr =>
      match pr.2 with
      | .ins _ _ _ kids =>
        (idxOfChildNid kids nid).map (fun j => (ParentRef.wRef p.nid pr.1, j))
      | .del _ _ _ kids =>
        (idxOfChildNid kids nid).map (fun j => (ParentRef.wRef p.nid pr.1, j))
      | _ => none)).head?

/-- Locate a child element by node id in the body (`getparent()` plus
`parent.index(...)`); `none` = detached. -/
def findChildLoc : List Para → Nat → Option (ParentRef × Nat)
  | [], _ => none
  | p :: rest, nid =>
    match childLocInPara p nid with
    | some l => some l
    | none => findChildLoc rest nid

/-- The index of the paragraph with the given node id. -/
def paraIdxOfNid (paras : List Para) (pnid : Nat) : Option Nat :=
  paras.findIdx? (fun p => p.nid = pnid)

/-- The node id of the paragraph containing a run. -/
def paraNidOfRun : List Para → Nat → Option Nat
  | [], _ => none
  | p :: rest, nid =>
    if (findRunInKids nid p.children).isSome then some p.nid
    else paraNidOfRun rest nid

/-- The paragraph index the block/multiline insertion of `track_insert`
resolves for its anchor: a live run at paragraph top level yields that
paragraph; a run inside a live `w:ins`/`w:del` makes the source splice
block paragraphs inside the paragraph element (invalid OOXML, outside the
typed model — treated as a failed lookup, which no mapped flow reaches); a
detached run falls back to the captured python-docx `_parent` paragraph. -/
def anchorParaIdx (paras : List Para) (a : Anchor) : Option Nat :=
  match a.nid with
  | some rn =>
    match findChildLoc paras rn with
    | some (.pRef pn, _) => paraIdxOfNid paras pn
    | some (.wRef _ _, _) => none
    | none => a.parentPara.bind (paraIdxOfNid paras)
  | none => a.parentPara.bind (paraIdxOfNid paras)

/-- The first direct `w:r` child (`find(qn("w:r"))`), with its node id. -/
def firstRunChild : List PChild → Option (Nat × RunData)
  | [] => none
  | .r n rd :: _ => some (n, rd)
  | _ :: rest => firstRunChild rest

/-- The first top-level `w:ins` with the given id, in document order:
`(paragraph node id, child index, its children)`. -/
def kidsFindIns (wid : Str) : List PChild → Nat → Option (Nat × List PChild)
  | [], _ => none
  | .ins _ w _ kids :: rest, i =>
    if w = wid then some (i, kids) else kidsFindIns wid rest (i + 1)
  | _ :: rest, i => kidsFindIns wid rest (i + 1)

/-- `doc.element.xpath(f"//w:ins[@w:id=...]")[0]` with its parent context
(the mapped flows only create `w:ins` as a direct paragraph child). -/
def findTopIns (wid : Str) : List Para → Option (Nat × Nat × List PChild)
  | [] => none
  | p :: rest =>
    match kidsFindIns wid p.children 0 with
    | some (i, kids) => some (p.nid, i, kids)
    | none => findTopIns wid rest

/-- `RedlineEngine._attach_comment` (lines 493-519): register the comment,
insert `w:commentRangeStart` before the start element, and
`w:commentRangeEnd` plus the reference run after the end element (the
reference run's `CommentReference` character style is not a bold/italic
property, so its modelled `w:rPr` is empty).  Author and body text decorate
the comment XML without affecting any mapped observation. -/
def _attach_comment (e : Eng) (ref : ParentRef) (startNid endNid : Nat)
    (text : Str) : Eng :=
  if text.isEmpty then e
  else
    let r := add_comment e.comments none
    let cid := r.2
    let crS : PChild := .crStart e.nextNid cid
    let crE : PChild := .crEnd (e.nextNid + 1) cid
    let refR : PChild := .r (e.nextNid + 2) ⟨none, [.commentReference cid]⟩
    let e1 : Eng := { e with comments := r.1, nextNid := e.nextNid + 3 }
    { e1 with
        paras := withChildrenAt e1.paras ref (fun kids =>
          let k1 := match idxOfChildNid kids startNid with
            | some i => pyInsert kids i crS
            | none => kids
          match idxOfChildNid k1 endNid with
          | some j => pyInsert (pyInsert k1 (j + 1) crE) (j + 2) refR
          | none => k1) }

/-- `RedlineEngine._attach_comment_spanning` (lines 521-557): like
`_attach_comment` but start and end live in different parents; a missing
element skips its insertion (`except ValueError: pass`). -/
def _attach_comment_spanning (e : Eng) (startRef : ParentRef) (startNid : Nat)
    (endRef : ParentRef) (endNid : Nat) (text : Str) : Eng :=
  if text.isEmpty then e
  else
    let r := add_comment e.comments none
    let cid := r.2
    let crS : PChild := .crStart e.nextNid cid
    let crE : PChild := .crEnd (e.nextNid + 1) cid
    let refR : PChild := .r (e.nextNid + 2) ⟨none, [.commentReference cid]⟩
    let e1 : Eng := { e with comments := r.1, nextNid := e.nextNid + 3 }
    let e2 : Eng := { e1 with
      paras := withChildrenAt e1.paras startRef (fun kids =>
        match idxOfChildNid kids startNid with
        | some i => pyInsert kids i crS
        | none => kids) }
    { e2 with
        paras := withChildrenAt e2.paras endRef (fun kids =>
          match idxOfChildNid kids endNid with
          | some j => pyInsert (pyInsert kids (j + 1) crE) (j + 2) refR
          | none => kids) }

/-- One paragraph created for a line of a multiline/block insertion: parse
the line's header style, allocate a change id, build the segment runs
inside a fresh `w:ins`; a header style sets the paragraph's markdown
marker (`_set_paragraph_style`, observed through `get_paragraph_prefix`),
otherwise the anchor paragraph's properties are copied.  Returns the
engine, the paragraph and the `w:ins` node id. -/
def mkLinePara (e : Eng) (anchorRpr : Option RPr) (basePrefix : Str)
    (line : Str) : Eng × Para × Nat :=
  let ps := _parse_markdown_style line
  let e1 : Eng := { e with current_id := e.current_id + 1 }
  let wid := intToStr e1.current_id
  let segs := _parse_inline_markdown ps.1 ⟨false, false⟩
  let runs := mkSegRuns e1.nextNid anchorRpr segs
  let insNid := e1.nextNid + segs.length
  let paraNid := insNid + 1
  let mdPfx := match ps.2 with
    | some lvl => List.replicate lvl '#' ++ [' ']
    | none => basePrefix
  ({ e1 with nextNid := paraNid + 1 },
    ⟨paraNid, mdPfx, [.ins insNid wid (some e1.author) runs]⟩, insNid)

/-- The block-insertion loop of `track_insert` (lines 315-346): lines that
are empty with no style are skipped but still advance the insertion index;
each kept line becomes a paragraph inserted at `p_index + 1 + i`; the
created `(paragraph, w:ins)` pairs accumulate for comment attachment. -/
def blockLinesGo (anchorRpr : Option RPr) (basePrefix : Str) (pIdx : Nat) :
    Eng → Nat → List Str → List (Nat × Nat) → Eng × List (Nat × Nat)
  | e, _, [], created => (e, created)
  | e, i, line :: rest, created =>
    let ps := _parse_markdown_style line
    if ps.1.isEmpty && ps.2.isNone then
      blockLinesGo anchorRpr basePrefix pIdx e (i + 1) rest created
    else
      let r := mkLinePara e anchorRpr basePrefix line
      blockLinesGo anchorRpr basePrefix pIdx
        { r.1 with paras := pyInsert r.1.paras (pIdx + 1 + i) r.2.1 }
        (i + 1) rest (created ++ [(r.2.1.nid, r.2.2)])

/-- The remaining-lines loop of the inline path of `track_insert` (lines
387-413): every remaining line becomes a paragraph (no skipping, no
comment attachment). -/
def inlineLinesGo (anchorRpr : Option RPr) (basePrefix : Str) (pIdx : Nat) :
    Eng → Nat → List Str → Eng
  | e, _, [] => e
  | e, i, line :: rest =>
    let r := mkLinePara e anchorRpr basePrefix line
    inlineLinesGo anchorRpr basePrefix pIdx
      { r.1 with paras := pyInsert r.1.paras (pIdx + 1 + i) r.2.1 } (i + 1) rest

/-- `RedlineEngine.track_insert` (lines 272-413).  A first line with a
header style takes the block path: new styled paragraphs after the
anchor's paragraph, comments attached inside, nothing returned.  Otherwise
the inline `w:ins` is built (returned unattached for the caller to place)
and any remaining lines (with a trailing empty line dropped) become new
paragraphs after the anchor's paragraph. -/
def track_insert (e : Eng) (text : Str) (anchor : Option Anchor)
    (comment : Option Str) : Eng × Option PChild :=
  let lines := splitLinesRe text
  match lines.head? with
  | none => (e, none)
  | some l0 =>
    let fs := _parse_markdown_style l0
    match fs.2 with
    | some _ =>
      match anchor with
      | none => (e, none)
      | some a =>
        match anchorParaIdx e.paras a with
        | none => (e, none)
        | some pIdx =>
          let basePrefix := ((e.paras.get? pIdx).map (·.mdPrefix)).getD []
          let r := blockLinesGo a.rpr basePrefix pIdx e 0 lines []
          let e1 := r.1
          let e2 := match comment with
            | none => e1
            | some ctext =>
              match r.2.head?, r.2.getLast? with
              | some stn, some enn =>
                if stn.1 = enn.1 then
                  _attach_comment e1 (.pRef stn.1) stn.2 stn.2 ctext
                else
                  _attach_comment_spanning e1 (.pRef stn.1) stn.2 (.pRef enn.1) enn.2 ctext
              | _, _ => e1
          (e2, none)
    | none =>
      let r1 := _track_insert_inline e l0 (anchor.bind (·.rpr))
      let remaining0 := lines.tail
      let remaining := if remaining0.getLast? = some ([] : Str) then
          remaining0.dropLast
        else remaining0
      if remaining.isEmpty then (r1.1, some r1.2)
      else
        match anchor with
        | none => (r1.1, some r1.2)
        | some a =>
          match anchorParaIdx r1.1.paras a with
          | none => (r1.1, some r1.2)
          | some pIdx =>
            let basePrefix := ((r1.1.paras.get? pIdx).map (·.mdPrefix)).getD []
            (inlineLinesGo a.rpr basePrefix pIdx r1.1 0 remaining, some r1.2)

/-- `RedlineEngine._apply_single_edit_indexed` (lines 707-845): resolve the
operation, run the nested-insertion guard (reject the conflicting `w:ins`
and re-insert the new text as a fresh insertion at its position), else
dispatch to the insertion / deletion / modification mutation. -/
def _apply_single_edit_indexed (e : Eng) (edit : DocumentEdit) : Bool × Eng :=
  let op := match edit.internalOp with
    | some o => o
    | none =>
      if edit.target_text.isEmpty && !edit.new_text.isEmpty then .INSERTION
      else if !edit.target_text.isEmpty && edit.new_text.isEmpty then .DELETION
      else EditOperationType.MODIFICATION
  let tag := edit.activeMapperRef.getD .raw
  let start_idx := edit.matchStartIndex.getD 0
  let length := edit.target_text.length
  let guardId : Option Str :=
    if 0 < length then
      (get_context_at_range e.mapper start_idx (start_idx + length)).bind (·.ins_id)
    else none
  match guardId with
  | some insId =>
    match findTopIns insId e.paras with
    | none => (false, e)
    | some loc =>
      -- style captured from the first run inside the insertion; its
      -- `_parent` fallback never fires because the rejected `w:ins` still
      -- parents the element, so the multiline body lookup dead-ends
      let anchor : Option Anchor :=
        (firstRunChild loc.2.2).map (fun pr => ⟨some pr.1, pr.2.rpr, none⟩)
      let e1 := (_reject_change e insId).1
      if edit.new_text.isEmpty then (true, e1)
      else
        let r2 := track_insert e1 edit.new_text anchor edit.comment
        match r2.2 with
        | some insEl =>
          let e2 : Eng := { r2.1 with
            paras := withChildrenAt r2.1.paras (.pRef loc.1)
              (fun kids => pyInsert kids loc.2.1 insEl) }
          let e3 := match edit.comment with
            | some ctext =>
              _attach_comment e2 (.pRef loc.1) (childNidOf insEl) (childNidOf insEl) ctext
            | none => e2
          (true, e3)
        | none => (true, r2.1)
  | none =>
  match op with
  | .INSERTION =>
    let ra := get_insertion_anchor e start_idx
    let e1 := ra.1
    match ra.2 with
    | none => (false, e1)
    | some anchorNid =>
      match findChildLoc e1.paras anchorNid with
      | none => (false, e1)
      | some loc =>
        let anc : Anchor :=
          ⟨some anchorNid, (findRun e1.paras anchorNid).bind (·.rpr),
            paraNidOfRun e1.paras anchorNid⟩
        if start_idx = 0 then
          let r2 := track_insert e1 edit.new_text (some anc) edit.comment
          let e2 := match r2.2 with
            | some insEl => { r2.1 with
                paras := withChildrenAt r2.1.paras loc.1
                  (fun kids => pyInsert kids loc.2 insEl) }
            | none => r2.1
          let e3 := match edit.comment, r2.2 with
            | some ctext, some insEl =>
              _attach_comment e2 loc.1 (childNidOf insEl) (childNidOf insEl) ctext
            | _, _ => e2
          (true, e3)
        else
          let nxt := firstRunChild ((childrenAt e1.paras loc.1).drop (loc.2 + 1))
          let styleAnc : Anchor :=
            match nxt with
            | none => anc
            | some nx =>
              if !edit.new_text.isEmpty && edit.new_text.getLast? = some ' ' then
                ⟨some nx.1, nx.2.rpr, paraNidOfRun e1.paras nx.1⟩
              else anc
          let r2 := track_insert e1 edit.new_text (some styleAnc) edit.comment
          let e2 := match r2.2 with
            | some insEl => { r2.1 with
                paras := withChildrenAt r2.1.paras loc.1
                  (fun kids => pyInsert kids (loc.2 + 1) insEl) }
            | none => r2.1
          let e3 := match edit.comment, r2.2 with
            | some ctext, some insEl =>
              _attach_comment e2 loc.1 (childNidOf insEl) (childNidOf insEl) ctext
            | _, _ => e2
          (true, e3)
  | .DELETION =>
    let rt := find_target_runs_by_index e tag start_idx length
    if rt.2.isEmpty then (false, rt.1)
    else (true, rt.2.foldl (fun acc nid => (track_delete_run acc nid).1) rt.1)
  | .MODIFICATION =>
    let rt := find_target_runs_by_index e tag start_idx length
    if rt.2.isEmpty then (false, rt.1)
    else
      let lastRun := rt.2.getLastD 0
      let ancRpr := (findRun rt.1.paras lastRun).bind (·.rpr)
      let ancPara := paraNidOfRun rt.1.paras lastRun
      let dels := rt.2.foldl
        (fun (acc : Eng × Option Nat × Option Nat) nid =>
          let r := track_delete_run acc.1 nid
          (r.1, (if acc.2.1.isSome then acc.2.1 else r.2), r.2))
        (rt.1, none, none)
      let e2 := dels.1
      match dels.2.2, edit.new_text.isEmpty with
      | some lastDel, false =>
        match findChildLoc e2.paras lastDel with
        | none => (true, e2)
        | some loc =>
          let ps := _parse_markdown_style edit.new_text
          let textToInsert :=
            match ps.2 with
            | some lvl =>
              if ((ancPara.bind (fun pn =>
                    (e2.paras.filter (fun p => p.nid = pn)).head?)).map (·.mdPrefix))
                  = some (List.replicate lvl '#' ++ [' ']) then ps.1
              else edit.new_text
            | none => edit.new_text
          let anc : Anchor := ⟨some lastRun, ancRpr, ancPara⟩
          let r2 := track_insert e2 textToInsert (some anc) edit.comment
          let e3 := match r2.2 with
            | some insEl => { r2.1 with
                paras := withChildrenAt r2.1.paras loc.1
                  (fun kids => pyInsert kids (loc.2 + 1) insEl) }
            | none => r2.1
          let e4 := match edit.comment, r2.2, dels.2.1 with
            | some ctext, some insEl, some firstDel =>
              match findChildLoc e3.paras firstDel,
                  findChildLoc e3.paras (childNidOf insEl) with
              | some flocS, some flocE =>
                if flocS.1 = flocE.1 then
                  _attach_comment e3 flocS.1 firstDel (childNidOf insEl) ctext
                else
                  _attach_comment_spanning e3 flocS.1 firstDel flocE.1
                    (childNidOf insEl) ctext
              | _, _ => e3
            | _, _, _ => e3
          (true, e4)
      | _, _ => (true, e2)

/-- Python slicing `s[i:]` with a possibly negative index. -/
def pySliceFrom (s : Str) (i : Int) : Str :=
  if i < 0 then s.drop (s.length - min s.length i.natAbs) else s.drop i.toNat

/-- Python slicing `s[:i]` with a possibly negative index. -/
def pySliceTo (s : Str) (i : Int) : Str :=
  if i < 0 then s.take (s.length - min s.length i.natAbs) else s.take i.toNat

/-- `RedlineEngine._apply_single_edit_heuristic` (lines 586-706): match the
target against the raw view, falling back to a lazily built clean view;
when the match sits inside an existing insertion, replace the whole
insertion through an indexed proxy edit; otherwise classify against the
actual document text and dispatch the indexed proxy. -/
def _apply_single_edit_heuristic (e : Eng) (edit : DocumentEdit) : Bool × Eng :=
  if edit.target_text.isEmpty then (false, e)
  else
    let m := find_match_index_str e.mapper.full_text edit.target_text
    let r0 : Eng × MapperTag × Int × Nat :=
      if m.1 = -1 then
        let e1 := if e.cleanMapper.isSome then e
          else { e with cleanMapper := some (_build_map e.cm true (engDocOf e.paras)) }
        let m2 := find_match_index_str (mapperOf e1 .clean).full_text edit.target_text
        (e1, .clean, m2.1, m2.2)
      else (e, .raw, m.1, m.2)
    if r0.2.2.1 = -1 then (false, r0.1)
    else
      let e1 := r0.1
      let tag := r0.2.1
      let start_idx := r0.2.2.1.toNat
      let match_len := r0.2.2.2
      let ctxInsId :=
        (get_context_at_range (mapperOf e1 tag) start_idx (start_idx + match_len)).bind
          (·.ins_id)
      let proxyNested : Option DocumentEdit :=
        match ctxInsId with
        | some insId =>
          let insSpans := (mapperOf e1 tag).spans.filter
            (fun s => decide (s.ins_id = some insId))
          match insSpans.head? with
          | some s0 =>
            let fullInsText := (insSpans.map (·.text)).flatten
            let relStart : Int := (start_idx : Int) - (s0.start : Int)
            let expanded := pySliceTo fullInsText relStart ++ edit.new_text ++
              pySliceFrom fullInsText (relStart + (match_len : Int))
            some ⟨fullInsText, expanded, edit.comment, some s0.start, none, none⟩
          | none => none
        | none => none
      match proxyNested with
      | some proxy => _apply_single_edit_indexed e1 proxy
      | none =>
        let actual := (e1.mapper.full_text.drop start_idx).take match_len
        match classifyEdit actual edit.new_text start_idx match_len with
        | .noop => (true, e1)
        | .op k ft fn es =>
          _apply_single_edit_indexed e1 ⟨ft, fn, edit.comment, some es, some k, some tag⟩

/-- `self.mapper._build_map()` as `apply_edits` invokes it between
heuristic applications. -/
def engRebuildRaw (e : Eng) : Eng := rebuildTag e .raw

/-- The concrete engine primitives behind the abstract batch orchestration:
the state is `Eng`, the three operations are the embedded methods. -/
def engOps : EngineOps Eng :=
  ⟨fun ed e => _apply_single_edit_indexed e ed,
    fun ed e => _apply_single_edit_heuristic e ed,
    engRebuildRaw⟩

mutual

/-- Whether any `w:del` occurs in the subtree of a child. -/
def childHasDel : PChild → Bool
  | .del _ _ _ _ => true
  | .ins _ _ _ kids => kidsHaveDel kids
  | _ => false

def kidsHaveDel : List PChild → Bool
  | [] => false
  | c :: rest => childHasDel c || kidsHaveDel rest

end

mutual

/-- Whether a `w:del` occurs strictly below a `w:ins` in a child's subtree
(the structural invalidity the nested-insertion guard exists to prevent). -/
def childNestedDelInIns : PChild → Bool
  | .ins _ _ _ kids => kidsHaveDel kids || kidsNestedDelInIns kids
  | .del _ _ _ kids => kidsNestedDelInIns kids
  | _ => false

def kidsNestedDelInIns : List PChild → Bool
  | [] => false
  | c :: rest => childNestedDelInIns c || kidsNestedDelInIns rest

end

/-- Whether the body holds a deletion element as a descendant of an
insertion element. -/
def hasNestedDelInIns (paras : List Para) : Bool :=
  paras.any (fun p => kidsNestedDelInIns p.children)

/-! ## Plain documents: the scope of the deletion round-trip statement.
A plain document has marker-free, single-`w:t` runs without embedded
newlines or tabs, so the two text readings (`get_run_text` and the
`python-docx` getter) agree and every run maps to exactly one span. -/

/-- A plain child: a run with no `w:rPr` and one non-empty `w:t` holding
neither newlines nor tabs. -/
def plainChild : PChild → Bool
  | .r _ ⟨none, [.t s]⟩ => !s.isEmpty && !s.contains '\n' && !s.contains '\t'
  | _ => false

/-- A plain paragraph: no heading marker, all children plain. -/
def plainPara (p : Para) : Bool := p.mdPrefix.isEmpty && p.children.all plainChild

/-- A plain document body. -/
def plainDoc (paras : List Para) : Bool := paras.all plainPara

/-- The mapped text of a child (non-runs contribute nothing). -/
def childText : PChild → Str
  | .r _ rd => get_run_text rd
  | _ => []

/-- The mapped text of a paragraph's runs. -/
def paraText (p : Para) : Str := (p.children.map childText).flatten

/-- The logical text of a plain body before trailing-separator cleanup:
each paragraph's text followed by the `"\n\n"` separator. -/
def plainDocText (paras : List Para) : Str :=
  (paras.map (fun p => paraText p ++ ['\n', '\n'])).flatten

/-- The spans the mapper derives from a plain child list at offset `o`. -/
def plainParaSpans : List PChild → Nat → List TextSpan
  | [], _ => []
  | c :: rest, o =>
    match c with
    | .r nid rd =>
      ⟨o, o + (get_run_text rd).length, get_run_text rd, some nid, none, none⟩ ::
        plainParaSpans rest (o + (get_run_text rd).length)
    | _ => plainParaSpans rest o

/-- The spans of a plain body at offset `o`, separators included. -/
def plainDocSpans : List Para → Nat → List TextSpan
  | [], _ => []
  | p :: rest, o =>
    plainParaSpans p.children o ++
      (⟨o + (paraText p).length, o + (paraText p).length + 2, ['\n', '\n'],
          none, none, none⟩ ::
        plainDocSpans rest (o + (paraText p).length + 2))

/-- Trailing `"\n\n"` spans dropped: the span-list effect of `_build_map`'s
cleanup loop. -/
def popSpans (l : List TextSpan) : List TextSpan :=
  (l.reverse.dropWhile (fun s => decide (s.text = ['\n', '\n']))).reverse

/-- Reversed-string worker of the trailing-pair stripper. -/
def stripSepsRev : Str → Str
  | '\n' :: '\n' :: rest => stripSepsRev rest
  | s => s

/-- Trailing newline pairs stripped: the logical-text effect of the
trailing-separator cleanup on a plain document. -/
def stripTrailingSepPairs (s : Str) : Str := (stripSepsRev s.reverse).reverse

/-- The logical-text offset of run `j` of paragraph `i` in a plain body. -/
def plainRunStart (paras : List Para) (i j : Nat) : Nat :=
  (((paras.take i).map (fun p => (paraText p).length + 2)).sum) +
    ((((((paras.get? i).getD ⟨0, [], []⟩).children).take j).map
      (fun c => (childText c).length)).sum)

/-- All node ids of a body, paragraph nodes included. -/
def bodyNids (paras : List Para) : List Nat :=
  (paras.map (fun p => p.nid :: kidsNids p.children)).flatten

/-! ## Properties of `pyFind` (Python `str.find`) -/

/-- A successful `pyFind` really is an occurrence. -/
theorem pyFind_imp_prefix (needle : Str) :
    ∀ (hay : Str) (i : Nat), pyFind hay needle = some i → needle <+: hay.drop i := by
  intro hay
  induction hay with
  | nil =>
    intro i h
    rw [pyFind] at h
    split at h
    · next hp =>
      cases h
      simpa using List.isPrefixOf_iff_prefix.mp hp
    · simp at h
  | cons c rest ih =>
    intro i h
    rw [pyFind] at h
    split at h
    · next hp =>
      cases h
      simpa using List.isPrefixOf_iff_prefix.mp hp
    · next =>
      simp only [Option.map_eq_some'] at h
      obtain ⟨j, hj, rfl⟩ := h
      simpa using ih j hj

/-- `pyFind` returns the leftmost occurrence. -/
theorem pyFind_leftmost (needle : Str) :
    ∀ (hay : Str) (i : Nat), pyFind hay needle = some i →
      ∀ j, j < i → ¬ (needle <+: hay.drop j) := by
  intro hay
  induction hay with
  | nil =>
    intro i h j hj
    rw [pyFind] at h
    split at h
    · cases h; omega
    · simp at h
  | cons c rest ih =>
    intro i h j hj
    rw [pyFind] at h
    split at h
    · cases h; omega
    · next hp =>
      simp only [Option.map_eq_some'] at h
      obtain ⟨k, hk, rfl⟩ := h
      match j with
      | 0 =>
        intro hpre
        exact hp (List.isPrefixOf_iff_prefix.mpr (by simpa using hpre))
      | m + 1 =>
        intro hpre
        exact ih k hk m (by omega) (by simpa using hpre)

/-- `pyFind` finds something whenever an occurrence exists. -/
theorem pyFind_complete (needle : Str) :
    ∀ (hay : Str) (i : Nat), needle <+: hay.drop i → ∃ k, pyFind hay needle = some k := by
  intro hay
  induction hay with
  | nil =>
    intro i h
    refine ⟨0, ?_⟩
    rw [pyFind]
    have : needle = [] := by simpa using List.prefix_nil.mp (by simpa using h)
    simp [this, List.isPrefixOf_iff_prefix]
  | cons c rest ih =>
    intro i h
    rw [pyFind]
    split
    · exact ⟨0, rfl⟩
    · next hp =>
      match i with
      | 0 =>
        exact absurd (List.isPrefixOf_iff_prefix.mpr (by simpa using h)) hp
      | m + 1 =>
        obtain ⟨k, hk⟩ := ih m (by simpa using h)
        exact ⟨k + 1, by simp [hk]⟩

/-- A found index is inside the haystack. -/
theorem pyFind_le_length (needle : Str) :
    ∀ (hay : Str) (i : Nat), pyFind hay needle = some i → i ≤ hay.length := by
  intro hay
  induction hay with
  | nil =>
    intro i h
    rw [pyFind] at h
    split at h
    · cases h; simp
    · simp at h
  | cons c rest ih =>
    intro i h
    rw [pyFind] at h
    split at h
    · cases h; simp
    · simp only [Option.map_eq_some'] at h
      obtain ⟨j, hj, rfl⟩ := h
      have := ih j hj
      simp; omega

/-! ## Delimiter-balance facts about the trimmer -/

/-- Every reported `**` position lies inside the scanned slice. -/
theorem boldIndicesAux_lt : ∀ (s : Str) (i j : Nat), j ∈ boldIndicesAux s i → j < i + s.length := by
  intro s i
  induction s, i using boldIndicesAux.induct with
  | case1 rest i ih =>
    intro j hj
    rw [boldIndicesAux] at hj
    rcases List.mem_cons.mp hj with h | h
    · subst h; simp
    · have := ih _ h
      simp only [List.length_cons] at this ⊢
      omega
  | case2 head rest i hg ih =>
    intro j hj
    rw [boldIndicesAux.eq_2 i head rest hg] at hj
    have := ih _ hj
    simp only [List.length_cons] at this ⊢
    omega
  | case3 i =>
    intro j hj
    simp [boldIndicesAux] at hj

/-- Every reported `_` position lies inside the scanned slice. -/
theorem underscoreIndicesAux_lt : ∀ (s : Str) (i j : Nat), j ∈ underscoreIndicesAux s i → j < i + s.length := by
  intro s
  induction s with
  | nil => intro i j hj; simp [underscoreIndicesAux] at hj
  | cons c rest ih =>
    intro i j hj
    by_cases hc : c = '_'
    · subst hc
      rw [underscoreIndicesAux] at hj
      rcases List.mem_cons.mp hj with h | h
      · subst h; simp
      · have := ih _ _ h
        simp only [List.length_cons] at this ⊢
        omega
    · rw [underscoreIndicesAux.eq_2 i c rest (by intro h; exact hc h)] at hj
      have := ih _ _ hj
      simp only [List.length_cons] at this ⊢
      omega

/-- An unbalanced-delimiter position lies inside the slice. -/
theorem get_unbalanced_lt (s : Str) (i : Nat)
    (h : get_unbalanced_index s = some i) : i < s.length := by
  unfold get_unbalanced_index at h
  split at h
  · have hm := List.mem_of_mem_getLast? h
    simpa using boldIndicesAux_lt s 0 i hm
  · split at h
    · have hm := List.mem_of_mem_getLast? h
      simpa using underscoreIndicesAux_lt s 0 i hm
    · simp at h

/-- A balanced slice has even `**` and `_` counts. -/
theorem get_unbalanced_none (s : Str)
    (h : get_unbalanced_index s = none) :
    (boldIndices s).length % 2 = 0 ∧ (underscoreIndices s).length % 2 = 0 := by
  unfold get_unbalanced_index at h
  split at h
  · next hb =>
    exfalso
    have hne : boldIndices s ≠ [] := by
      intro he
      rw [he] at hb
      simp at hb
    have := List.getLast?_isSome.mpr hne
    rw [h] at this
    simp at this
  · next hb =>
    split at h
    · next hu =>
      exfalso
      have hne : underscoreIndices s ≠ [] := by
        intro he
        rw [he] at hu
        simp at hu
      have := List.getLast?_isSome.mpr hne
      rw [h] at this
      simp at this
    · next hu =>
      constructor
      · omega
      · omega

/-- With enough fuel, the prefix balance backoff terminates balanced. -/
theorem balanceBacktrackPrefixGo_balanced (target : Str) :
    ∀ fuel p, p ≤ fuel →
      get_unbalanced_index (target.take (balanceBacktrackPrefixGo target fuel p)) = none := by
  intro fuel
  induction fuel with
  | zero =>
    intro p hp
    have hp0 : p = 0 := Nat.le_zero.mp hp
    subst hp0
    rw [balanceBacktrackPrefixGo]
    split
    · next heq => exact heq
    · next idx heq =>
      exfalso
      have h1 := get_unbalanced_lt _ _ heq
      simp at h1
  | succ fuel ih =>
    intro p hp
    rw [balanceBacktrackPrefixGo]
    split
    · next heq => exact heq
    · next idx heq =>
      apply ih
      have h1 := get_unbalanced_lt _ _ heq
      have h2 : (target.take p).length ≤ p := by
        simp [List.length_take]
      omega

/-- The prefix balance backoff terminates in a balanced state. -/
theorem balanceBacktrackPrefix_balanced (target : Str) :
    ∀ p, get_unbalanced_index (target.take (balanceBacktrackPrefix target p)) = none := by
  intro p
  exact balanceBacktrackPrefixGo_balanced target p p le_rfl

/-- The suffix balance backoff terminates in a balanced state. -/
theorem balanceBacktrackSuffix_balanced (target : Str) :
    ∀ s, get_unbalanced_index (target.drop (target.length - balanceBacktrackSuffix target s)) = none := by
  intro s
  induction s with
  | zero =>
    simp [balanceBacktrackSuffix]
    rfl
  | succ s ih =>
    rw [balanceBacktrackSuffix]
    split
    · next heq => exact heq
    · next => exact ih

/-- C3: fuzzy matcher contract.  `find_match_index` tries exact substring,
then curly-quote normalization, then the generated tolerant regex, in order
and short-circuiting; an exact occurrence yields the leftmost index with the
needle's length via strategy 1 (strategies 2 and 3 are not invoked); a
strategy-2 match also reports the needle's length; if all three strategies
fail the result is the NotFound value `(-1, 0)`. -/
theorem find_match_index_contract (full target : Str) :
    (∀ i, occursAt full target i →
      ∃ j, occursAt full target j ∧ (∀ k, k < j → ¬ occursAt full target k) ∧
        find_match_index_core full target =
          (((j : Int), target.length), MatchStrategy.exact)) ∧
    (pyFind full target = none →
      ∀ i, pyFind (_replace_smart_quotes full) (_replace_smart_quotes target) = some i →
        find_match_index_core full target = (((i : Int), target.length), MatchStrategy.quoteNorm)) ∧
    (pyFind full target = none →
      pyFind (_replace_smart_quotes full) (_replace_smart_quotes target) = none →
      regexSearch (_make_fuzzy_regex target) full = none →
      find_match_index_str full target = (-1, 0)) := by
  refine ⟨?_, ?_, ?_⟩
  · intro i hi
    obtain ⟨k, hk⟩ := pyFind_complete target full i hi.1
    refine ⟨k, ⟨ pyFind_imp_prefix _ _ _ hk, pyFind_le_length _ _ _ hk⟩, ?_, ?_⟩
    · intro m hm hocc
      exact pyFind_leftmost _ _ _ hk m hm hocc.1
    · unfold find_match_index_core
      rw [hk]
  · intro h1 i h2
    unfold find_match_index_core
    rw [h1, h2]
  · intro h1 h2 h3
    unfold find_match_index_str find_match_index_core
    rw [h1, h2, h3]

/-- Witness for C3: each part of the contract applied at a concrete input.
Strategy 1 on a repeated needle, strategy 2 on a curly-quote needle,
NotFound on a missing needle. -/
theorem find_match_index_contract_witness :
    (∃ j, occursAt ("xabxab".toList) ("ab".toList) j ∧
      (∀ k, k < j → ¬ occursAt ("xabxab".toList) ("ab".toList) k) ∧
      find_match_index_core ("xabxab".toList) ("ab".toList) =
        (((j : Int), 2), MatchStrategy.exact)) ∧
    find_match_index_core [rsquo, 'a'] ['\'', 'a'] = ((0, 2), MatchStrategy.quoteNorm) ∧
    find_match_index_str ['a'] ['z'] = (-1, 0) := by
  refine ⟨?_, ?_, ?_⟩
  · exact (find_match_index_contract _ _).1 1 (by decide)
  · exact (find_match_index_contract _ _).2.1 (by decide) 0 (by decide)
  · exact (find_match_index_contract _ _).2.2 (by decide) (by decide) (by decide)

/-- C6: the trimmer never leaves a dangling formatting delimiter: the
retained prefix `target[:prefix_len]` and retained suffix
`target[len-suffix_len:]` returned by `_trim_common_context` each contain an
even number of `**` matches and an even number of `_` characters. -/
theorem trim_no_dangling_delimiters (target newv : Str) :
    (boldIndices (target.take (_trim_common_context target newv).1)).length % 2 = 0 ∧
    (underscoreIndices (target.take (_trim_common_context target newv).1)).length % 2 = 0 ∧
    (boldIndices (target.drop (target.length - (_trim_common_context target newv).2))).length % 2 = 0 ∧
    (underscoreIndices (target.drop (target.length - (_trim_common_context target newv).2))).length % 2 = 0 := by
  unfold _trim_common_context
  split
  · refine ⟨by simp [boldIndices, boldIndicesAux], by simp [underscoreIndices, underscoreIndicesAux], ?_, ?_⟩
    · simp [boldIndices, boldIndicesAux]
    · simp [underscoreIndices, underscoreIndicesAux]
  · have hpre := get_unbalanced_none _ (balanceBacktrackPrefix_balanced target (trimPrefixPreBalance target newv))
    refine ⟨hpre.1, hpre.2, ?_, ?_⟩
    all_goals
      simp only [trimPrefixLen, trimSuffixLen]
      split
    · simp [boldIndices, boldIndicesAux]
    · exact (get_unbalanced_none _ (balanceBacktrackSuffix_balanced target (trimSuffixPreBalance target newv))).1
    · simp [underscoreIndices, underscoreIndicesAux]
    · exact (get_unbalanced_none _ (balanceBacktrackSuffix_balanced target (trimSuffixPreBalance target newv))).2

/-- C4 counterexample: at matched text `a**` with replacement `a**b`, the
trimmer's balance backoff leaves residuals `(**, **b)` — both non-empty, so
the claim's table demands Modification — but the code's pure-append check
(`new.startswith(actual)`) fires first and classifies the edit as an
Insertion of `b` after the match. -/
theorem classify_pure_append_overrides_residual_rule :
    (trimmedResiduals ("a**".toList) ("a**b".toList)).1 ≠ [] ∧
    (trimmedResiduals ("a**".toList) ("a**b".toList)).2 ≠ [] ∧
    residualOpKind ("a**".toList) ("a**b".toList) = some EditOperationType.MODIFICATION ∧
    classifyEdit ("a**".toList) ("a**b".toList) 0 3 =
      ClassifyResult.op EditOperationType.INSERTION [] ['b'] 3 := by
  decide

/-- C4 (amended): edit classification after context trimming — equal matched
and replacement texts are a no-op (no mutation, counted applied); a
replacement that strictly extends the matched text is an Insertion of the
remainder placed after the match; in every other case the residual pair
after common prefix/suffix trimming determines the kind exactly as the
claim's table states. -/
theorem classify_amended (actual newv : Str) (startIdx matchLen : Nat) :
    (actual = newv → classifyEdit actual newv startIdx matchLen = ClassifyResult.noop) ∧
    (actual ≠ newv → pyStartsWith newv actual = true →
      classifyEdit actual newv startIdx matchLen =
        ClassifyResult.op EditOperationType.INSERTION [] (newv.drop actual.length)
          (startIdx + matchLen)) ∧
    (pyStartsWith newv actual = false →
      kindOf (classifyEdit actual newv startIdx matchLen) = residualOpKind actual newv) := by
  refine ⟨?_, ?_, ?_⟩
  · intro h
    simp [classifyEdit, h]
  · intro h1 h2
    simp [classifyEdit, h1, h2]
  · intro h2
    have h1 : actual ≠ newv := by
      intro he
      subst he
      have hp : pyStartsWith actual actual = true :=
        List.isPrefixOf_iff_prefix.mpr (List.prefix_refl actual)
      rw [hp] at h2
      cases h2
    simp only [classifyEdit, residualOpKind, trimmedResiduals, h1, h2, if_false,
      Bool.false_eq_true, ite_false]
    by_cases hA : (actual.take (actual.length - (_trim_common_context actual newv).2)).drop
        (_trim_common_context actual newv).1 = [] <;>
    by_cases hB : (newv.take (newv.length - (_trim_common_context actual newv).2)).drop
        (_trim_common_context actual newv).1 = [] <;>
    simp [hA, hB, kindOf, List.isEmpty_iff]

/-- Witness for C4's amended theorem: the three branches at concrete inputs. -/
theorem classify_amended_witness :
    classifyEdit ['x'] ['x'] 0 1 = ClassifyResult.noop ∧
    classifyEdit ['a'] ['a', 'b'] 2 1 =
      ClassifyResult.op EditOperationType.INSERTION [] ['b'] 3 ∧
    kindOf (classifyEdit ['a', 'b'] ['c'] 0 2) = residualOpKind ['a', 'b'] ['c'] := by
  exact ⟨(classify_amended ['x'] ['x'] 0 1).1 rfl,
    (classify_amended ['a'] ['a', 'b'] 2 1).2.1 (by decide) (by decide),
    (classify_amended ['a', 'b'] ['c'] 0 2).2.2 (by decide)⟩

/-- Phase-1's trace is exactly one application event per edit, in order:
no rebuild happens between indexed applications. -/
theorem applyIndexedPhase_trace {σ : Type} (ops : EngineOps σ) :
    ∀ (es : List DocumentEdit) (cnt : Nat × Nat) (st : σ),
      (applyIndexedPhase ops es cnt st).2.2 = es.map BatchEvent.applyIndexed := by
  intro es
  induction es with
  | nil => intro cnt st; rfl
  | cons e es ih =>
    intro cnt st
    simp only [applyIndexedPhase, List.map_cons]
    rw [ih]

/-- Phase-2's trace is well-shaped: one application event per edit, with a
rebuild immediately after each applied edit. -/
theorem applyHeuristicPhase_trace {σ : Type} (ops : EngineOps σ) :
    ∀ (es : List DocumentEdit) (cnt : Nat × Nat) (st : σ),
      HeuristicTrace es (applyHeuristicPhase ops es cnt st).2.2 := by
  intro es
  induction es with
  | nil => intro cnt st; exact .nil
  | cons e es ih =>
    intro cnt st
    simp only [applyHeuristicPhase]
    split
    · exact .applied e es _ (ih _ _)
    · exact .skipped e es _ (ih _ _)

/-- C5: two-phase batch ordering of `apply_edits`.  The engine's event trace
is: exactly the pre-indexed edits (a permutation of the edits that carry a
match offset), sorted in descending offset order, each applied with no
mapper rebuild in between; then, if any matcher-discovered edits remain,
one full rebuild followed by those edits sorted by decreasing target-text
length, with a full mapper rebuild after each applied edit. -/
theorem apply_edits_two_phase {σ : Type} (ops : EngineOps σ) (edits : List DocumentEdit) (s : σ) :
    ∃ tr2 : List BatchEvent,
      (apply_edits ops edits s).2.2 =
        (sortIndexedDesc (edits.filter (fun e => e.matchStartIndex.isSome))).map
            BatchEvent.applyIndexed ++
          (if (edits.filter (fun e => !e.matchStartIndex.isSome)).isEmpty then []
           else BatchEvent.rebuild :: tr2) ∧
      HeuristicTrace (sortByLenDesc (edits.filter (fun e => !e.matchStartIndex.isSome))) tr2 ∧
      (sortIndexedDesc (edits.filter (fun e => e.matchStartIndex.isSome))).Perm
        (edits.filter (fun e => e.matchStartIndex.isSome)) ∧
      List.Sorted (fun a b => idxKey b ≤ idxKey a)
        (sortIndexedDesc (edits.filter (fun e => e.matchStartIndex.isSome))) ∧
      (sortByLenDesc (edits.filter (fun e => !e.matchStartIndex.isSome))).Perm
        (edits.filter (fun e => !e.matchStartIndex.isSome)) ∧
      List.Sorted (fun a b => b.target_text.length ≤ a.target_text.length)
        (sortByLenDesc (edits.filter (fun e => !e.matchStartIndex.isSome))) := by
  haveI hT1 : IsTotal DocumentEdit (fun a b => idxKey b ≤ idxKey a) :=
    ⟨fun a b => Nat.le_total (idxKey b) (idxKey a)⟩
  haveI hTr1 : IsTrans DocumentEdit (fun a b => idxKey b ≤ idxKey a) :=
    ⟨fun _ _ _ hab hbc => Nat.le_trans hbc hab⟩
  haveI hT2 : IsTotal DocumentEdit (fun a b => b.target_text.length ≤ a.target_text.length) :=
    ⟨fun a b => Nat.le_total b.target_text.length a.target_text.length⟩
  haveI hTr2 : IsTrans DocumentEdit (fun a b => b.target_text.length ≤ a.target_text.length) :=
    ⟨fun _ _ _ hab hbc => Nat.le_trans hbc hab⟩
  by_cases hU : (edits.filter (fun e => !e.matchStartIndex.isSome)).isEmpty = true
  · have hnil : edits.filter (fun e => !e.matchStartIndex.isSome) = [] :=
      List.isEmpty_iff.mp hU
    have e1 : apply_edits ops edits s =
        applyIndexedPhase ops
          (sortIndexedDesc (edits.filter (fun e => e.matchStartIndex.isSome))) (0, 0) s := by
      simp only [apply_edits]
      rw [hU]
      rfl
    refine ⟨[], ?_, ?_, List.perm_insertionSort _ _, List.sorted_insertionSort _ _,
      List.perm_insertionSort _ _, List.sorted_insertionSort _ _⟩
    · rw [e1, applyIndexedPhase_trace, hU]
      simp
    · rw [hnil]
      exact .nil
  · have hU' : (edits.filter (fun e => !e.matchStartIndex.isSome)).isEmpty = false := by
      simpa using hU
    have e2 : apply_edits ops edits s =
        ((applyHeuristicPhase ops
            (sortByLenDesc (edits.filter (fun e => !e.matchStartIndex.isSome)))
            (applyIndexedPhase ops
              (sortIndexedDesc (edits.filter (fun e => e.matchStartIndex.isSome))) (0, 0) s).1
            (ops.rebuild (applyIndexedPhase ops
              (sortIndexedDesc (edits.filter (fun e => e.matchStartIndex.isSome)))
              (0, 0) s).2.1)).1,
          (applyHeuristicPhase ops
            (sortByLenDesc (edits.filter (fun e => !e.matchStartIndex.isSome)))
            (applyIndexedPhase ops
              (sortIndexedDesc (edits.filter (fun e => e.matchStartIndex.isSome))) (0, 0) s).1
            (ops.rebuild (applyIndexedPhase ops
              (sortIndexedDesc (edits.filter (fun e => e.matchStartIndex.isSome)))
              (0, 0) s).2.1)).2.1,
          (applyIndexedPhase ops
            (sortIndexedDesc (edits.filter (fun e => e.matchStartIndex.isSome))) (0, 0) s).2.2 ++
            BatchEvent.rebuild :: (applyHeuristicPhase ops
              (sortByLenDesc (edits.filter (fun e => !e.matchStartIndex.isSome)))
              (applyIndexedPhase ops
                (sortIndexedDesc (edits.filter (fun e => e.matchStartIndex.isSome))) (0, 0) s).1
              (ops.rebuild (applyIndexedPhase ops
                (sortIndexedDesc (edits.filter (fun e => e.matchStartIndex.isSome)))
                (0, 0) s).2.1)).2.2) := by
      simp only [apply_edits]
      rw [hU']
      rfl
    refine ⟨(applyHeuristicPhase ops
        (sortByLenDesc (edits.filter (fun e => !e.matchStartIndex.isSome)))
        (applyIndexedPhase ops
          (sortIndexedDesc (edits.filter (fun e => e.matchStartIndex.isSome))) (0, 0) s).1
        (ops.rebuild (applyIndexedPhase ops
          (sortIndexedDesc (edits.filter (fun e => e.matchStartIndex.isSome))) (0, 0) s).2.1)).2.2,
      ?_, applyHeuristicPhase_trace _ _ _ _, List.perm_insertionSort _ _,
      List.sorted_insertionSort _ _, List.perm_insertionSort _ _,
      List.sorted_insertionSort _ _⟩
    rw [e2]
    simp only [applyIndexedPhase_trace]
    rw [hU']
    simp

/-- The scan fold is monotone in its accumulator and dominates every parsed
element. -/
theorem scan_foldl_ge (l : List (Option Int)) :
    ∀ (m : Int),
      m ≤ l.foldl (fun maxId v => match v with
        | some n => if n > maxId then n else maxId
        | none => maxId) m ∧
      ∀ v ∈ l, ∀ x : Int, v = some x →
        x ≤ l.foldl (fun maxId v => match v with
          | some n => if n > maxId then n else maxId
          | none => maxId) m := by
  induction l with
  | nil => intro m; exact ⟨le_refl m, by intro v hv; cases hv⟩
  | cons v l ih =>
    intro m
    constructor
    · rcases v with _ | n
      · exact (ih m).1
      · simp only [List.foldl_cons]
        split
        · next h => exact le_trans (le_of_lt h) (ih n).1
        · exact (ih m).1
    · intro w hw x hx
      rcases List.mem_cons.mp hw with h | h
      · subst h
        cases hx
        simp only [List.foldl_cons]
        split
        · exact (ih x).1
        · next h => exact le_trans (Int.not_lt.mp h) (ih m).1
      · rcases v with _ | n
        · exact (ih m).2 w h x hx
        · simp only [List.foldl_cons]
          split
          · exact (ih n).2 w h x hx
          · exact (ih m).2 w h x hx

/-- Every parsed id in the document is at most the scanned maximum. -/
theorem scan_dominates (existing : List (Option Int)) :
    ∀ v ∈ existing, ∀ x : Int, v = some x → x ≤ _scan_existing_ids existing := by
  intro v hv x hx
  exact (scan_foldl_ge existing 0).2 v hv x hx

/-- Allocated ids from counter `c` all exceed `c`. -/
theorem allocatedIdsFrom_gt (c : Int) :
    ∀ (n : Nat), ∀ i ∈ allocatedIdsFrom c n, c < i := by
  intro n
  induction n generalizing c with
  | zero => intro i hi; cases hi
  | succ n ih =>
    intro i hi
    rcases List.mem_cons.mp hi with h | h
    · subst h; simp [_get_next_id]
    · have := ih (c + 1) i h
      simp only [_get_next_id] at h this
      omega

/-- Allocated ids strictly increase in allocation order. -/
theorem allocatedIdsFrom_chain (c : Int) :
    ∀ (n : Nat), (allocatedIdsFrom c n).Chain' (· < ·) := by
  intro n
  induction n generalizing c with
  | zero => exact List.chain'_nil
  | succ n ih =>
    rw [allocatedIdsFrom]
    apply List.chain'_cons'.mpr
    refine ⟨?_, ih _⟩
    intro y hy
    cases n with
    | zero => simp [allocatedIdsFrom] at hy
    | succ m =>
      rw [allocatedIdsFrom] at hy
      cases hy
      simp [_get_next_id]

/-- C8: tracked-change id allocation.  Every id handed out by one engine
instance is strictly greater than the maximum insertion/deletion id parsed
from the document at construction, successive allocated ids strictly
increase, and no id is ever repeated. -/
theorem tracked_change_id_allocation (existing : List (Option Int)) (n : Nat) :
    (∀ i ∈ allocatedIds existing n, ∀ v ∈ existing, ∀ x : Int, v = some x → x < i) ∧
    (allocatedIds existing n).Chain' (· < ·) ∧
    (allocatedIds existing n).Nodup := by
  refine ⟨?_, allocatedIdsFrom_chain _ n, ?_⟩
  · intro i hi v hv x hx
    have h1 := scan_dominates existing v hv x hx
    have h2 := allocatedIdsFrom_gt (_scan_existing_ids existing) n i hi
    omega
  · have hp : (allocatedIds existing n).Pairwise (· < ·) :=
      List.chain'_iff_pairwise.mp (allocatedIdsFrom_chain _ n)
    exact hp.imp (fun h => ne_of_lt h)

/-! ## Comment-threading lemmas -/

/-- A successful linkage step comes from an actual entry of the table. -/
theorem extParent_some_mem (ext : List CommentEx) (p q : Str)
    (h : extParent ext p = some q) :
    ∃ ex ∈ ext, ex.paraId = p ∧ ex.parentParaId = some q := by
  unfold extParent at h
  have hq := List.mem_of_mem_head? h
  obtain ⟨ex, hex, hif⟩ := List.mem_filterMap.mp hq
  by_cases hp : ex.paraId = p
  · rw [if_pos hp] at hif
    exact ⟨ex, hex, hp, hif⟩
  · rw [if_neg hp] at hif
    cases hif

/-- Specification of `flatExt`. -/
theorem flatExt_spec (ext : List CommentEx) (h : flatExt ext = true) :
    ∀ ex ∈ ext, ∀ q, ex.parentParaId = some q → extParent ext q = none := by
  intro ex hex q hq
  have := List.all_eq_true.mp h ex hex
  rw [hq] at this
  simpa using this

/-- In a flat table every parent pointer targets a root. -/
theorem flat_step_root (ext : List CommentEx) (h : flatExt ext = true) :
    ∀ p q, extParent ext p = some q → extParent ext q = none := by
  intro p q hpq
  obtain ⟨ex, hex, _, hpar⟩ := extParent_some_mem ext p q hpq
  exact flatExt_spec ext h ex hex q hpar

/-- In a flat table a descendant chain is a single step to a root. -/
theorem flat_transGen (ext : List CommentEx) (h : flatExt ext = true)
    (u v : Str) (hd : IsDescendantPara ext u v) :
    extParent ext u = some v ∧ extParent ext v = none := by
  induction hd with
  | single h1 => exact ⟨h1, flat_step_root ext h _ _ h1⟩
  | tail hchain hstep ih =>
    exfalso
    have h2 := ih.2
    rw [hstep] at h2
    cases h2

/-- Appending an entry does not change lookups that miss its paraId. -/
theorem extParent_append (ext : List CommentEx) (e : CommentEx) (q : Str)
    (hne : e.paraId ≠ q) :
    extParent (ext ++ [e]) q = extParent ext q := by
  unfold extParent
  rw [List.filterMap_append]
  have : ([e].filterMap fun ex => if ex.paraId = q then ex.parentParaId else none) = [] := by
    simp [if_neg hne]
  rw [this, List.append_nil]

/-- Appending a parentless entry never affects linkage lookups. -/
theorem extParent_append_parentless (ext : List CommentEx) (e : CommentEx) (q : Str)
    (hpar : e.parentParaId = none) :
    extParent (ext ++ [e]) q = extParent ext q := by
  by_cases hne : e.paraId = q
  · unfold extParent
    rw [List.filterMap_append]
    have : ([e].filterMap fun ex => if ex.paraId = q then ex.parentParaId else none) = [] := by
      simp [hne, hpar]
    rw [this, List.append_nil]
  · exact extParent_append ext e q hne

/-- C10 counterexample: in a document whose pre-existing extended table is a
two-step chain (comment 3's paragraph C points to B, B points to A, A is
the root of comment 1's thread), the one-step thread-root lookup does not
reach the top-most ancestor: a REPLY to comment "1" records root parent A
while a REPLY to its descendant "3" records B. -/
theorem thread_root_chain_counterexample :
    (extParent
        [⟨"A".toList, none⟩, ⟨"B".toList, some ("A".toList)⟩,
          ⟨"C".toList, some ("B".toList)⟩] ("C".toList) = some ("B".toList)) ∧
    (extParent
        [⟨"A".toList, none⟩, ⟨"B".toList, some ("A".toList)⟩,
          ⟨"C".toList, some ("B".toList)⟩] ("B".toList) = some ("A".toList)) ∧
    (_find_thread_root_para_id
        ⟨[⟨"1".toList, some ("A".toList)⟩, ⟨"2".toList, some ("B".toList)⟩,
          ⟨"3".toList, some ("C".toList)⟩],
          [⟨"A".toList, none⟩, ⟨"B".toList, some ("A".toList)⟩,
          ⟨"C".toList, some ("B".toList)⟩], 4, 0⟩ ("1".toList) = some ("A".toList)) ∧
    (_find_thread_root_para_id
        ⟨[⟨"1".toList, some ("A".toList)⟩, ⟨"2".toList, some ("B".toList)⟩,
          ⟨"3".toList, some ("C".toList)⟩],
          [⟨"A".toList, none⟩, ⟨"B".toList, some ("A".toList)⟩,
          ⟨"C".toList, some ("B".toList)⟩], 4, 0⟩ ("3".toList) = some ("B".toList)) ∧
    (recordedReplyParent
        ⟨[⟨"1".toList, some ("A".toList)⟩, ⟨"2".toList, some ("B".toList)⟩,
          ⟨"3".toList, some ("C".toList)⟩],
          [⟨"A".toList, none⟩, ⟨"B".toList, some ("A".toList)⟩,
          ⟨"C".toList, some ("B".toList)⟩], 4, 0⟩ ("1".toList) = some ("A".toList)) ∧
    (recordedReplyParent
        ⟨[⟨"1".toList, some ("A".toList)⟩, ⟨"2".toList, some ("B".toList)⟩,
          ⟨"3".toList, some ("C".toList)⟩],
          [⟨"A".toList, none⟩, ⟨"B".toList, some ("A".toList)⟩,
          ⟨"C".toList, some ("B".toList)⟩], 4, 0⟩ ("3".toList) = some ("B".toList)) ∧
    ("A".toList ≠ "B".toList) := by
  decide

/-- C10 (amended): the thread-root lookup performs a single step of the
extended linkage, not a full walk; on a flat extended table — every parent
pointer targets a parentless entry, the shape Modern Word's flattening and
`add_comment` itself produce — that single step does reach the top-most
ancestor, replies to a comment and to any of its descendants record the
same root parent, and `add_comment` keeps the table flat (given a fresh
paraId). -/
theorem thread_root_flat_contract (st : CommentsState)
    (hf : flatExt st.extended = true) :
    (∀ p q, extParent st.extended p = some q → extParent st.extended q = none) ∧
    (∀ x y px py,
      _find_para_id_for_comment st x = some px →
      _find_para_id_for_comment st y = some py →
      IsDescendantPara st.extended py px →
      _find_thread_root_para_id st x = some px ∧
      _find_thread_root_para_id st y = some px ∧
      recordedReplyParent st x = some px ∧
      recordedReplyParent st y = some px) ∧
    ((∀ ex ∈ st.extended, ex.paraId ≠ _generate_para_id st.paraSeed ∧
        ex.parentParaId ≠ some (_generate_para_id st.paraSeed)) →
      ∀ pid px, _find_para_id_for_comment st pid = some px →
        px ≠ _generate_para_id st.paraSeed →
        flatExt ((add_comment st (some pid)).1.extended) = true) := by
  refine ⟨flat_step_root st.extended hf, ?_, ?_⟩
  · intro x y px py hx hy hd
    obtain ⟨hstep, hroot⟩ := flat_transGen st.extended hf py px hd
    have hrx : _find_thread_root_para_id st x = some px := by
      simp [_find_thread_root_para_id, hx, hroot]
    have hry : _find_thread_root_para_id st y = some px := by
      simp [_find_thread_root_para_id, hy, hstep]
    refine ⟨hrx, hry, ?_, ?_⟩
    · unfold recordedReplyParent add_comment
      simp only [hrx, List.getLast?_concat, Option.bind]
    · unfold recordedReplyParent add_comment
      simp only [hry, List.getLast?_concat, Option.bind]
  · intro hfresh pid px hpx hpxne
    have hroot : ∀ r, _find_thread_root_para_id st pid = some r →
        extParent st.extended r = none ∧ r ≠ _generate_para_id st.paraSeed := by
      intro r hr
      unfold _find_thread_root_para_id at hr
      rw [hpx] at hr
      rcases hcase : extParent st.extended px with _ | par
      · simp [hcase] at hr
        subst hr
        exact ⟨hcase, hpxne⟩
      · simp [hcase] at hr
        subst hr
        obtain ⟨ex, hex, _, hpar⟩ := extParent_some_mem st.extended px par hcase
        refine ⟨flatExt_spec st.extended hf ex hex par hpar, ?_⟩
        intro hre
        exact (hfresh ex hex).2 (hre ▸ hpar)
    -- the appended entry and all old entries stay flat
    rcases hr2 : _find_thread_root_para_id st pid with _ | r
    · -- no root found: appended entry is parentless
      apply List.all_eq_true.mpr
      intro ex hex
      rcases List.mem_append.mp hex with hold | hnew
      · rcases hcp : ex.parentParaId with _ | q
        · simp [add_comment, hr2, hcp]
        · have hq := flatExt_spec st.extended hf ex hold q hcp
          simp only [add_comment, hr2, hcp]
          rw [extParent_append_parentless st.extended _ q rfl, hq]
          simp
      · simp only [add_comment, hr2] at hnew
        simp only [List.mem_singleton] at hnew
        subst hnew
        simp
    · obtain ⟨hrnone, hrne⟩ := hroot r hr2
      apply List.all_eq_true.mpr
      intro ex hex
      rcases List.mem_append.mp hex with hold | hnew
      · rcases hcp : ex.parentParaId with _ | q
        · simp [hcp]
        · have hq := flatExt_spec st.extended hf ex hold q hcp
          have hqne : (⟨_generate_para_id st.paraSeed, some r⟩ : CommentEx).paraId ≠ q := by
            intro he
            exact ((hfresh ex hold).2 (by rw [← he] at hcp; exact hcp))
          simp only [add_comment, hr2, hcp]
          rw [extParent_append st.extended _ q hqne, hq]
          simp
      · simp only [add_comment, hr2] at hnew
        simp only [List.mem_singleton] at hnew
        subst hnew
        have hne : (⟨_generate_para_id st.paraSeed, some r⟩ : CommentEx).paraId ≠ r := by
          simpa using fun he => hrne he.symm
        simp only [add_comment, hr2]
        rw [extParent_append st.extended _ r hne, hrnone]
        simp

/-- Witness for C10's amended theorem: a concrete flat two-comment thread
(comment "2" replies to comment "1"); the lookup lands on the root, both
replies record root parent A, and adding a reply keeps the table flat. -/
theorem thread_root_flat_contract_witness :
    extParent [⟨"A".toList, none⟩, ⟨"B".toList, some ("A".toList)⟩] ("A".toList) = none ∧
    (_find_thread_root_para_id
        ⟨[⟨"1".toList, some ("A".toList)⟩, ⟨"2".toList, some ("B".toList)⟩],
          [⟨"A".toList, none⟩, ⟨"B".toList, some ("A".toList)⟩], 3, 0⟩ ("1".toList) =
        some ("A".toList) ∧
      _find_thread_root_para_id
        ⟨[⟨"1".toList, some ("A".toList)⟩, ⟨"2".toList, some ("B".toList)⟩],
          [⟨"A".toList, none⟩, ⟨"B".toList, some ("A".toList)⟩], 3, 0⟩ ("2".toList) =
        some ("A".toList) ∧
      recordedReplyParent
        ⟨[⟨"1".toList, some ("A".toList)⟩, ⟨"2".toList, some ("B".toList)⟩],
          [⟨"A".toList, none⟩, ⟨"B".toList, some ("A".toList)⟩], 3, 0⟩ ("1".toList) =
        some ("A".toList) ∧
      recordedReplyParent
        ⟨[⟨"1".toList, some ("A".toList)⟩, ⟨"2".toList, some ("B".toList)⟩],
          [⟨"A".toList, none⟩, ⟨"B".toList, some ("A".toList)⟩], 3, 0⟩ ("2".toList) =
        some ("A".toList)) ∧
    flatExt ((add_comment
        ⟨[⟨"1".toList, some ("A".toList)⟩, ⟨"2".toList, some ("B".toList)⟩],
          [⟨"A".toList, none⟩, ⟨"B".toList, some ("A".toList)⟩], 3, 0⟩
        (some ("1".toList))).1.extended) = true := by
  refine ⟨?_, ?_, ?_⟩
  · exact (thread_root_flat_contract
      ⟨[⟨"1".toList, some ("A".toList)⟩, ⟨"2".toList, some ("B".toList)⟩],
        [⟨"A".toList, none⟩, ⟨"B".toList, some ("A".toList)⟩], 3, 0⟩
      (by decide)).1 ("B".toList) ("A".toList) (by decide)
  · exact (thread_root_flat_contract
      ⟨[⟨"1".toList, some ("A".toList)⟩, ⟨"2".toList, some ("B".toList)⟩],
        [⟨"A".toList, none⟩, ⟨"B".toList, some ("A".toList)⟩], 3, 0⟩
      (by decide)).2.1 ("1".toList) ("2".toList)
      ("A".toList) ("B".toList) (by decide) (by decide)
      (Relation.TransGen.single (by decide))
  · exact (thread_root_flat_contract
      ⟨[⟨"1".toList, some ("A".toList)⟩, ⟨"2".toList, some ("B".toList)⟩],
        [⟨"A".toList, none⟩, ⟨"B".toList, some ("A".toList)⟩], 3, 0⟩
      (by decide)).2.2 (by decide) ("1".toList)
      ("A".toList) (by decide) (by decide)

/-- C9: word-diff safety fallback.  A raw-mapper match reaches the
post-match stage of `_apply_edit_with_word_diff`; there, when every guard
up to the word diff passes but the concatenation of the EQUAL and INSERT
segments does not equal the intended (cleaned) replacement text, the
word-diff result is discarded and the edit is delegated to the whole-span
(trim-based) engine path at the already-matched offset, carrying the full
replacement text — it is never silently dropped. -/
theorem word_diff_reconstruction_fallback (env : WordDiffEnv) (edit0 : DocumentEdit)
    (start mlen : Nat) :
    ((_normalize_edit_whitespace edit0).target_text ≠ [] →
      env.rawFind (_normalize_edit_whitespace edit0).target_text = ((start : Int), mlen) →
      _apply_edit_with_word_diff env edit0 =
        wordDiffAfterMatch env (_normalize_edit_whitespace edit0) MapperTag.raw start mlen) ∧
    (∀ (edit : DocumentEdit) (mapper : MapperTag),
      env.ctxInsId mapper start (start + mlen) = none →
      edit.new_text ≠ [] →
      env.resolveRuns mapper start mlen ≠ [] →
      ((env.resolveRuns mapper start mlen).map (·.paraId)).dedup.length ≤ 1 →
      (env.stripClauseNumber (env.stripFormattingMarkers edit.new_text)
          (((env.resolveRuns mapper start mlen).headD ⟨[], 0⟩).paraId)).contains '\n' = false →
      ((env.resolveRuns mapper start mlen).map (·.text)).flatten ≠
        env.stripClauseNumber (env.stripFormattingMarkers edit.new_text)
          (((env.resolveRuns mapper start mlen).headD ⟨[], 0⟩).paraId) →
      ((env.diffWords ((env.resolveRuns mapper start mlen).map (·.text)).flatten
          (env.stripClauseNumber (env.stripFormattingMarkers edit.new_text)
            (((env.resolveRuns mapper start mlen).headD ⟨[], 0⟩).paraId))).filterMap
          (fun d => if d.1 ≥ 0 then some d.2 else none)).flatten ≠
        env.stripClauseNumber (env.stripFormattingMarkers edit.new_text)
          (((env.resolveRuns mapper start mlen).headD ⟨[], 0⟩).paraId) →
      wordDiffAfterMatch env edit mapper start mlen =
        WordDiffOutcome.delegateWithMatch edit.target_text
          (env.stripClauseNumber (env.stripFormattingMarkers edit.new_text)
            (((env.resolveRuns mapper start mlen).headD ⟨[], 0⟩).paraId))
          mapper start) := by
  constructor
  · intro hne hraw
    unfold _apply_edit_with_word_diff
    rw [if_neg (by simpa [List.isEmpty_iff] using hne)]
    rw [hraw]
    rw [if_pos (by intro h; omega)]
    simp
  · intro edit mapper hctx hnew hruns hpara hnl hneq hrec
    unfold wordDiffAfterMatch
    rw [if_neg (by simp [hctx])]
    rw [if_neg (by simpa [List.isEmpty_iff] using hnew)]
    rw [if_neg (by simpa [List.isEmpty_iff] using hruns)]
    rw [if_neg (by omega)]
    have hnl' : ¬ ((env.stripClauseNumber (env.stripFormattingMarkers edit.new_text)
        (((env.resolveRuns mapper start mlen).headD ⟨[], 0⟩).paraId)).contains '\n' = true) := by
      rw [hnl]
      simp
    rw [if_neg hnl']
    rw [if_neg hneq]
    rw [if_pos hrec]

/-- Witness for C9: a concrete environment whose word diff returns a wrong
reconstruction; the wrapper delegates with the match instead of applying
the diff. -/
theorem word_diff_reconstruction_fallback_witness :
    (_apply_edit_with_word_diff
        ⟨fun _ => (0, 2), fun _ => (-1, 0), fun _ => (-1, 0), fun _ _ _ => none,
          fun _ _ _ => [⟨"ab".toList, 0⟩], fun _ _ => [(0, "xx".toList)], id, fun s _ => s⟩
        ⟨"ab".toList, "cd".toList, none, none, none, none⟩ =
      wordDiffAfterMatch
        ⟨fun _ => (0, 2), fun _ => (-1, 0), fun _ => (-1, 0), fun _ _ _ => none,
          fun _ _ _ => [⟨"ab".toList, 0⟩], fun _ _ => [(0, "xx".toList)], id, fun s _ => s⟩
        (_normalize_edit_whitespace ⟨"ab".toList, "cd".toList, none, none, none, none⟩)
        MapperTag.raw 0 2) ∧
    wordDiffAfterMatch
        ⟨fun _ => (0, 2), fun _ => (-1, 0), fun _ => (-1, 0), fun _ _ _ => none,
          fun _ _ _ => [⟨"ab".toList, 0⟩], fun _ _ => [(0, "xx".toList)], id, fun s _ => s⟩
        ⟨"ab".toList, "cd".toList, none, none, none, none⟩ MapperTag.raw 0 2 =
      WordDiffOutcome.delegateWithMatch ("ab".toList) ("cd".toList) MapperTag.raw 0 := by
  constructor
  · exact (word_diff_reconstruction_fallback
      ⟨fun _ => (0, 2), fun _ => (-1, 0), fun _ => (-1, 0), fun _ _ _ => none,
        fun _ _ _ => [⟨"ab".toList, 0⟩], fun _ _ => [(0, "xx".toList)], id, fun s _ => s⟩
      ⟨"ab".toList, "cd".toList, none, none, none, none⟩ 0 2).1 (by decide) rfl
  · exact (word_diff_reconstruction_fallback
      ⟨fun _ => (0, 2), fun _ => (-1, 0), fun _ => (-1, 0), fun _ _ _ => none,
        fun _ _ _ => [⟨"ab".toList, 0⟩], fun _ _ => [(0, "xx".toList)], id, fun s _ => s⟩
      ⟨"ab".toList, "cd".toList, none, none, none, none⟩ 0 2).2
      ⟨"ab".toList, "cd".toList, none, none, none, none⟩ MapperTag.raw rfl (by decide)
      (by decide) (by decide) (by decide) (by decide) (by decide)

/-! ## Mapper span-chain lemmas -/

/-- Chains compose: a chain from `o` followed by a chain from the end of
its text is a chain from `o`. -/
theorem SpanChain_append (l1 : List TextSpan) :
    ∀ (o : Nat) (l2 : List TextSpan), SpanChain o l1 →
      SpanChain (o + (concatSpans l1).length) l2 → SpanChain o (l1 ++ l2) := by
  induction l1 with
  | nil =>
    intro o l2 _ h2
    simpa [concatSpans] using h2
  | cons s rest ih =>
    intro o l2 h1 h2
    obtain ⟨hs, he, hrest⟩ := h1
    refine ⟨hs, he, ?_⟩
    apply ih
    · exact hrest
    · have : s.endPos + (concatSpans rest).length = o + (concatSpans (s :: rest)).length := by
        simp [concatSpans, he, hs]
        omega
      rw [this]
      exact h2

/-- A chain restricted to a prefix is still a chain. -/
theorem SpanChain_prefix (l1 : List TextSpan) :
    ∀ (o : Nat) (l2 : List TextSpan), SpanChain o (l1 ++ l2) → SpanChain o l1 := by
  induction l1 with
  | nil => intro o l2 _; trivial
  | cons s rest ih =>
    intro o l2 h
    obtain ⟨hs, he, hrest⟩ := h
    exact ⟨hs, he, ih _ _ hrest⟩

/-- Every span of a chain satisfies the end-offset equation. -/
theorem SpanChain_forall (l : List TextSpan) :
    ∀ (o : Nat), SpanChain o l → ∀ s ∈ l, s.endPos = s.start + s.text.length := by
  induction l with
  | nil => intro o _ s hs; cases hs
  | cons a rest ih =>
    intro o h s hs
    obtain ⟨hs1, hs2, hrest⟩ := h
    rcases List.mem_cons.mp hs with h | h
    · subst h; exact hs2
    · exact ih _ hrest s h

/-- Appending one span at the running offset preserves the invariant. -/
theorem MInvP_addSpan (cur : Nat) (st : MapState) (t : Str) (r : Option Nat)
    (i d : Option Str) (h : MInvP (cur, st)) :
    MInvP (cur + t.length,
      { spans := st.spans ++
          [{ start := cur, endPos := cur + t.length, text := t,
             run := r, ins_id := i, del_id := d }],
        full_text := st.full_text ++ t }) := by
  obtain ⟨h1, h2, h3⟩ := h
  have h3' : cur = st.full_text.length := h3
  refine ⟨?_, ?_, ?_⟩
  · apply SpanChain_append _ _ _ h1
    have hlen : (concatSpans st.spans).length = cur := by
      rw [h2]; omega
    rw [hlen]
    exact ⟨by simp, rfl, trivial⟩
  · simp only [concatSpans, List.map_append, List.flatten_append]
    simp [concatSpans] at h2
    simp [h2]
  · simp
    omega

/-- `_add_virtual_text` preserves the invariant. -/
theorem MInvP_addVirtual (cur : Nat) (st : MapState) (t : Str) (h : MInvP (cur, st)) :
    MInvP (cur + t.length, _add_virtual_text st t cur) := by
  exact MInvP_addSpan cur st t none none none h

/-- The pending-buffer fold of `flushPending` preserves the invariant. -/
theorem MInvP_pendFold (pend : List PendEntry) :
    ∀ (p : Nat × MapState), MInvP p →
      MInvP (pend.foldl
        (fun (acc : Nat × MapState) pe =>
          if pe.isVirtual then
            (acc.1 + pe.text.length, _add_virtual_text acc.2 pe.text acc.1)
          else
            (acc.1 + pe.text.length,
              { spans := acc.2.spans ++
                  [{ start := acc.1, endPos := acc.1 + pe.text.length, text := pe.text,
                     run := pe.run, ins_id := pe.insId, del_id := pe.delId }],
                full_text := acc.2.full_text ++ pe.text })) p) := by
  induction pend with
  | nil => intro p h; exact h
  | cons pe rest ih =>
    intro p h
    rw [List.foldl_cons]
    apply ih
    by_cases hv : pe.isVirtual
    · simpa [hv] using MInvP_addVirtual p.1 p.2 pe.text h
    · simpa [hv] using MInvP_addSpan p.1 p.2 pe.text pe.run pe.insId pe.delId h

/-- `flushPending` preserves the invariant. -/
theorem MInvP_flushPending (cur : Nat) (st : MapState) (w : Str × Str)
    (pend : List PendEntry) (h : MInvP (cur, st)) :
    MInvP (flushPending cur st w pend) := by
  unfold flushPending
  split
  · exact h
  · dsimp only
    have h0 : MInvP (if w.1.isEmpty then (cur, st)
        else (cur + w.1.length, _add_virtual_text st w.1 cur)) := by
      split
      · exact h
      · exact MInvP_addVirtual cur st w.1 h
    have h1 := MInvP_pendFold pend _ h0
    by_cases hw2 : w.2.isEmpty = true
    · rw [if_pos hw2]
      exact h1
    · rw [if_neg hw2]
      exact MInvP_addVirtual _ _ w.2 h1

/-- One mapper-loop step preserves the invariant: every emission happens at
the running offset. -/
theorem mpcStep_inv (cm : CommentsMap) (cv : Bool) (ctx : PCtx) (item : PItem)
    (rest : List PItem) (h : MInvP (ctx.cur, ctx.st)) :
    MInvP ((mpcStep cm cv ctx item rest).cur, (mpcStep cm cv ctx item rest).st) := by
  cases item with
  | run rd nid =>
    dsimp only [mpcStep]
    repeat' split
    all_goals
      first
      | exact h
      | exact MInvP_flushPending _ _ _ _ h
      | exact MInvP_addVirtual _ _ _ (MInvP_flushPending _ _ _ _ h)
      | exact MInvP_flushPending _ _ _ _ (MInvP_flushPending _ _ _ _ h)
      | exact MInvP_addVirtual _ _ _ (MInvP_flushPending _ _ _ _ (MInvP_flushPending _ _ _ _ h))
  | ev e =>
    dsimp only [mpcStep]
    repeat' split
    all_goals
      first
      | exact h
      | exact MInvP_flushPending _ _ _ _ h

/-- The mapper item loop preserves the invariant. -/
theorem mpcGo_inv (cm : CommentsMap) (cv : Bool) :
    ∀ (items : List PItem) (ctx : PCtx), MInvP (ctx.cur, ctx.st) →
      MInvP ((mpcGo cm cv items ctx).cur, (mpcGo cm cv items ctx).st) := by
  intro items
  induction items with
  | nil => intro ctx h; exact h
  | cons item rest ih =>
    intro ctx h
    rw [mpcGo]
    exact ih _ (mpcStep_inv cm cv ctx item rest h)

/-- `_map_paragraph_content` preserves the invariant. -/
theorem map_paragraph_content_inv (cm : CommentsMap) (cv : Bool) (children : List PChild)
    (startOffset : Nat) (st : MapState) (h : MInvP (startOffset, st)) :
    MInvP (_map_paragraph_content cm cv children startOffset st) := by
  unfold _map_paragraph_content
  dsimp only
  have h1 := mpcGo_inv cm cv (iter_paragraph_content children)
    ⟨startOffset, st, [], none, none, [], ([], []), []⟩ h
  have h2 := MInvP_flushPending _ _
    (mpcGo cm cv (iter_paragraph_content children)
      ⟨startOffset, st, [], none, none, [], ([], []), []⟩).wrappers
    (mpcGo cm cv (iter_paragraph_content children)
      ⟨startOffset, st, [], none, none, [], ([], []), []⟩).pend h1
  repeat' split
  all_goals
    first
    | exact h2
    | exact MInvP_addVirtual _ _ _ h2

mutual
/-- `_map_blocks` preserves the invariant. -/
theorem map_blocks_inv (cm : CommentsMap) (cv : Bool) :
    ∀ (bs : List Block) (cur : Nat) (st : MapState), MInvP (cur, st) →
      MInvP (_map_blocks cm cv bs cur st)
  | [], cur, st, h => by
    rw [_map_blocks]
    exact h
  | b :: bs, cur, st, h => by
    rw [_map_blocks]
    exact map_blocks_inv cm cv bs _ _ (mapBlock_inv cm cv b cur st h)

/-- `mapBlock` preserves the invariant. -/
theorem mapBlock_inv (cm : CommentsMap) (cv : Bool) :
    ∀ (b : Block) (cur : Nat) (st : MapState), MInvP (cur, st) →
      MInvP (mapBlock cm cv b cur st)
  | .p pr, cur, st, h => by
    rw [mapBlock]
    have h0 : MInvP (if pr.mdPrefix.isEmpty then (cur, st)
        else (cur + pr.mdPrefix.length, _add_virtual_text st pr.mdPrefix cur)) := by
      split
      · exact h
      · exact MInvP_addVirtual _ _ _ h
    have h1 := map_paragraph_content_inv cm cv pr.children _ _ h0
    exact MInvP_addVirtual _ _ _ h1
  | .tbl rows, cur, st, h => by
    rw [mapBlock]
    have h1 := mapRows_inv cm cv rows true cur st h
    split
    · exact h1
    · split
      · exact h1
      · exact MInvP_addVirtual _ _ _ h1

/-- `mapRows` preserves the invariant. -/
theorem mapRows_inv (cm : CommentsMap) (cv : Bool) :
    ∀ (rows : List (List (List Block))) (isFirst : Bool) (cur : Nat) (st : MapState),
      MInvP (cur, st) → MInvP (mapRows cm cv rows isFirst cur st)
  | [], _, cur, st, h => by
    rw [mapRows]
    exact h
  | row :: rest, isFirst, cur, st, h => by
    rw [mapRows]
    have h0 : MInvP (if isFirst then (cur, st)
        else (cur + 1, _add_virtual_text st ['\n'] cur)) := by
      split
      · exact h
      · exact MInvP_addVirtual _ _ _ h
    exact mapRows_inv cm cv rest false _ _ (mapCells_inv cm cv row true _ _ h0)

/-- `mapCells` preserves the invariant. -/
theorem mapCells_inv (cm : CommentsMap) (cv : Bool) :
    ∀ (cells : List (List Block)) (isFirst : Bool) (cur : Nat) (st : MapState),
      MInvP (cur, st) → MInvP (mapCells cm cv cells isFirst cur st)
  | [], _, cur, st, h => by
    rw [mapCells]
    exact h
  | cell :: rest, isFirst, cur, st, h => by
    rw [mapCells]
    have h0 : MInvP (if isFirst then (cur, st)
        else (cur + 3, _add_virtual_text st [' ', '|', ' '] cur)) := by
      split
      · exact h
      · exact MInvP_addVirtual _ _ _ h
    exact mapCells_inv cm cv rest false _ _ (map_blocks_inv cm cv cell _ _ h0)
end

/-- The trailing-separator cleanup preserves chain and concatenation: each
pop removes a final two-character span and the final two characters. -/
theorem popTrailingSepsGo_wf :
    ∀ (fuel : Nat) (st : MapState),
      SpanChain 0 st.spans ∧ concatSpans st.spans = st.full_text →
      SpanChain 0 (popTrailingSepsGo fuel st).spans ∧
        concatSpans (popTrailingSepsGo fuel st).spans =
          (popTrailingSepsGo fuel st).full_text := by
  intro fuel
  induction fuel with
  | zero => intro st h; exact h
  | succ fuel ih =>
    intro st h
    rw [popTrailingSepsGo]
    split
    · next s hL =>
      split
      · next hsep =>
        apply ih
        have hne : st.spans ≠ [] := by
          intro he
          rw [he] at hL
          cases hL
        have hlast : st.spans.getLast hne = s := by
          have := List.getLast?_eq_getLast st.spans hne
          rw [hL] at this
          exact (Option.some.injEq _ _).mp this.symm
        have hsplit : st.spans.dropLast ++ [s] = st.spans := by
          rw [← hlast]
          exact List.dropLast_append_getLast hne
        constructor
        · exact SpanChain_prefix _ _ _ (by rw [hsplit]; exact h.1)
        · have hcat : concatSpans st.spans = concatSpans st.spans.dropLast ++ s.text := by
            conv_lhs => rw [← hsplit]
            simp [concatSpans]
          have h2 : st.full_text = concatSpans st.spans.dropLast ++ s.text := by
            rw [← h.2, hcat]
          simp only [h2]
          rw [hsep]
          simp
      · exact h
    · exact h

/-- `popTrailingSeps` preserves chain and concatenation. -/
theorem popTrailingSeps_wf (st : MapState)
    (h : SpanChain 0 st.spans ∧ concatSpans st.spans = st.full_text) :
    SpanChain 0 (popTrailingSeps st).spans ∧
      concatSpans (popTrailingSeps st).spans = (popTrailingSeps st).full_text :=
  popTrailingSepsGo_wf st.spans.length st h

/-- The per-part fold of `_build_map` preserves the invariant. -/
theorem build_fold_inv (cm : CommentsMap) (cv : Bool) (doc : Doc) :
    ∀ (acc : Nat × MapState), MInvP acc →
      MInvP (doc.foldl
        (fun (acc : Nat × MapState) part =>
          let r1 := _map_blocks cm cv part acc.1 acc.2
          match r1.2.spans.getLast? with
          | none => r1
          | some s =>
            if s.text = ['\n', '\n'] then r1
            else (r1.1 + 2, _add_virtual_text r1.2 ['\n', '\n'] r1.1)) acc) := by
  induction doc with
  | nil => intro acc h; exact h
  | cons part rest ih =>
    intro acc h
    rw [List.foldl_cons]
    apply ih
    dsimp only
    have h1 := map_blocks_inv cm cv part acc.1 acc.2 h
    split
    · exact h1
    · split
      · exact h1
      · exact MInvP_addVirtual _ _ _ h1

/-- C1: mapper span-list invariant.  After `DocumentMapper` construction —
and after every rebuild of an unmodified tree, since `_build_map` is a pure
function of the tree — the span list is contiguous in document order from
offset 0 with `end = start + len(text)` (hence non-overlapping), and the
concatenation of the spans' texts is exactly the logical text. -/
theorem mapper_span_invariant (cm : CommentsMap) (cv : Bool) (doc : Doc) :
    SpanChain 0 (_build_map cm cv doc).spans ∧
    (∀ s ∈ (_build_map cm cv doc).spans, s.endPos = s.start + s.text.length) ∧
    concatSpans (_build_map cm cv doc).spans = (_build_map cm cv doc).full_text := by
  have h0 : MInvP ((0 : Nat), (⟨[], []⟩ : MapState)) := by
    refine ⟨trivial, ?_, ?_⟩ <;> simp [concatSpans]
  have h1 := build_fold_inv cm cv doc (0, ⟨[], []⟩) h0
  unfold _build_map
  dsimp only
  exact ⟨(popTrailingSeps_wf _ ⟨h1.1, h1.2.1⟩).1,
    SpanChain_forall _ _ (popTrailingSeps_wf _ ⟨h1.1, h1.2.1⟩).1,
    (popTrailingSeps_wf _ ⟨h1.1, h1.2.1⟩).2⟩


/-! ## Plain-document lemmas for the deletion accept/reject round trip -/

/-- Destructor for a plain child. -/
theorem plainChild_elim (c : PChild) (h : plainChild c = true) :
    ∃ nid s, c = .r nid ⟨none, [.t s]⟩ ∧ s.isEmpty = false ∧
      s.contains '\n' = false ∧ s.contains '\t' = false := by
  cases c with
  | r nid rd =>
    obtain ⟨rpr, content⟩ := rd
    cases rpr with
    | none =>
      match content with
      | [] => simp [plainChild] at h
      | [Atom.t s] =>
        simp only [plainChild, Bool.and_eq_true, Bool.not_eq_true'] at h
        exact ⟨nid, s, rfl, h.1.1, h.1.2, h.2⟩
      | [Atom.delText s] => simp [plainChild] at h
      | [Atom.tab] => simp [plainChild] at h
      | [Atom.br] => simp [plainChild] at h
      | [Atom.cr] => simp [plainChild] at h
      | [Atom.commentReference cid] => simp [plainChild] at h
      | a :: b :: rest => simp [plainChild] at h
    | some r => simp [plainChild] at h
  | ins nid w a kids => simp [plainChild] at h
  | del nid w a kids => simp [plainChild] at h
  | crStart nid cid => simp [plainChild] at h
  | crEnd nid cid => simp [plainChild] at h

/-- Dropping a trailing separator span commutes with `popSpans`. -/
theorem popSpans_snoc_sep (l : List TextSpan) (s : TextSpan)
    (h : s.text = ['\n', '\n']) : popSpans (l ++ [s]) = popSpans l := by
  simp [popSpans, List.dropWhile_cons, h]

/-- A trailing non-separator span stops `popSpans`. -/
theorem popSpans_snoc_nosep (l : List TextSpan) (s : TextSpan)
    (h : ¬ s.text = ['\n', '\n']) : popSpans (l ++ [s]) = l ++ [s] := by
  simp [popSpans, List.dropWhile_cons, h]

/-- The cleanup loop on a consistent state: the result is exactly the
popped span list with its concatenation as text. -/
theorem popGo_spec : ∀ (fuel : Nat) (st : MapState),
    st.spans.length ≤ fuel → concatSpans st.spans = st.full_text →
    popTrailingSepsGo fuel st = ⟨popSpans st.spans, concatSpans (popSpans st.spans)⟩ := by
  intro fuel
  induction fuel with
  | zero =>
    intro st hle hcat
    have hnil : st.spans = [] := List.length_eq_zero.mp (Nat.le_zero.mp hle)
    obtain ⟨spans, ft⟩ := st
    simp only at hnil
    subst hnil
    simp only [concatSpans, List.map_nil, List.flatten_nil] at hcat
    rw [popTrailingSepsGo]
    simp [popSpans, concatSpans, ← hcat]
  | succ fuel ih =>
    intro st hle hcat
    rw [popTrailingSepsGo]
    split
    · next s hL =>
      have hne : st.spans ≠ [] := by
        intro he; rw [he] at hL; cases hL
      have hlast : st.spans.getLast hne = s := by
        have := List.getLast?_eq_getLast st.spans hne
        rw [hL] at this
        exact (Option.some.injEq _ _).mp this.symm
      have hsplit : st.spans.dropLast ++ [s] = st.spans := by
        rw [← hlast]; exact List.dropLast_append_getLast hne
      split
      · next hsep =>
        have hlen2 : s.text.length = 2 := by rw [hsep]; rfl
        have hcat' : st.full_text = concatSpans st.spans.dropLast ++ s.text := by
          rw [← hcat]
          conv_lhs => rw [← hsplit]
          simp [concatSpans]
        have htake : st.full_text.take (st.full_text.length - 2) =
            concatSpans st.spans.dropLast := by
          rw [hcat']
          have : (concatSpans st.spans.dropLast ++ s.text).length - 2 =
              (concatSpans st.spans.dropLast).length := by
            simp [List.length_append, hlen2]
          rw [this, List.take_left]
        rw [ih]
        · have hpop : popSpans st.spans.dropLast = popSpans st.spans := by
            conv_rhs => rw [← hsplit]
            rw [popSpans_snoc_sep _ _ hsep]
          simp only [hpop]
        · have hd : st.spans.dropLast.length + 1 = st.spans.length := by
            conv_rhs => rw [← hsplit]
            simp
          show st.spans.dropLast.length ≤ fuel
          omega
        · exact htake.symm
      · next hsep =>
        have hpop : popSpans st.spans = st.spans := by
          conv_lhs => rw [← hsplit]
          rw [popSpans_snoc_nosep _ _ hsep]
          exact hsplit
        obtain ⟨spans, ft⟩ := st
        simp only at hpop hcat ⊢
        rw [hpop, hcat]
    · next hL =>
      have hnil : st.spans = [] := by
        cases hspans : st.spans with
        | nil => rfl
        | cons a rest =>
          rw [hspans] at hL
          exact absurd hL (by simp)
      obtain ⟨spans, ft⟩ := st
      simp only at hnil
      subst hnil
      simp only [concatSpans, List.map_nil, List.flatten_nil] at hcat
      simp [popSpans, concatSpans, ← hcat]

/-- `popTrailingSeps` on a consistent state. -/
theorem pop_spec (st : MapState) (hcat : concatSpans st.spans = st.full_text) :
    popTrailingSeps st = ⟨popSpans st.spans, concatSpans (popSpans st.spans)⟩ :=
  popGo_spec st.spans.length st (Nat.le_refl _) hcat

/-- An even run of trailing newlines strips away (reversed form). -/
theorem stripSepsRev_replicate (k : Nat) (x : Str) :
    stripSepsRev (List.replicate (2 * k) '\n' ++ x) = stripSepsRev x := by
  induction k with
  | zero => simp
  | succ k ih =>
    have h2 : 2 * (k + 1) = ((2 * k) + 1) + 1 := by omega
    rw [h2, List.replicate_succ, List.replicate_succ]
    simp only [List.cons_append]
    rw [show stripSepsRev ('\n' :: '\n' :: (List.replicate (2 * k) '\n' ++ x)) =
        stripSepsRev (List.replicate (2 * k) '\n' ++ x) from rfl]
    exact ih


/-- Appending an even run of newlines does not change the stripped text. -/
theorem strip_append_pairs (x : Str) (k : Nat) :
    stripTrailingSepPairs (x ++ List.replicate (2 * k) '\n') = stripTrailingSepPairs x := by
  simp only [stripTrailingSepPairs, List.reverse_append, List.reverse_replicate]
  rw [stripSepsRev_replicate]

/-- Reversed-form decomposition: a string is an even newline run followed
by its stripped form. -/
theorem stripSepsRev_decomp (y : Str) :
    ∃ k, y = List.replicate (2 * k) '\n' ++ stripSepsRev y := by
  induction y using stripSepsRev.induct with
  | case1 rest ih =>
    obtain ⟨k, hk⟩ := ih
    refine ⟨k + 1, ?_⟩
    rw [show stripSepsRev ('\n' :: '\n' :: rest) = stripSepsRev rest from rfl]
    rw [show 2 * (k + 1) = ((2 * k) + 1) + 1 from by omega,
      List.replicate_succ, List.replicate_succ]
    simp only [List.cons_append]
    rw [← hk]
  | case2 s h =>
    refine ⟨0, ?_⟩
    rw [stripSepsRev.eq_def]
    split
    · next rest => exact absurd rfl (h rest)
    · simp

/-- Every string is its stripped form followed by an even newline run. -/
theorem strip_decomp (x : Str) :
    ∃ k, x = stripTrailingSepPairs x ++ List.replicate (2 * k) '\n' := by
  obtain ⟨k, hk⟩ := stripSepsRev_decomp x.reverse
  refine ⟨k, ?_⟩
  conv_lhs => rw [← x.reverse_reverse, hk]
  simp [stripTrailingSepPairs, List.reverse_append, List.reverse_replicate]

/-- Stripping is the identity on a string not ending in a newline. -/
theorem strip_no_nl_end (x : Str) (c : Char) (hc : c ≠ '\n')
    (h : x.getLast? = some c) : stripTrailingSepPairs x = x := by
  have hhead : x.reverse.head? = some c := by
    rw [List.head?_reverse]; exact h
  obtain ⟨t, ht⟩ : ∃ t, x.reverse = c :: t := by
    cases hx : x.reverse with
    | nil => rw [hx] at hhead; cases hhead
    | cons a t =>
      rw [hx] at hhead
      simp only [List.head?_cons, Option.some.injEq] at hhead
      exact ⟨t, by rw [hhead]⟩
  have : stripSepsRev (c :: t) = c :: t := by
    rw [stripSepsRev.eq_def]
    split
    · next rest heq =>
      injection heq with h1 h2
      exact absurd h1 hc
    · rfl
  rw [stripTrailingSepPairs, ht, this, ← ht, x.reverse_reverse]

/-- The empty string strips to itself. -/
theorem strip_nil : stripTrailingSepPairs [] = [] := rfl

/-- Concatenation of the plain paragraph spans is the paragraph text. -/
theorem concat_plainParaSpans (children : List PChild) :
    ∀ o, concatSpans (plainParaSpans children o) = (children.map childText).flatten := by
  induction children with
  | nil => intro o; rfl
  | cons c rest ih =>
    intro o
    cases c with
    | r nid rd =>
      show get_run_text rd ++ concatSpans (plainParaSpans rest (o + (get_run_text rd).length)) =
        get_run_text rd ++ (rest.map childText).flatten
      rw [ih]
    | ins n w a kids =>
      show concatSpans (plainParaSpans rest o) = [] ++ (rest.map childText).flatten
      rw [ih, List.nil_append]
    | del n w a kids =>
      show concatSpans (plainParaSpans rest o) = [] ++ (rest.map childText).flatten
      rw [ih, List.nil_append]
    | crStart n cid =>
      show concatSpans (plainParaSpans rest o) = [] ++ (rest.map childText).flatten
      rw [ih, List.nil_append]
    | crEnd n cid =>
      show concatSpans (plainParaSpans rest o) = [] ++ (rest.map childText).flatten
      rw [ih, List.nil_append]

/-- Concatenation of the plain document spans is the document text. -/
theorem concat_plainDocSpans (paras : List Para) :
    ∀ o, concatSpans (plainDocSpans paras o) = plainDocText paras := by
  induction paras with
  | nil => intro o; rfl
  | cons p rest ih =>
    intro o
    simp only [plainDocSpans, plainDocText, concatSpans, List.map_append, List.map_cons,
      List.flatten_append, List.flatten_cons]
    rw [show (List.map (fun s => s.text) (plainParaSpans p.children o)).flatten =
        concatSpans (plainParaSpans p.children o) from rfl,
      concat_plainParaSpans]
    have := ih (o + (paraText p).length + 2)
    rw [show (List.map (fun s => s.text)
        (plainDocSpans rest (o + (paraText p).length + 2))).flatten =
        concatSpans (plainDocSpans rest (o + (paraText p).length + 2)) from rfl, this]
    simp [plainDocText, paraText]

/-- Plain paragraph spans chain from their offset. -/
theorem chain_plainParaSpans (children : List PChild) :
    ∀ o, SpanChain o (plainParaSpans children o) := by
  induction children with
  | nil => intro o; trivial
  | cons c rest ih =>
    intro o
    cases c with
    | r nid rd => exact ⟨rfl, rfl, ih _⟩
    | ins n w a kids => exact ih o
    | del n w a kids => exact ih o
    | crStart n cid => exact ih o
    | crEnd n cid => exact ih o

/-- Plain document spans chain from their offset. -/
theorem chain_plainDocSpans (paras : List Para) :
    ∀ o, SpanChain o (plainDocSpans paras o) := by
  induction paras with
  | nil => intro o; trivial
  | cons p rest ih =>
    intro o
    rw [plainDocSpans]
    apply SpanChain_append
    · exact chain_plainParaSpans _ _
    · rw [concat_plainParaSpans]
      show _ ∧ _ ∧ _
      refine ⟨?_, ?_, ?_⟩
      · show o + (paraText p).length =
          o + ((p.children.map childText).flatten).length
        rw [paraText]
      · rfl
      · show SpanChain (o + (paraText p).length + 2) (plainDocSpans rest _)
        exact ih _

/-- Every span of a chain starts at or after the chain offset. -/
theorem chain_ge (l : List TextSpan) :
    ∀ o, SpanChain o l → ∀ t ∈ l, o ≤ t.start := by
  induction l with
  | nil => intro o _ t ht; cases ht
  | cons s rest ih =>
    intro o h t ht
    obtain ⟨hs, he, hrest⟩ := h
    rcases List.mem_cons.mp ht with h1 | h1
    · subst h1; omega
    · have := ih s.endPos hrest t h1
      omega

/-- Order bounds around a chain member. -/
theorem chain_decomp_bounds (A : List TextSpan) (s : TextSpan) (B : List TextSpan) :
    ∀ o, SpanChain o (A ++ s :: B) →
      (∀ t ∈ A, t.endPos ≤ s.start) ∧ (∀ t ∈ B, s.endPos ≤ t.start) := by
  induction A with
  | nil =>
    intro o h
    obtain ⟨hs, he, hrest⟩ := h
    refine ⟨?_, ?_⟩
    · intro t ht; cases ht
    · intro t ht
      exact chain_ge _ _ hrest t ht
  | cons hd tl ih =>
    intro o h
    obtain ⟨hs, he, hrest⟩ := h
    obtain ⟨h1, h2⟩ := ih hd.endPos hrest
    refine ⟨?_, h2⟩
    intro t ht
    rcases List.mem_cons.mp ht with h3 | h3
    · rw [h3]
      exact chain_ge _ _ hrest s (by simp)
    · exact h1 t h3

/-- Every chain member ends within the chain's concatenated text. -/
theorem chain_mem_endPos_le (l : List TextSpan) :
    ∀ o, SpanChain o l → ∀ t ∈ l, t.endPos ≤ o + (concatSpans l).length := by
  induction l with
  | nil => intro o _ t ht; cases ht
  | cons s rest ih =>
    intro o h t ht
    obtain ⟨hs, he, hrest⟩ := h
    have hlen : (concatSpans (s :: rest)).length =
        s.text.length + (concatSpans rest).length := by
      simp [concatSpans]
    rcases List.mem_cons.mp ht with h1 | h1
    · subst h1
      omega
    · have := ih s.endPos hrest t h1
      omega


/-- `dropWhile` over an append. -/
theorem dropWhile_append_eq {α : Type} (p : α → Bool) (xs ys : List α) :
    (xs ++ ys).dropWhile p =
      if (xs.dropWhile p).isEmpty then ys.dropWhile p else xs.dropWhile p ++ ys := by
  induction xs with
  | nil => simp
  | cons x xs ih =>
    by_cases hx : p x = true
    · simpa [List.dropWhile_cons, hx] using ih
    · simp [List.dropWhile_cons, hx]

/-- `popSpans` yields a prefix. -/
theorem popSpans_prefix_of (l : List TextSpan) : ∃ t, l = popSpans l ++ t := by
  obtain ⟨u, hu⟩ :=
    List.dropWhile_suffix (l := l.reverse) (fun s => decide (s.text = ['\n', '\n']))
  refine ⟨u.reverse, ?_⟩
  have := congrArg List.reverse hu
  simp only [List.reverse_append] at this
  rw [popSpans]
  rw [this]
  simp

/-- `popSpans` keeps the chain. -/
theorem chain_popSpans (l : List TextSpan) (o : Nat) (h : SpanChain o l) :
    SpanChain o (popSpans l) := by
  obtain ⟨t, ht⟩ := popSpans_prefix_of l
  exact SpanChain_prefix _ _ _ (ht ▸ h)

/-- Decomposition of `popSpans` around a non-separator member. -/
theorem popSpans_decomp (A : List TextSpan) (s : TextSpan) (B : List TextSpan)
    (h : ¬ s.text = ['\n', '\n']) :
    ∃ B', (∀ t ∈ B', t ∈ B) ∧ popSpans (A ++ s :: B) = A ++ s :: B' := by
  have hrev : (A ++ s :: B).reverse = B.reverse ++ s :: A.reverse := by simp
  have hs : (fun t => decide (t.text = ['\n', '\n'])) s = false := by
    simp [h]
  by_cases hB : (B.reverse.dropWhile (fun t => decide (t.text = ['\n', '\n']))).isEmpty
  · refine ⟨[], ?_, ?_⟩
    · intro t ht; cases ht
    · rw [popSpans, hrev, dropWhile_append_eq, if_pos hB, List.dropWhile_cons]
      simp [h]
  · refine ⟨(B.reverse.dropWhile (fun t => decide (t.text = ['\n', '\n']))).reverse, ?_, ?_⟩
    · intro t ht
      have ht' : t ∈ B.reverse.dropWhile (fun t => decide (t.text = ['\n', '\n'])) := by
        simpa using ht
      have hsub := List.dropWhile_suffix (l := B.reverse)
        (fun t => decide (t.text = ['\n', '\n']))
      have : t ∈ B.reverse := hsub.subset ht'
      simpa using this
    · rw [popSpans, hrev, dropWhile_append_eq, if_neg hB]
      simp

/-- In a chain, the spans overlapping a member's own range are exactly it. -/
theorem chain_filter_overlap (A : List TextSpan) (s : TextSpan) (B : List TextSpan)
    (o : Nat) (h : SpanChain o (A ++ s :: B)) (hlen : 0 < s.text.length) :
    (A ++ s :: B).filter
      (fun t => decide (s.start < t.endPos) && decide (t.start < s.endPos)) = [s] := by
  obtain ⟨hA, hB⟩ := chain_decomp_bounds A s B o h
  have he : s.endPos = s.start + s.text.length :=
    SpanChain_forall _ o h s (by simp)
  rw [List.filter_append]
  have h1 : A.filter
      (fun t => decide (s.start < t.endPos) && decide (t.start < s.endPos)) = [] := by
    rw [List.filter_eq_nil_iff]
    intro t ht
    have := hA t ht
    simp only [Bool.and_eq_true, decide_eq_true_eq, not_and]
    intro hlt
    omega
  have h2 : B.filter
      (fun t => decide (s.start < t.endPos) && decide (t.start < s.endPos)) = [] := by
    rw [List.filter_eq_nil_iff]
    intro t ht
    have := hB t ht
    simp only [Bool.and_eq_true, decide_eq_true_eq, not_and]
    intro hlt
    omega
  rw [h1, List.nil_append, List.filter_cons, h2]
  have hlt : s.start < s.endPos := by rw [he]; omega
  have hcond : (decide (s.start < s.endPos) && decide (s.start < s.endPos)) = true := by
    simp [hlt]
  rw [if_pos hcond]

/-- The real-span variant used by `get_context_at_range`. -/
theorem chain_filter_overlap_run (A : List TextSpan) (s : TextSpan) (B : List TextSpan)
    (o : Nat) (h : SpanChain o (A ++ s :: B)) (hlen : 0 < s.text.length)
    (hrun : s.run.isSome = true) :
    (A ++ s :: B).filter
      (fun t => t.run.isSome && decide (s.start < t.endPos) &&
        decide (t.start < s.endPos)) = [s] := by
  obtain ⟨hA, hB⟩ := chain_decomp_bounds A s B o h
  have he : s.endPos = s.start + s.text.length :=
    SpanChain_forall _ o h s (by simp)
  rw [List.filter_append]
  have h1 : A.filter
      (fun t => t.run.isSome && decide (s.start < t.endPos) &&
        decide (t.start < s.endPos)) = [] := by
    rw [List.filter_eq_nil_iff]
    intro t ht
    have := hA t ht
    simp only [Bool.and_eq_true, decide_eq_true_eq, not_and]
    intro _ hlt
    omega
  have h2 : B.filter
      (fun t => t.run.isSome && decide (s.start < t.endPos) &&
        decide (t.start < s.endPos)) = [] := by
    rw [List.filter_eq_nil_iff]
    intro t ht
    have := hB t ht
    simp only [Bool.and_eq_true, decide_eq_true_eq, not_and]
    intro _ hlt
    omega
  rw [h1, List.nil_append, List.filter_cons, h2]
  have hlt : s.start < s.endPos := by rw [he]; omega
  have hcond : (s.run.isSome && decide (s.start < s.endPos) &&
      decide (s.start < s.endPos)) = true := by
    simp [hlt, hrun]
  rw [if_pos hcond]


/-- The run text of a plain run. -/
theorem get_run_text_plain (s : Str) :
    get_run_text ⟨none, [.t s]⟩ = s := by
  simp [get_run_text]

/-- A deferred snapshot with no active events or comments produces no
metadata block. -/
theorem meta_block_trivial (cm : CommentsMap) :
    _build_merged_meta_block cm [(none, none, [])] = [] := by
  simp [_build_merged_meta_block, addChgLine, sortedStrs, List.intercalate]

/-- One loop step of `_map_paragraph_content` on a plain run from a clean
context: the run is buffered and immediately flushed into a single span. -/
theorem mpcStep_plain (cm : CommentsMap) (cur : Nat) (st : MapState) (nid : Nat)
    (s : Str) (hne : s.isEmpty = false) (hnl : s.contains '\n' = false)
    (rest : List PItem) :
    mpcStep cm false ⟨cur, st, [], none, none, [], ([], []), []⟩
      (.run ⟨none, [.t s]⟩ nid) rest =
    ⟨cur + s.length,
      ⟨st.spans ++ [⟨cur, cur + s.length, s, some nid, none, none⟩],
        st.full_text ++ s⟩,
      [], none, none, [], ([], []), []⟩ := by
  simp [mpcStep, runPartsOf, get_run_style_markers, get_run_text, hne, hnl,
    flushPending, _get_wrappers, meta_block_trivial, _add_virtual_text]


/-- The item loop over a plain child list from a clean context. -/
theorem mpcGo_plain (cm : CommentsMap) :
    ∀ (children : List PChild), children.all plainChild = true →
    ∀ (cur : Nat) (st : MapState),
      mpcGo cm false (iter_paragraph_content children)
        ⟨cur, st, [], none, none, [], ([], []), []⟩ =
      ⟨cur + ((children.map childText).flatten).length,
        ⟨st.spans ++ plainParaSpans children cur,
          st.full_text ++ (children.map childText).flatten⟩,
        [], none, none, [], ([], []), []⟩ := by
  intro children
  induction children with
  | nil =>
    intro h cur st
    simp [iter_paragraph_content, mpcGo, plainParaSpans]
  | cons c rest ih =>
    intro h cur st
    obtain ⟨hc, hrest⟩ : plainChild c = true ∧ rest.all plainChild = true := by
      simpa [List.all_cons, Bool.and_eq_true] using h
    obtain ⟨nid, s, hceq, hne, hnl, hnt⟩ := plainChild_elim c hc
    subst hceq
    have hiter : iter_paragraph_content (PChild.r nid ⟨none, [.t s]⟩ :: rest) =
        PItem.run ⟨none, [.t s]⟩ nid :: iter_paragraph_content rest := by
      simp [iter_paragraph_content, processRun]
    rw [hiter, mpcGo, mpcStep_plain cm cur st nid s hne hnl, ih hrest]
    have hrt : get_run_text ⟨none, [Atom.t s]⟩ = s := get_run_text_plain s
    simp only [plainParaSpans, childText, List.map_cons, List.flatten_cons, hrt]
    simp [List.length_append, List.append_assoc, Nat.add_assoc]

/-- `_map_paragraph_content` on a plain child list. -/
theorem mpc_plain (cm : CommentsMap) (children : List PChild)
    (h : children.all plainChild = true) (o : Nat) (st : MapState) :
    _map_paragraph_content cm false children o st =
      (o + ((children.map childText).flatten).length,
        ⟨st.spans ++ plainParaSpans children o,
          st.full_text ++ (children.map childText).flatten⟩) := by
  rw [_map_paragraph_content, mpcGo_plain cm children h o st]
  simp [flushPending]

/-- One plain paragraph block: its spans, a separator span and the text. -/
theorem mapBlock_plain (cm : CommentsMap) (p : Para) (hp : plainPara p = true)
    (o : Nat) (st : MapState) :
    mapBlock cm false (.p p) o st =
      (o + (paraText p).length + 2,
        ⟨st.spans ++ (plainParaSpans p.children o ++
            [⟨o + (paraText p).length, o + (paraText p).length + 2, ['\n', '\n'],
              none, none, none⟩]),
          st.full_text ++ (paraText p ++ ['\n', '\n'])⟩) := by
  obtain ⟨h1, h2⟩ : p.mdPrefix.isEmpty = true ∧ p.children.all plainChild = true := by
    simpa [plainPara, Bool.and_eq_true] using hp
  rw [mapBlock]
  rw [if_pos h1]
  rw [mpc_plain cm p.children h2 o st]
  simp only [_add_virtual_text]
  rw [show ((p.children.map childText).flatten) = paraText p from rfl]
  simp [List.append_assoc]

/-- `_map_blocks` over a plain body. -/
theorem blocks_plain (cm : CommentsMap) :
    ∀ (paras : List Para), plainDoc paras = true → ∀ (o : Nat) (st : MapState),
    _map_blocks cm false (paras.map Block.p) o st =
      (o + (plainDocText paras).length,
        ⟨st.spans ++ plainDocSpans paras o,
          st.full_text ++ plainDocText paras⟩) := by
  intro paras
  induction paras with
  | nil =>
    intro h o st
    simp [_map_blocks, plainDocSpans, plainDocText]
  | cons p rest ih =>
    intro h o st
    obtain ⟨hp, hrest⟩ : plainPara p = true ∧ rest.all plainPara = true := by
      simpa [plainDoc, List.all_cons, Bool.and_eq_true] using h
    simp only [List.map_cons]
    rw [_map_blocks, mapBlock_plain cm p hp o st, ih hrest]
    rw [Prod.ext_iff]
    refine ⟨?_, ?_⟩
    · simp [plainDocText, List.length_append]
      omega
    · simp [plainDocText, plainDocSpans, MapState.mk.injEq, List.append_assoc]

/-- The span list of a non-empty plain body is non-empty. -/
theorem plainDocSpans_ne_nil (paras : List Para) (h : paras ≠ []) (o : Nat) :
    plainDocSpans paras o ≠ [] := by
  cases paras with
  | nil => exact absurd rfl h
  | cons p rest => simp [plainDocSpans]

/-- A non-empty plain body's span list ends with a separator span. -/
theorem plainDocSpans_getLast_sep :
    ∀ (paras : List Para), paras ≠ [] → ∀ (o : Nat),
    ∃ sp, (plainDocSpans paras o).getLast? = some sp ∧ sp.text = ['\n', '\n'] := by
  intro paras
  induction paras with
  | nil => intro h; exact absurd rfl h
  | cons p rest ih =>
    intro _ o
    by_cases hrest : rest = []
    · subst hrest
      refine ⟨⟨o + (paraText p).length, o + (paraText p).length + 2, ['\n', '\n'],
          none, none, none⟩, ?_, rfl⟩
      have hshape : plainDocSpans [p] o = plainParaSpans p.children o ++
          [⟨o + (paraText p).length, o + (paraText p).length + 2, ['\n', '\n'],
            none, none, none⟩] := by
        simp [plainDocSpans]
      rw [hshape, List.getLast?_concat]
    · obtain ⟨sp, hsp, hst⟩ := ih hrest (o + (paraText p).length + 2)
      refine ⟨sp, ?_, hst⟩
      rw [plainDocSpans, List.getLast?_append_cons,
        show (⟨o + (paraText p).length, o + (paraText p).length + 2, ['\n', '\n'],
            none, none, none⟩ : TextSpan) ::
          plainDocSpans rest (o + (paraText p).length + 2) =
          [⟨o + (paraText p).length, o + (paraText p).length + 2, ['\n', '\n'],
            none, none, none⟩] ++
          plainDocSpans rest (o + (paraText p).length + 2) from rfl,
        List.getLast?_append_of_ne_nil _ (plainDocSpans_ne_nil rest hrest _)]
      exact hsp

/-- `_build_map` on a plain body: the popped plain spans and their text. -/
theorem build_plain (cm : CommentsMap) (paras : List Para)
    (h : plainDoc paras = true) :
    _build_map cm false (engDocOf paras) =
      ⟨popSpans (plainDocSpans paras 0),
        concatSpans (popSpans (plainDocSpans paras 0))⟩ := by
  rw [_build_map]
  simp only [engDocOf, List.foldl_cons, List.foldl_nil]
  rw [blocks_plain cm paras h 0 ⟨[], []⟩]
  simp only [List.nil_append]
  cases hps : paras with
  | nil =>
    simp only [hps, plainDocSpans, plainDocText, List.map_nil, List.flatten_nil]
    rw [show (List.getLast? ([] : List TextSpan)) = none from rfl]
    exact pop_spec _ rfl
  | cons p rest =>
    obtain ⟨sp, hsp, hst⟩ := plainDocSpans_getLast_sep paras (by rw [hps]; simp) 0
    rw [← hps, hsp]
    split
    · exact pop_spec _ (concat_plainDocSpans paras 0)
    · next s heq hcond =>
      injection hcond with hse
      rw [← hse, if_pos hst]
      exact pop_spec _ (concat_plainDocSpans paras 0)

/-- The `python-docx` text of a plain run. -/
theorem pydocx_plain (s : Str) : pydocxRunText ⟨none, [.t s]⟩ = s := by
  simp [pydocxRunText]

/-- Plain children carry no tracked-change ids. -/
theorem kidsChangeIds_plain (l : List PChild) :
    l.all plainChild = true → kidsChangeIds l = [] := by
  induction l with
  | nil => intro _; rfl
  | cons c rest ih =>
    intro h
    obtain ⟨hc, hrest⟩ : plainChild c = true ∧ rest.all plainChild = true := by
      simpa [List.all_cons, Bool.and_eq_true] using h
    obtain ⟨nid, s, hceq, -, -, -⟩ := plainChild_elim c hc
    subst hceq
    simp only [kidsChangeIds, childChangeIds, ih hrest]
    rfl

/-- A plain body scans to no existing tracked-change ids. -/
theorem scan_plain (paras : List Para) (h : plainDoc paras = true) :
    _scan_existing_ids (scanChangeIds paras) = 0 := by
  have hnil : scanChangeIds paras = [] := by
    rw [scanChangeIds]
    induction paras with
    | nil => rfl
    | cons p rest ih =>
      obtain ⟨hp, hrest⟩ : plainPara p = true ∧ rest.all plainPara = true := by
        simpa [plainDoc, List.all_cons, Bool.and_eq_true] using h
      obtain ⟨-, hkids⟩ : p.mdPrefix.isEmpty = true ∧ p.children.all plainChild = true := by
        simpa [plainPara, Bool.and_eq_true] using hp
      simp only [List.map_cons, List.flatten_cons, kidsChangeIds_plain _ hkids,
        List.nil_append]
      exact ih hrest
  rw [hnil]
  rfl

/-- The node ids of a plain cons cell. -/
theorem kidsNids_plain_cons (n : Nat) (s : Str) (rest : List PChild) :
    kidsNids (PChild.r n ⟨none, [.t s]⟩ :: rest) = n :: kidsNids rest := by
  simp [kidsNids, childNids]

/-- `findRunInKids` misses a plain list without the node id. -/
theorem findRunInKids_plain_fresh (nid : Nat) (l : List PChild)
    (h : l.all plainChild = true) (hf : nid ∉ kidsNids l) :
    findRunInKids nid l = none := by
  induction l with
  | nil => simp [findRunInKids]
  | cons c rest ih =>
    obtain ⟨hc, hrest⟩ : plainChild c = true ∧ rest.all plainChild = true := by
      simpa [List.all_cons, Bool.and_eq_true] using h
    obtain ⟨n, s, hceq, -, -, -⟩ := plainChild_elim c hc
    subst hceq
    rw [kidsNids_plain_cons] at hf
    simp only [findRunInKids, findRunInChild]
    rw [if_neg (by intro he; exact hf (by rw [he]; simp))]
    exact ih hrest (by intro hm; exact hf (by simp [hm]))

/-- `findRunInKids` finds the designated run after a fresh plain prelude. -/
theorem findRunInKids_plain_hit (nid : Nat) (C1 : List PChild)
    (h : C1.all plainChild = true) (hf : nid ∉ kidsNids C1)
    (rd : RunData) (C2 : List PChild) :
    findRunInKids nid (C1 ++ .r nid rd :: C2) = some rd := by
  induction C1 with
  | nil =>
    simp [findRunInKids, findRunInChild]
  | cons c rest ih =>
    obtain ⟨hc, hrest⟩ : plainChild c = true ∧ rest.all plainChild = true := by
      simpa [List.all_cons, Bool.and_eq_true] using h
    obtain ⟨n, s, hceq, -, -, -⟩ := plainChild_elim c hc
    subst hceq
    rw [kidsNids_plain_cons] at hf
    rw [List.cons_append]
    simp only [findRunInKids, findRunInChild]
    rw [if_neg (by intro he; exact hf (by rw [he]; simp))]
    exact ih hrest (by intro hm; exact hf (by simp [hm]))

/-- `replaceRunByDel` leaves a fresh plain list unchanged. -/
theorem replaceRun_plain_fresh (nid delNid : Nat) (wid author : Str) (newRun : PChild)
    (l : List PChild) (h : l.all plainChild = true) (hf : nid ∉ kidsNids l) :
    replaceRunByDel nid delNid wid author newRun l = l := by
  induction l with
  | nil => simp [replaceRunByDel]
  | cons c rest ih =>
    obtain ⟨hc, hrest⟩ : plainChild c = true ∧ rest.all plainChild = true := by
      simpa [List.all_cons, Bool.and_eq_true] using h
    obtain ⟨n, s, hceq, -, -, -⟩ := plainChild_elim c hc
    subst hceq
    rw [kidsNids_plain_cons] at hf
    simp only [replaceRunByDel]
    rw [if_neg (by intro he; exact hf (by rw [he]; simp))]
    rw [ih hrest (by intro hm; exact hf (by simp [hm]))]

/-- `replaceRunByDel` replaces the designated run and stops. -/
theorem replaceRun_plain_hit (nid delNid : Nat) (wid author : Str) (newRun : PChild)
    (C1 : List PChild) (h : C1.all plainChild = true) (hf : nid ∉ kidsNids C1)
    (rd : RunData) (C2 : List PChild) :
    replaceRunByDel nid delNid wid author newRun (C1 ++ .r nid rd :: C2) =
      C1 ++ .del delNid wid (some author) [newRun] :: C2 := by
  induction C1 with
  | nil =>
    simp only [List.nil_append, replaceRunByDel, if_pos]
  | cons c rest ih =>
    obtain ⟨hc, hrest⟩ : plainChild c = true ∧ rest.all plainChild = true := by
      simpa [List.all_cons, Bool.and_eq_true] using h
    obtain ⟨n, s, hceq, -, -, -⟩ := plainChild_elim c hc
    subst hceq
    rw [kidsNids_plain_cons] at hf
    rw [List.cons_append]
    simp only [replaceRunByDel]
    rw [if_neg (by intro he; exact hf (by rw [he]; simp))]
    rw [ih hrest (by intro hm; exact hf (by simp [hm]))]
    rfl

/-- Accept leaves a plain list unchanged. -/
theorem acceptKids_plain (wid : Str) (l : List PChild)
    (h : l.all plainChild = true) : acceptKids wid l = l := by
  induction l with
  | nil => simp [acceptKids]
  | cons c rest ih =>
    obtain ⟨hc, hrest⟩ : plainChild c = true ∧ rest.all plainChild = true := by
      simpa [List.all_cons, Bool.and_eq_true] using h
    obtain ⟨n, s, hceq, -, -, -⟩ := plainChild_elim c hc
    subst hceq
    simp only [acceptKids, acceptChild, List.singleton_append]
    rw [ih hrest]

/-- Accept removes exactly the one `w:del` in an otherwise plain list. -/
theorem acceptKids_hit (wid : Str) (delNid : Nat) (author : Option Str)
    (kids : List PChild) (C1 : List PChild) (h1 : C1.all plainChild = true)
    (C2 : List PChild) (h2 : C2.all plainChild = true) :
    acceptKids wid (C1 ++ .del delNid wid author kids :: C2) = C1 ++ C2 := by
  induction C1 with
  | nil =>
    simp only [List.nil_append, acceptKids, acceptChild, if_pos]
    exact acceptKids_plain wid C2 h2
  | cons c rest ih =>
    obtain ⟨hc, hrest⟩ : plainChild c = true ∧ rest.all plainChild = true := by
      simpa [List.all_cons, Bool.and_eq_true] using h1
    obtain ⟨n, s, hceq, -, -, -⟩ := plainChild_elim c hc
    subst hceq
    rw [List.cons_append]
    simp only [acceptKids, acceptChild, List.singleton_append]
    rw [ih hrest]
    rfl

/-- Reject leaves a plain list unchanged. -/
theorem rejectKids_plain (wid : Str) (l : List PChild)
    (h : l.all plainChild = true) : rejectKids wid l = l := by
  induction l with
  | nil => simp [rejectKids]
  | cons c rest ih =>
    obtain ⟨hc, hrest⟩ : plainChild c = true ∧ rest.all plainChild = true := by
      simpa [List.all_cons, Bool.and_eq_true] using h
    obtain ⟨n, s, hceq, -, -, -⟩ := plainChild_elim c hc
    subst hceq
    simp only [rejectKids, rejectChild, List.singleton_append]
    rw [ih hrest]

/-- Reject unwraps the one `w:del`, retagging its run's `w:delText`. -/
theorem rejectKids_hit (wid : Str) (delNid N : Nat) (author : Option Str)
    (s : Str) (C1 : List PChild) (h1 : C1.all plainChild = true)
    (C2 : List PChild) (h2 : C2.all plainChild = true) :
    rejectKids wid
        (C1 ++ .del delNid wid author [.r N ⟨none, [.delText s]⟩] :: C2) =
      C1 ++ .r N ⟨none, [.t s]⟩ :: C2 := by
  induction C1 with
  | nil =>
    simp only [List.nil_append, rejectKids, rejectChild, if_pos]
    rw [rejectKids_plain wid C2 h2]
    rfl
  | cons c rest ih =>
    obtain ⟨hc, hrest⟩ : plainChild c = true ∧ rest.all plainChild = true := by
      simpa [List.all_cons, Bool.and_eq_true] using h1
    obtain ⟨n, s', hceq, -, -, -⟩ := plainChild_elim c hc
    subst hceq
    rw [List.cons_append]
    simp only [rejectKids, rejectChild, List.singleton_append]
    rw [ih hrest]
    rfl


/-- Plain paragraph spans over an append. -/
theorem plainParaSpans_append (C1 : List PChild) :
    ∀ (o : Nat) (rest : List PChild),
      plainParaSpans (C1 ++ rest) o =
        plainParaSpans C1 o ++
          plainParaSpans rest (o + ((C1.map childText).flatten).length) := by
  induction C1 with
  | nil => intro o rest; simp [plainParaSpans]
  | cons c cs ih =>
    intro o rest
    cases c with
    | r nid rd =>
      simp only [List.cons_append, plainParaSpans, List.map_cons, List.flatten_cons,
        childText, List.append_eq]
      rw [ih]
      simp [List.length_append, Nat.add_assoc]
    | ins n w a kids =>
      simp only [List.cons_append, plainParaSpans, List.map_cons, List.flatten_cons,
        childText, List.append_eq]
      rw [ih]
      simp
    | del n w a kids =>
      simp only [List.cons_append, plainParaSpans, List.map_cons, List.flatten_cons,
        childText, List.append_eq]
      rw [ih]
      simp
    | crStart n cid =>
      simp only [List.cons_append, plainParaSpans, List.map_cons, List.flatten_cons,
        childText, List.append_eq]
      rw [ih]
      simp
    | crEnd n cid =>
      simp only [List.cons_append, plainParaSpans, List.map_cons, List.flatten_cons,
        childText, List.append_eq]
      rw [ih]
      simp

/-- Document text over an append. -/
theorem plainDocText_append (P Q : List Para) :
    plainDocText (P ++ Q) = plainDocText P ++ plainDocText Q := by
  simp [plainDocText]

/-- Plain document spans over an append. -/
theorem plainDocSpans_append (P : List Para) :
    ∀ (o : Nat) (Q : List Para),
      plainDocSpans (P ++ Q) o =
        plainDocSpans P o ++ plainDocSpans Q (o + (plainDocText P).length) := by
  induction P with
  | nil => intro o Q; simp [plainDocSpans, plainDocText]
  | cons p ps ih =>
    intro o Q
    simp only [List.cons_append, plainDocSpans, List.append_eq]
    rw [ih]
    simp only [plainDocText, List.length_append, List.append_assoc, Nat.add_assoc,
      List.map_cons, List.flatten_cons, List.length_flatten, List.map_map]
    congr 2

/-- Texts of the spans of a plain child list. -/
theorem plainParaSpans_shape (l : List PChild) (h : l.all plainChild = true) :
    ∀ (o : Nat) (t : TextSpan), t ∈ plainParaSpans l o →
      t.text.isEmpty = false ∧ t.text.contains '\n' = false := by
  induction l with
  | nil => intro o t ht; cases ht
  | cons c rest ih =>
    intro o t ht
    obtain ⟨hc, hrest⟩ : plainChild c = true ∧ rest.all plainChild = true := by
      simpa [List.all_cons, Bool.and_eq_true] using h
    obtain ⟨n, s, hceq, h1, h2, -⟩ := plainChild_elim c hc
    subst hceq
    simp only [plainParaSpans, List.mem_cons] at ht
    rcases ht with ht | ht
    · subst ht
      simp only [get_run_text_plain]
      exact ⟨h1, h2⟩
    · exact ih hrest _ t ht

/-- Texts of the spans of a plain body: separators or newline-free runs. -/
theorem plainDocSpans_shape (paras : List Para) (h : plainDoc paras = true) :
    ∀ (o : Nat) (t : TextSpan), t ∈ plainDocSpans paras o →
      t.text = ['\n', '\n'] ∨
        (t.text.isEmpty = false ∧ t.text.contains '\n' = false) := by
  induction paras with
  | nil => intro o t ht; cases ht
  | cons p rest ih =>
    intro o t ht
    obtain ⟨hp, hrest⟩ : plainPara p = true ∧ rest.all plainPara = true := by
      simpa [plainDoc, List.all_cons, Bool.and_eq_true] using h
    obtain ⟨-, hkids⟩ : p.mdPrefix.isEmpty = true ∧ p.children.all plainChild = true := by
      simpa [plainPara, Bool.and_eq_true] using hp
    simp only [plainDocSpans, List.mem_append, List.mem_cons] at ht
    rcases ht with ht | ht | ht
    · exact Or.inr (plainParaSpans_shape p.children hkids o t ht)
    · subst ht; exact Or.inl rfl
    · exact ih hrest _ t ht

/-- On a list of separator and newline-free spans, dropping trailing
separators is exactly trailing-pair stripping of the concatenation. -/
theorem concat_popSpans_strip (l : List TextSpan)
    (h : ∀ t ∈ l, t.text = ['\n', '\n'] ∨
      (t.text.isEmpty = false ∧ t.text.contains '\n' = false)) :
    concatSpans (popSpans l) = stripTrailingSepPairs (concatSpans l) := by
  induction l using List.reverseRecOn with
  | nil => rfl
  | append_singleton xs x ih =>
    have hc : concatSpans (xs ++ [x]) = concatSpans xs ++ x.text := by
      simp [concatSpans]
    rcases h x (by simp) with hsep | ⟨hne, hnl⟩
    · rw [popSpans_snoc_sep _ _ hsep, ih (fun t ht => h t (by simp [ht])), hc, hsep]
      have hsp := strip_append_pairs (concatSpans xs) 1
      have hrep : List.replicate (2 * 1) '\n' = ['\n', '\n'] := by rfl
      rw [hrep] at hsp
      rw [hsp]
    · have hxne : x.text ≠ [] := by
        intro he
        rw [he] at hne
        simp at hne
      have hnotmem : ('\n' : Char) ∉ x.text := by
        simpa using hnl
      have hnsep : ¬ x.text = ['\n', '\n'] := by
        intro he
        apply hnotmem
        rw [he]
        simp
      rw [popSpans_snoc_nosep _ _ hnsep, hc]
      obtain ⟨c, hcl⟩ : ∃ c, x.text.getLast? = some c :=
        Option.isSome_iff_exists.mp (List.getLast?_isSome.mpr hxne)
      have hmem : c ∈ x.text := by
        apply List.mem_of_mem_getLast?
        rw [hcl]
        rfl
      have hcne : c ≠ '\n' := by
        intro he
        subst he
        exact hnotmem hmem
      have hlast : (concatSpans xs ++ x.text).getLast? = some c :=
        (List.getLast?_append_of_ne_nil _ hxne).trans hcl
      exact (strip_no_nl_end _ c hcne hlast).symm


/-- `take` within the left part of an append. -/
theorem take_append_le {α : Type} (l1 l2 : List α) :
    ∀ n, n ≤ l1.length → (l1 ++ l2).take n = l1.take n := by
  induction l1 with
  | nil =>
    intro n h
    have : n = 0 := Nat.le_zero.mp (by simpa using h)
    subst this
    simp
  | cons a l ih =>
    intro n h
    cases n with
    | zero => simp
    | succ m =>
      simp only [List.cons_append, List.take_succ_cons]
      rw [ih m (by simpa using h)]

/-- `drop` within the left part of an append. -/
theorem drop_append_le {α : Type} (l1 l2 : List α) :
    ∀ n, n ≤ l1.length → (l1 ++ l2).drop n = l1.drop n ++ l2 := by
  induction l1 with
  | nil =>
    intro n h
    have : n = 0 := Nat.le_zero.mp (by simpa using h)
    subst this
    simp
  | cons a l ih =>
    intro n h
    cases n with
    | zero => simp
    | succ m =>
      simp only [List.cons_append, List.drop_succ_cons]
      exact ih m (by simpa using h)

/-- `findRun` skips paragraphs that do not hold the node. -/
theorem findRun_append_fresh (nid : Nat) (P : List Para)
    (h : ∀ q ∈ P, findRunInKids nid q.children = none) :
    ∀ rest, findRun (P ++ rest) nid = findRun rest nid := by
  induction P with
  | nil => intro rest; rfl
  | cons p ps ih =>
    intro rest
    rw [List.cons_append]
    simp only [findRun]
    rw [h p (by simp)]
    exact ih (fun q hq => h q (by simp [hq])) rest

/-- Mapping a children transform that fixes every member is the identity. -/
theorem map_children_id (P : List Para) (f : List PChild → List PChild)
    (h : ∀ p ∈ P, f p.children = p.children) :
    P.map (fun p => { p with children := f p.children }) = P := by
  induction P with
  | nil => rfl
  | cons p ps ih =>
    simp only [List.map_cons]
    rw [h p (by simp), ih (fun q hq => h q (by simp [hq]))]

/-- `chain_filter_overlap` with the member's boundaries named. -/
theorem chain_filter_overlap_at (A : List TextSpan) (s : TextSpan) (B : List TextSpan)
    (o a b : Nat) (h : SpanChain o (A ++ s :: B)) (hlen : 0 < s.text.length)
    (ha : s.start = a) (hb : s.endPos = b) :
    (A ++ s :: B).filter
      (fun t => decide (a < t.endPos) && decide (t.start < b)) = [s] := by
  subst ha
  subst hb
  exact chain_filter_overlap A s B o h hlen

/-- `chain_filter_overlap_run` with the member's boundaries named. -/
theorem chain_filter_overlap_run_at (A : List TextSpan) (s : TextSpan)
    (B : List TextSpan) (o a b : Nat) (h : SpanChain o (A ++ s :: B))
    (hlen : 0 < s.text.length) (hrun : s.run.isSome = true)
    (ha : s.start = a) (hb : s.endPos = b) :
    (A ++ s :: B).filter
      (fun t => t.run.isSome && decide (a < t.endPos) &&
        decide (t.start < b)) = [s] := by
  subst ha
  subst hb
  exact chain_filter_overlap_run A s B o h hlen hrun


/-- `_resolve_runs_at_range` over a range that exactly covers one real
span: no splits, no rebuild, the span's run is the single working run. -/
theorem resolve_exact (e : Eng) (tag : MapperTag) (A B : List TextSpan)
    (sp : TextSpan) (nid : Nat) (rd : RunData)
    (hspans : (mapperOf e tag).spans = A ++ sp :: B)
    (hchain : SpanChain 0 (A ++ sp :: B))
    (hlen : 0 < sp.text.length)
    (hrun : sp.run = some nid)
    (hfind : findRun e.paras nid = some rd)
    (htext : (pydocxRunText rd).length = sp.text.length) :
    _resolve_runs_at_range e tag sp.start sp.endPos = (e, [nid]) := by
  have he : sp.endPos = sp.start + sp.text.length :=
    SpanChain_forall _ 0 hchain sp (by simp)
  simp only [_resolve_runs_at_range]
  rw [hspans]
  rw [chain_filter_overlap_at A sp B 0 sp.start sp.endPos hchain hlen rfl rfl]
  simp [hrun, hfind, htext, he, Nat.min_self, Nat.add_sub_cancel_left, lt_irrefl]

/-- C7 (amended): deletion accept/reject round trip on a plain body.  For a
document of plain marker-free single-`w:t` runs, a Deletion edit whose
matched range is exactly one whole run is applied (returns success), and on
the change id it allocates (`"1"` on a pristine document): ACCEPT followed
by a mapper rebuild yields the pre-edit logical text with the deleted text
excised and trailing separator pairs renormalized (not always the verbatim
pre-minus-deleted text, see the counterexample), while REJECT followed by a
rebuild restores the pre-edit logical text exactly. -/
theorem deletion_accept_reject_roundtrip_amended
    (author : Str) (cm : CommentsMap) (cs : CommentsState)
    (P Q : List Para) (pn : Nat) (C1 C2 : List PChild) (nid : Nat)
    (s : Str) (paras : List Para) (start : Nat) (edit : DocumentEdit)
    (pre : Str) (r : Bool × Eng) (wid : Str)
    (hP : plainDoc P = true) (hQ : plainDoc Q = true)
    (hC1 : C1.all plainChild = true) (hC2 : C2.all plainChild = true)
    (hs1 : s.isEmpty = false) (hs2 : s.contains '\n' = false)
    (hs3 : s.contains '\t' = false)
    (hfP : ∀ q ∈ P, nid ∉ kidsNids q.children)
    (hfQ : ∀ q ∈ Q, nid ∉ kidsNids q.children)
    (hfC1 : nid ∉ kidsNids C1)
    (hparas : paras = P ++ (⟨pn, [], C1 ++ PChild.r nid ⟨none, [.t s]⟩ :: C2⟩ : Para) :: Q)
    (hstart : start = (plainDocText P).length + ((C1.map childText).flatten).length)
    (hedit : edit = ⟨s, [], none, some start, none, none⟩)
    (hpre : pre = stripTrailingSepPairs (plainDocText paras))
    (hr : r = _apply_single_edit_indexed (engInit author cm cs paras) edit)
    (hwid : wid = intToStr 1) :
    r.1 = true ∧
    (_build_map cm false (engDocOf ((_accept_change r.2 wid).1).paras)).full_text =
      stripTrailingSepPairs (pre.take start ++ pre.drop (start + s.length)) ∧
    (_build_map cm false (engDocOf ((_reject_change r.2 wid).1).paras)).full_text =
      pre := by
  subst hparas
  subst hstart
  subst hedit
  subst hpre
  subst hwid
  subst hr
  have hlen : 0 < s.length := by
    cases s with
    | nil => simp at hs1
    | cons a l => simp
  have hnl : ('\n' : Char) ∉ s := by simpa using hs2
  have hnt : ('\t' : Char) ∉ s := by simpa using hs3
  have hrnP : plainChild (PChild.r nid ⟨none, [.t s]⟩) = true := by
    simp [plainChild, hs1]
    exact ⟨hnl, hnt⟩
  have hmidK : (C1 ++ PChild.r nid ⟨none, [.t s]⟩ :: C2).all plainChild = true := by
    simp [List.all_append, List.all_cons, hC1, hC2, hrnP]
  have hmidP : plainPara (⟨pn, [], C1 ++ PChild.r nid ⟨none, [.t s]⟩ :: C2⟩ : Para) = true := by
    simp [plainPara, hmidK]
  have hdoc : plainDoc (P ++ (⟨pn, [], C1 ++ PChild.r nid ⟨none, [.t s]⟩ :: C2⟩ : Para) :: Q)
      = true := by
    simp only [plainDoc, List.all_append, List.all_cons, Bool.and_eq_true]
    refine ⟨by simpa [plainDoc] using hP, hmidP, by simpa [plainDoc] using hQ⟩
  have hmap : (engInit author cm cs
        (P ++ (⟨pn, [], C1 ++ PChild.r nid ⟨none, [.t s]⟩ :: C2⟩ : Para) :: Q)).mapper =
      ⟨popSpans (plainDocSpans
          (P ++ (⟨pn, [], C1 ++ PChild.r nid ⟨none, [.t s]⟩ :: C2⟩ : Para) :: Q) 0),
        concatSpans (popSpans (plainDocSpans
          (P ++ (⟨pn, [], C1 ++ PChild.r nid ⟨none, [.t s]⟩ :: C2⟩ : Para) :: Q) 0))⟩ :=
    build_plain cm _ hdoc
  obtain ⟨A0, B0, hDdecomp⟩ :
      ∃ A B, plainDocSpans
          (P ++ (⟨pn, [], C1 ++ PChild.r nid ⟨none, [.t s]⟩ :: C2⟩ : Para) :: Q) 0 =
        A ++ (⟨(plainDocText P).length + ((C1.map childText).flatten).length,
            ((plainDocText P).length + ((C1.map childText).flatten).length) + s.length,
            s, some nid, none, none⟩ : TextSpan) :: B := by
    refine ⟨plainDocSpans P 0 ++ plainParaSpans C1 ((plainDocText P).length),
      plainParaSpans C2 ((plainDocText P).length + ((C1.map childText).flatten).length
          + s.length) ++
        (⟨(plainDocText P).length +
            (paraText (⟨pn, [], C1 ++ PChild.r nid ⟨none, [.t s]⟩ :: C2⟩ : Para)).length,
          (plainDocText P).length +
            (paraText (⟨pn, [], C1 ++ PChild.r nid ⟨none, [.t s]⟩ :: C2⟩ : Para)).length + 2,
          ['\n', '\n'], none, none, none⟩ : TextSpan) ::
        plainDocSpans Q ((plainDocText P).length +
          (paraText (⟨pn, [], C1 ++ PChild.r nid ⟨none, [.t s]⟩ :: C2⟩ : Para)).length + 2),
      ?_⟩
    rw [plainDocSpans_append]
    simp only [plainDocSpans]
    rw [plainParaSpans_append]
    simp only [plainParaSpans]
    rw [get_run_text_plain]
    simp only [Nat.zero_add, List.append_assoc, List.cons_append]
  have hspne : ¬ (s = ['\n', '\n']) := by
    intro he
    apply hnl
    rw [he]
    simp
  obtain ⟨B1, hB1sub, hPop⟩ := popSpans_decomp A0
    (⟨(plainDocText P).length + ((C1.map childText).flatten).length,
      ((plainDocText P).length + ((C1.map childText).flatten).length) + s.length,
      s, some nid, none, none⟩ : TextSpan) B0 hspne
  rw [← hDdecomp] at hPop
  have hchainD : SpanChain 0 (plainDocSpans
      (P ++ (⟨pn, [], C1 ++ PChild.r nid ⟨none, [.t s]⟩ :: C2⟩ : Para) :: Q) 0) :=
    chain_plainDocSpans _ 0
  have hchainPop : SpanChain 0 (A0 ++
      (⟨(plainDocText P).length + ((C1.map childText).flatten).length,
        ((plainDocText P).length + ((C1.map childText).flatten).length) + s.length,
        s, some nid, none, none⟩ : TextSpan) :: B1) := by
    rw [← hPop]
    exact chain_popSpans _ 0 hchainD
  have hfreshP : ∀ q ∈ P, findRunInKids nid q.children = none := by
    intro q hq
    have hqp : plainPara q = true := by
      have := (by simpa [plainDoc] using hP : ∀ x ∈ P, plainPara x = true)
      exact this q hq
    have hqk : q.children.all plainChild = true := by
      have h2 := hqp
      rw [plainPara, Bool.and_eq_true] at h2
      exact h2.2
    exact findRunInKids_plain_fresh nid q.children hqk (hfP q hq)
  have hfindRun : findRun
      (P ++ (⟨pn, [], C1 ++ PChild.r nid ⟨none, [.t s]⟩ :: C2⟩ : Para) :: Q) nid =
      some ⟨none, [.t s]⟩ := by
    rw [findRun_append_fresh nid P hfreshP]
    simp only [findRun]
    rw [findRunInKids_plain_hit nid C1 hC1 hfC1 ⟨none, [.t s]⟩ C2]
  have hguard : get_context_at_range (engInit author cm cs
        (P ++ (⟨pn, [], C1 ++ PChild.r nid ⟨none, [.t s]⟩ :: C2⟩ : Para) :: Q)).mapper
      ((plainDocText P).length + ((C1.map childText).flatten).length)
      (((plainDocText P).length + ((C1.map childText).flatten).length) + s.length) =
      some (⟨(plainDocText P).length + ((C1.map childText).flatten).length,
        ((plainDocText P).length + ((C1.map childText).flatten).length) + s.length,
        s, some nid, none, none⟩ : TextSpan) := by
    rw [hmap]
    simp only [get_context_at_range]
    rw [hPop]
    rw [chain_filter_overlap_run_at A0 _ B1 0
      ((plainDocText P).length + ((C1.map childText).flatten).length)
      (((plainDocText P).length + ((C1.map childText).flatten).length) + s.length)
      hchainPop hlen rfl rfl rfl]
    rfl
  have hspans : (mapperOf (engInit author cm cs
        (P ++ (⟨pn, [], C1 ++ PChild.r nid ⟨none, [.t s]⟩ :: C2⟩ : Para) :: Q)) .raw).spans =
      A0 ++ (⟨(plainDocText P).length + ((C1.map childText).flatten).length,
        ((plainDocText P).length + ((C1.map childText).flatten).length) + s.length,
        s, some nid, none, none⟩ : TextSpan) :: B1 := by
    simp only [mapperOf]
    rw [hmap]
    exact hPop
  have hresolve : find_target_runs_by_index (engInit author cm cs
        (P ++ (⟨pn, [], C1 ++ PChild.r nid ⟨none, [.t s]⟩ :: C2⟩ : Para) :: Q)) .raw
      ((plainDocText P).length + ((C1.map childText).flatten).length) s.length =
      (engInit author cm cs
        (P ++ (⟨pn, [], C1 ++ PChild.r nid ⟨none, [.t s]⟩ :: C2⟩ : Para) :: Q), [nid]) :=
    resolve_exact _ .raw A0 B1
      (⟨(plainDocText P).length + ((C1.map childText).flatten).length,
        ((plainDocText P).length + ((C1.map childText).flatten).length) + s.length,
        s, some nid, none, none⟩ : TextSpan) nid ⟨none, [.t s]⟩
      hspans hchainPop hlen rfl hfindRun (by rw [pydocx_plain])
  have hPkids : ∀ q ∈ P, q.children.all plainChild = true := by
    intro q hq
    have hqp : plainPara q = true := by
      have := (by simpa [plainDoc] using hP : ∀ x ∈ P, plainPara x = true)
      exact this q hq
    rw [plainPara, Bool.and_eq_true] at hqp
    exact hqp.2
  have hQkids : ∀ q ∈ Q, q.children.all plainChild = true := by
    intro q hq
    have hqp : plainPara q = true := by
      have := (by simpa [plainDoc] using hQ : ∀ x ∈ Q, plainPara x = true)
      exact this q hq
    rw [plainPara, Bool.and_eq_true] at hqp
    exact hqp.2
  have htrack : track_delete_run (engInit author cm cs (P ++ (⟨pn, [], C1 ++ PChild.r nid ⟨none, [.t s]⟩ :: C2⟩ : Para) :: Q)) nid =
      (⟨P ++ (⟨pn, [], C1 ++
            PChild.del (freshNidAfter (P ++ (⟨pn, [], C1 ++ PChild.r nid ⟨none, [.t s]⟩ :: C2⟩ : Para) :: Q) + 1) (intToStr 1) (some author)
              [PChild.r (freshNidAfter (P ++ (⟨pn, [], C1 ++ PChild.r nid ⟨none, [.t s]⟩ :: C2⟩ : Para) :: Q)) ⟨none, [.delText s]⟩] :: C2⟩ : Para) :: Q,
        freshNidAfter (P ++ (⟨pn, [], C1 ++ PChild.r nid ⟨none, [.t s]⟩ :: C2⟩ : Para) :: Q) + 2, 1, author, cm,
        _build_map cm false (engDocOf (P ++ (⟨pn, [], C1 ++ PChild.r nid ⟨none, [.t s]⟩ :: C2⟩ : Para) :: Q)),
        none, cs⟩,
       some (freshNidAfter (P ++ (⟨pn, [], C1 ++ PChild.r nid ⟨none, [.t s]⟩ :: C2⟩ : Para) :: Q) + 1)) := by
    simp only [track_delete_run, engInit]
    rw [scan_plain _ hdoc]
    rw [hfindRun]
    simp only [pydocx_plain, List.map_append, List.map_cons, zero_add]
    rw [map_children_id P
      (replaceRunByDel nid (freshNidAfter (P ++ (⟨pn, [], C1 ++ PChild.r nid ⟨none, [.t s]⟩ :: C2⟩ : Para) :: Q) + 1) (intToStr 1) author
        (PChild.r (freshNidAfter (P ++ (⟨pn, [], C1 ++ PChild.r nid ⟨none, [.t s]⟩ :: C2⟩ : Para) :: Q)) ⟨none, [.delText s]⟩))
      (fun q hq =>
        replaceRun_plain_fresh nid _ _ _ _ q.children (hPkids q hq) (hfP q hq))]
    rw [map_children_id Q
      (replaceRunByDel nid (freshNidAfter (P ++ (⟨pn, [], C1 ++ PChild.r nid ⟨none, [.t s]⟩ :: C2⟩ : Para) :: Q) + 1) (intToStr 1) author
        (PChild.r (freshNidAfter (P ++ (⟨pn, [], C1 ++ PChild.r nid ⟨none, [.t s]⟩ :: C2⟩ : Para) :: Q)) ⟨none, [.delText s]⟩))
      (fun q hq =>
        replaceRun_plain_fresh nid _ _ _ _ q.children (hQkids q hq) (hfQ q hq))]
    rw [replaceRun_plain_hit nid _ _ author _ C1 hC1 hfC1 ⟨none, [.t s]⟩ C2]
  have hApply : _apply_single_edit_indexed (engInit author cm cs (P ++ (⟨pn, [], C1 ++ PChild.r nid ⟨none, [.t s]⟩ :: C2⟩ : Para) :: Q))
      (⟨s, [], none, some ((plainDocText P).length + ((C1.map childText).flatten).length), none, none⟩ : DocumentEdit) =
      (true, ⟨P ++ (⟨pn, [], C1 ++
            PChild.del (freshNidAfter (P ++ (⟨pn, [], C1 ++ PChild.r nid ⟨none, [.t s]⟩ :: C2⟩ : Para) :: Q) + 1) (intToStr 1) (some author)
              [PChild.r (freshNidAfter (P ++ (⟨pn, [], C1 ++ PChild.r nid ⟨none, [.t s]⟩ :: C2⟩ : Para) :: Q)) ⟨none, [.delText s]⟩] :: C2⟩ : Para) :: Q,
        freshNidAfter (P ++ (⟨pn, [], C1 ++ PChild.r nid ⟨none, [.t s]⟩ :: C2⟩ : Para) :: Q) + 2, 1, author, cm,
        _build_map cm false (engDocOf (P ++ (⟨pn, [], C1 ++ PChild.r nid ⟨none, [.t s]⟩ :: C2⟩ : Para) :: Q)),
        none, cs⟩) := by
    simp only [_apply_single_edit_indexed, hs1, List.isEmpty_nil, Bool.false_and,
      Bool.not_false, Bool.true_and, Bool.and_true, Option.getD_some, Option.getD_none]
    rw [if_pos hlen]
    rw [hguard]
    simp only [Option.bind, Bool.false_eq_true, if_false, if_true, hresolve, htrack,
      List.foldl_cons, List.foldl_nil, List.isEmpty_cons]
  have hAccept : ((_accept_change (⟨P ++ (⟨pn, [], C1 ++
            PChild.del (freshNidAfter (P ++ (⟨pn, [], C1 ++ PChild.r nid ⟨none, [.t s]⟩ :: C2⟩ : Para) :: Q) + 1) (intToStr 1) (some author)
              [PChild.r (freshNidAfter (P ++ (⟨pn, [], C1 ++ PChild.r nid ⟨none, [.t s]⟩ :: C2⟩ : Para) :: Q)) ⟨none, [.delText s]⟩] :: C2⟩ : Para) :: Q,
        freshNidAfter (P ++ (⟨pn, [], C1 ++ PChild.r nid ⟨none, [.t s]⟩ :: C2⟩ : Para) :: Q) + 2, 1, author, cm,
        _build_map cm false (engDocOf (P ++ (⟨pn, [], C1 ++ PChild.r nid ⟨none, [.t s]⟩ :: C2⟩ : Para) :: Q)),
        none, cs⟩ : Eng) (intToStr 1)).1).paras =
      P ++ (⟨pn, [], C1 ++ C2⟩ : Para) :: Q := by
    simp only [_accept_change, List.map_append, List.map_cons]
    rw [map_children_id P (acceptKids (intToStr 1))
      (fun q hq => acceptKids_plain _ _ (hPkids q hq))]
    rw [map_children_id Q (acceptKids (intToStr 1))
      (fun q hq => acceptKids_plain _ _ (hQkids q hq))]
    rw [acceptKids_hit (intToStr 1) _ _ _ C1 hC1 C2 hC2]
  have hReject : ((_reject_change (⟨P ++ (⟨pn, [], C1 ++
            PChild.del (freshNidAfter (P ++ (⟨pn, [], C1 ++ PChild.r nid ⟨none, [.t s]⟩ :: C2⟩ : Para) :: Q) + 1) (intToStr 1) (some author)
              [PChild.r (freshNidAfter (P ++ (⟨pn, [], C1 ++ PChild.r nid ⟨none, [.t s]⟩ :: C2⟩ : Para) :: Q)) ⟨none, [.delText s]⟩] :: C2⟩ : Para) :: Q,
        freshNidAfter (P ++ (⟨pn, [], C1 ++ PChild.r nid ⟨none, [.t s]⟩ :: C2⟩ : Para) :: Q) + 2, 1, author, cm,
        _build_map cm false (engDocOf (P ++ (⟨pn, [], C1 ++ PChild.r nid ⟨none, [.t s]⟩ :: C2⟩ : Para) :: Q)),
        none, cs⟩ : Eng) (intToStr 1)).1).paras =
      P ++ (⟨pn, [], C1 ++ PChild.r (freshNidAfter (P ++ (⟨pn, [], C1 ++ PChild.r nid ⟨none, [.t s]⟩ :: C2⟩ : Para) :: Q)) ⟨none, [.t s]⟩ :: C2⟩ : Para) :: Q := by
    simp only [_reject_change, List.map_append, List.map_cons]
    rw [map_children_id P (rejectKids (intToStr 1))
      (fun q hq => rejectKids_plain _ _ (hPkids q hq))]
    rw [map_children_id Q (rejectKids (intToStr 1))
      (fun q hq => rejectKids_plain _ _ (hQkids q hq))]
    rw [rejectKids_hit (intToStr 1) _ _ _ s C1 hC1 C2 hC2]
  have hK : (C1 ++ C2).all plainChild = true := by
    simp [List.all_append, hC1, hC2]
  have hAccPlain : plainDoc (P ++ (⟨pn, [], C1 ++ C2⟩ : Para) :: Q) = true := by
    simp only [plainDoc, List.all_append, List.all_cons, Bool.and_eq_true]
    refine ⟨by simpa [plainDoc] using hP, by simp [plainPara, hK],
      by simpa [plainDoc] using hQ⟩
  have hrnPN : plainChild (PChild.r (freshNidAfter (P ++ (⟨pn, [], C1 ++ PChild.r nid ⟨none, [.t s]⟩ :: C2⟩ : Para) :: Q)) ⟨none, [.t s]⟩) = true := by
    simp [plainChild, hs1]
    exact ⟨hnl, hnt⟩
  have hKR : (C1 ++ PChild.r (freshNidAfter (P ++ (⟨pn, [], C1 ++ PChild.r nid ⟨none, [.t s]⟩ :: C2⟩ : Para) :: Q)) ⟨none, [.t s]⟩ :: C2).all plainChild = true := by
    simp [List.all_append, List.all_cons, hC1, hC2, hrnPN]
  have hRejPlain : plainDoc
      (P ++ (⟨pn, [], C1 ++ PChild.r (freshNidAfter (P ++ (⟨pn, [], C1 ++ PChild.r nid ⟨none, [.t s]⟩ :: C2⟩ : Para) :: Q)) ⟨none, [.t s]⟩ :: C2⟩ : Para) :: Q) = true := by
    simp only [plainDoc, List.all_append, List.all_cons, Bool.and_eq_true]
    refine ⟨by simpa [plainDoc] using hP, by simp [plainPara, hKR],
      by simpa [plainDoc] using hQ⟩
  have hAccText : (_build_map cm false
        (engDocOf (P ++ (⟨pn, [], C1 ++ C2⟩ : Para) :: Q))).full_text =
      stripTrailingSepPairs (plainDocText (P ++ (⟨pn, [], C1 ++ C2⟩ : Para) :: Q)) := by
    rw [build_plain cm _ hAccPlain]
    show concatSpans (popSpans (plainDocSpans _ 0)) = _
    rw [concat_popSpans_strip _ (fun t ht => plainDocSpans_shape _ hAccPlain 0 t ht)]
    rw [concat_plainDocSpans]
  have hRejText : (_build_map cm false
        (engDocOf (P ++ (⟨pn, [], C1 ++ PChild.r (freshNidAfter (P ++ (⟨pn, [], C1 ++ PChild.r nid ⟨none, [.t s]⟩ :: C2⟩ : Para) :: Q)) ⟨none, [.t s]⟩ :: C2⟩ : Para) :: Q))).full_text =
      stripTrailingSepPairs (plainDocText
        (P ++ (⟨pn, [], C1 ++ PChild.r (freshNidAfter (P ++ (⟨pn, [], C1 ++ PChild.r nid ⟨none, [.t s]⟩ :: C2⟩ : Para) :: Q)) ⟨none, [.t s]⟩ :: C2⟩ : Para) :: Q)) := by
    rw [build_plain cm _ hRejPlain]
    show concatSpans (popSpans (plainDocSpans _ 0)) = _
    rw [concat_popSpans_strip _ (fun t ht => plainDocSpans_shape _ hRejPlain 0 t ht)]
    rw [concat_plainDocSpans]
  have hPreEq : concatSpans (A0 ++ (⟨((plainDocText P).length + ((C1.map childText).flatten).length), ((plainDocText P).length + ((C1.map childText).flatten).length) + s.length, s, some nid, none, none⟩ : TextSpan) :: B1) =
      stripTrailingSepPairs (plainDocText (P ++ (⟨pn, [], C1 ++ PChild.r nid ⟨none, [.t s]⟩ :: C2⟩ : Para) :: Q)) := by
    rw [← hPop]
    rw [concat_popSpans_strip _ (fun t ht => plainDocSpans_shape _ hdoc 0 t ht)]
    rw [concat_plainDocSpans]
  have hn2le : ((plainDocText P).length + ((C1.map childText).flatten).length) + s.length ≤ (stripTrailingSepPairs (plainDocText (P ++ (⟨pn, [], C1 ++ PChild.r nid ⟨none, [.t s]⟩ :: C2⟩ : Para) :: Q))).length := by
    have h1 := chain_mem_endPos_le _ 0 hchainPop (⟨((plainDocText P).length + ((C1.map childText).flatten).length), ((plainDocText P).length + ((C1.map childText).flatten).length) + s.length, s, some nid, none, none⟩ : TextSpan) (by simp)
    rw [hPreEq] at h1
    simpa using h1
  have hD0 : plainDocText (P ++ (⟨pn, [], C1 ++ PChild.r nid ⟨none, [.t s]⟩ :: C2⟩ : Para) :: Q) =
      (plainDocText P ++ ((C1.map childText).flatten)) ++ (s ++ (((C2.map childText).flatten) ++ ('\n' :: '\n' :: plainDocText Q))) := by
    simp [plainDocText, paraText, childText, get_run_text_plain, List.append_assoc]
  have hT1len : (plainDocText P ++ ((C1.map childText).flatten)).length = ((plainDocText P).length + ((C1.map childText).flatten).length) := by
    simp
  obtain ⟨k, hk⟩ := strip_decomp (plainDocText (P ++ (⟨pn, [], C1 ++ PChild.r nid ⟨none, [.t s]⟩ :: C2⟩ : Para) :: Q))
  have hstartle : ((plainDocText P).length + ((C1.map childText).flatten).length) ≤ (stripTrailingSepPairs (plainDocText (P ++ (⟨pn, [], C1 ++ PChild.r nid ⟨none, [.t s]⟩ :: C2⟩ : Para) :: Q))).length := by
    omega
  have htake : (stripTrailingSepPairs (plainDocText (P ++ (⟨pn, [], C1 ++ PChild.r nid ⟨none, [.t s]⟩ :: C2⟩ : Para) :: Q))).take ((plainDocText P).length + ((C1.map childText).flatten).length) = (plainDocText P ++ ((C1.map childText).flatten)) := by
    have h2 : (plainDocText (P ++ (⟨pn, [], C1 ++ PChild.r nid ⟨none, [.t s]⟩ :: C2⟩ : Para) :: Q)).take ((plainDocText P).length + ((C1.map childText).flatten).length) =
        (stripTrailingSepPairs (plainDocText (P ++ (⟨pn, [], C1 ++ PChild.r nid ⟨none, [.t s]⟩ :: C2⟩ : Para) :: Q))).take ((plainDocText P).length + ((C1.map childText).flatten).length) := by
      conv_lhs => rw [hk]
      rw [take_append_le _ _ ((plainDocText P).length + ((C1.map childText).flatten).length) hstartle]
    rw [← h2, hD0, ← hT1len, List.take_left]
  have hT1slen : ((plainDocText P ++ ((C1.map childText).flatten)) ++ s).length = ((plainDocText P).length + ((C1.map childText).flatten).length) + s.length := by
    simp only [List.length_append]
  have hD0s : plainDocText (P ++ (⟨pn, [], C1 ++ PChild.r nid ⟨none, [.t s]⟩ :: C2⟩ : Para) :: Q) =
      ((plainDocText P ++ ((C1.map childText).flatten)) ++ s) ++ (((C2.map childText).flatten) ++ ('\n' :: '\n' :: plainDocText Q)) := by
    rw [hD0]
    simp [List.append_assoc]
  have hdropD : (plainDocText (P ++ (⟨pn, [], C1 ++ PChild.r nid ⟨none, [.t s]⟩ :: C2⟩ : Para) :: Q)).drop (((plainDocText P).length + ((C1.map childText).flatten).length) + s.length) =
      ((C2.map childText).flatten) ++ ('\n' :: '\n' :: plainDocText Q) := by
    rw [hD0s, ← hT1slen, List.drop_left]
  have hdropPre : ((C2.map childText).flatten) ++ ('\n' :: '\n' :: plainDocText Q) =
      (stripTrailingSepPairs (plainDocText (P ++ (⟨pn, [], C1 ++ PChild.r nid ⟨none, [.t s]⟩ :: C2⟩ : Para) :: Q))).drop (((plainDocText P).length + ((C1.map childText).flatten).length) + s.length) ++ List.replicate (2 * k) '\n' := by
    rw [← hdropD]
    conv_lhs => rw [hk]
    rw [drop_append_le _ _ _ hn2le]
  have hDA : plainDocText (P ++ (⟨pn, [], C1 ++ C2⟩ : Para) :: Q) =
      (plainDocText P ++ ((C1.map childText).flatten)) ++ (((C2.map childText).flatten) ++ ('\n' :: '\n' :: plainDocText Q)) := by
    simp [plainDocText, paraText, List.append_assoc]
  have hAccFinal : stripTrailingSepPairs
        (plainDocText (P ++ (⟨pn, [], C1 ++ C2⟩ : Para) :: Q)) =
      stripTrailingSepPairs
        ((stripTrailingSepPairs (plainDocText (P ++ (⟨pn, [], C1 ++ PChild.r nid ⟨none, [.t s]⟩ :: C2⟩ : Para) :: Q))).take ((plainDocText P).length + ((C1.map childText).flatten).length) ++ (stripTrailingSepPairs (plainDocText (P ++ (⟨pn, [], C1 ++ PChild.r nid ⟨none, [.t s]⟩ :: C2⟩ : Para) :: Q))).drop (((plainDocText P).length + ((C1.map childText).flatten).length) + s.length)) := by
    rw [hDA, hdropPre]
    rw [show (plainDocText P ++ ((C1.map childText).flatten)) ++ ((stripTrailingSepPairs (plainDocText (P ++ (⟨pn, [], C1 ++ PChild.r nid ⟨none, [.t s]⟩ :: C2⟩ : Para) :: Q))).drop (((plainDocText P).length + ((C1.map childText).flatten).length) + s.length) ++ List.replicate (2 * k) '\n') =
        ((plainDocText P ++ ((C1.map childText).flatten)) ++ (stripTrailingSepPairs (plainDocText (P ++ (⟨pn, [], C1 ++ PChild.r nid ⟨none, [.t s]⟩ :: C2⟩ : Para) :: Q))).drop (((plainDocText P).length + ((C1.map childText).flatten).length) + s.length)) ++ List.replicate (2 * k) '\n' from by
      simp [List.append_assoc]]
    rw [strip_append_pairs]
    rw [← htake]
  have hDR : plainDocText
        (P ++ (⟨pn, [], C1 ++ PChild.r (freshNidAfter (P ++ (⟨pn, [], C1 ++ PChild.r nid ⟨none, [.t s]⟩ :: C2⟩ : Para) :: Q)) ⟨none, [.t s]⟩ :: C2⟩ : Para) :: Q) =
      plainDocText (P ++ (⟨pn, [], C1 ++ PChild.r nid ⟨none, [.t s]⟩ :: C2⟩ : Para) :: Q) := by
    simp [plainDocText, paraText, childText, get_run_text_plain]
  refine ⟨?_, ?_, ?_⟩
  · simp only [hApply]
  · simp only [hApply]
    rw [hAccept]
    rw [hAccText]
    exact hAccFinal
  · simp only [hApply]
    rw [hReject]
    rw [hRejText]
    rw [hDR]


/-- C7 counterexample: on the two-paragraph body `"A" / "B"`, deleting the
whole second paragraph's run and accepting rebuilds to `"A"`, not to the
pre-edit logical text `"A\n\nB"` with `"B"` excised (which would be
`"A\n\n"`): the rebuild also drops the now-trailing paragraph separator,
so the accept half of the claim fails verbatim. -/
theorem deletion_accept_not_verbatim :
    (_apply_single_edit_indexed (engInit ['Z'] [] ⟨[], [], 1, 0⟩
        [⟨0, [], [PChild.r 1 ⟨none, [.t ['A']]⟩]⟩,
          ⟨2, [], [PChild.r 3 ⟨none, [.t ['B']]⟩]⟩])
      (⟨['B'], [], none, some 3, none, none⟩ : DocumentEdit)).1 = true ∧
    stripTrailingSepPairs (plainDocText [⟨0, [], [PChild.r 1 ⟨none, [.t ['A']]⟩]⟩,
          ⟨2, [], [PChild.r 3 ⟨none, [.t ['B']]⟩]⟩]) = ['A', '\n', '\n', 'B'] ∧
    (_build_map [] false (engDocOf ((_accept_change
        (_apply_single_edit_indexed (engInit ['Z'] [] ⟨[], [], 1, 0⟩
        [⟨0, [], [PChild.r 1 ⟨none, [.t ['A']]⟩]⟩,
          ⟨2, [], [PChild.r 3 ⟨none, [.t ['B']]⟩]⟩])
      (⟨['B'], [], none, some 3, none, none⟩ : DocumentEdit)).2 (intToStr 1)).1).paras)).full_text = ['A'] ∧
    ¬ ((_build_map [] false (engDocOf ((_accept_change
        (_apply_single_edit_indexed (engInit ['Z'] [] ⟨[], [], 1, 0⟩
        [⟨0, [], [PChild.r 1 ⟨none, [.t ['A']]⟩]⟩,
          ⟨2, [], [PChild.r 3 ⟨none, [.t ['B']]⟩]⟩])
      (⟨['B'], [], none, some 3, none, none⟩ : DocumentEdit)).2 (intToStr 1)).1).paras)).full_text =
      (['A', '\n', '\n', 'B'] : Str).take 3 ++
        (['A', '\n', '\n', 'B'] : Str).drop (3 + (['B'] : Str).length)) := by
  decide

/-- The amended round trip at a concrete one-run document. -/
theorem deletion_accept_reject_roundtrip_amended_witness :
    (_apply_single_edit_indexed (engInit ['Z'] [] ⟨[], [], 1, 0⟩
        [⟨0, [], [PChild.r 1 ⟨none, [.t ['A']]⟩]⟩])
      (⟨['A'], [], none, some 0, none, none⟩ : DocumentEdit)).1 = true ∧
    (_build_map [] false (engDocOf ((_accept_change
        (_apply_single_edit_indexed (engInit ['Z'] [] ⟨[], [], 1, 0⟩
        [⟨0, [], [PChild.r 1 ⟨none, [.t ['A']]⟩]⟩])
      (⟨['A'], [], none, some 0, none, none⟩ : DocumentEdit)).2 (intToStr 1)).1).paras)).full_text =
      stripTrailingSepPairs ((['A'] : Str).take 0 ++
        (['A'] : Str).drop (0 + (['A'] : Str).length)) ∧
    (_build_map [] false (engDocOf ((_reject_change
        (_apply_single_edit_indexed (engInit ['Z'] [] ⟨[], [], 1, 0⟩
        [⟨0, [], [PChild.r 1 ⟨none, [.t ['A']]⟩]⟩])
      (⟨['A'], [], none, some 0, none, none⟩ : DocumentEdit)).2 (intToStr 1)).1).paras)).full_text = ['A'] :=
  deletion_accept_reject_roundtrip_amended ['Z'] [] ⟨[], [], 1, 0⟩ [] [] 0 [] [] 1
    ['A'] [⟨0, [], [PChild.r 1 ⟨none, [.t ['A']]⟩]⟩] 0 (⟨['A'], [], none, some 0, none, none⟩ : DocumentEdit) ['A']
    (_apply_single_edit_indexed (engInit ['Z'] [] ⟨[], [], 1, 0⟩
        [⟨0, [], [PChild.r 1 ⟨none, [.t ['A']]⟩]⟩])
      (⟨['A'], [], none, some 0, none, none⟩ : DocumentEdit)) (intToStr 1)
    rfl rfl rfl rfl rfl rfl rfl (by simp) (by simp) (by decide)
    rfl rfl rfl (by decide) rfl rfl

/-- C2: the no-deletion-inside-insertion invariant is violated.  On a body
holding the plain run `"ab"` followed by an active session insertion
(id `"1"`) wrapping the run `"cd"`, one indexed edit that deletes the range
`[0, 7)` passes the insertion guard - `get_context_at_range` returns only
the FIRST real span of the range, the plain `"ab"` one, whose `ins_id` is
`none` - and is processed as a plain deletion over both runs, leaving a
`w:del` element nested inside the still-open `w:ins`.  The batch reports
the edit as applied (counters `(1, 0)`). -/
theorem deletion_nested_inside_insertion :
    (apply_edits engOps
        [⟨List.replicate 7 'x', [], none, some 0, none, none⟩]
        (engInit ['A'] [] ⟨[], [], 1, 0⟩
          [⟨0, [], [PChild.r 1 ⟨none, [.t ['a', 'b']]⟩,
            PChild.ins 2 ['1'] (some ['B', 'o', 'b'])
              [PChild.r 3 ⟨none, [.t ['c', 'd']]⟩]]⟩])).1 = (1, 0) ∧
    hasNestedDelInIns ((apply_edits engOps
        [⟨List.replicate 7 'x', [], none, some 0, none, none⟩]
        (engInit ['A'] [] ⟨[], [], 1, 0⟩
          [⟨0, [], [PChild.r 1 ⟨none, [.t ['a', 'b']]⟩,
            PChild.ins 2 ['1'] (some ['B', 'o', 'b'])
              [PChild.r 3 ⟨none, [.t ['c', 'd']]⟩]]⟩])).2.1).paras = true := by
  decide

end VibeRedline
